import Mathlib

/-!
C3LI: a verification development.

Shallow embedding of `C3LI.go` (a command-line client of the crt.sh certificate
search) and of the parts of the Go standard library its behaviour rests on
(`strings.Trim`, `strings.ToLower`, `time.Parse`, `time.Date`, `Time.Format`,
`Time.Before`, `sort.Slice`, `encoding/json` decoding into `[]Certificate`,
`fmt` verbs `%s`, `%d`, `%v`), as of Go 1.22.

Go `string` and `[]byte` values are byte sequences; a byte is a natural number
below 256.  Go `int` is `Int`; conversions to `uint64`/`int64` wrap explicitly.
-/

set_option maxRecDepth 100000
set_option maxHeartbeats 4000000
set_option linter.unusedVariables false

deriving instance DecidableEq for Except

namespace C3LI

/-! ## Bytes -/

/-- Go `string` / `[]byte`: a sequence of bytes. -/
abbrev Bytes := List Nat

/-- The bytes of an ASCII literal of the source. -/
def ascii (s : String) : Bytes := s.data.map Char.toNat

/-! ## package strings -/

/-- Go `strings.trimLeftByte`: drop leading bytes equal to `c`. -/
def trimLeftByte : Bytes → Nat → Bytes
  | [], _ => []
  | x :: s, c => if x = c then trimLeftByte s c else x :: s

/-- Go `strings.trimRightByte`: drop trailing bytes equal to `c`. -/
def trimRightByte (s : Bytes) (c : Nat) : Bytes :=
  (trimLeftByte s.reverse c).reverse

/-- Go `strings.Trim(s, cutset)` for a cutset of one ASCII byte `c`
(the source calls it with the cutset `"\""`). -/
def Trim (s : Bytes) (c : Nat) : Bytes :=
  if s = [] then s else trimLeftByte (trimRightByte s c) c

/-! ## package time -/

/-- Go `time.Time` without a monotonic clock reading and with location UTC:
`wall` holds the nanoseconds within the second and `ext` the signed seconds
since January 1, year 1 00:00:00 UTC. -/
structure Time where
  wall : Int
  ext : Int
deriving DecidableEq, Repr

/-- Go `time.Time{}`, the zero time. -/
def Time.zero : Time := ⟨0, 0⟩

/-- Go `(Time).Before` (no monotonic reading on either side). -/
def Time.Before (t u : Time) : Bool :=
  decide (t.ext < u.ext) || (decide (t.ext = u.ext) && decide (t.wall < u.wall))

/-- Conversion of an integer to Go `uint64`. -/
def u64 (x : Int) : Nat := (x % 18446744073709551616).toNat

/-- Conversion of an integer to Go `int64` (two's complement). -/
def i64 (x : Int) : Int :=
  (x + 9223372036854775808) % 18446744073709551616 - 9223372036854775808

def secondsPerMinute : Int := 60
def secondsPerHour : Int := 3600
def secondsPerDay : Int := 86400
def daysPer400Years : Nat := 146097
def daysPer100Years : Nat := 36524
def daysPer4Years : Nat := 1461

/-- Go `time.absoluteZeroYear`. -/
def absoluteZeroYear : Int := -292277022399

/-- Go `time.absoluteToInternal`. -/
def absoluteToInternal : Int := -9223371966579724800

/-- Go `time.internalToAbsolute`. -/
def internalToAbsolute : Int := 9223371966579724800

/-- Go `time.daysBefore`: days in a non-leap year before month `m+1` begins. -/
def daysBefore : List Int := [0, 31, 59, 90, 120, 151, 181, 212, 243, 273, 304, 334, 365]

/-- Go `time.isLeap`. -/
def isLeap (year : Int) : Bool :=
  year % 4 = 0 && (year % 100 ≠ 0 || year % 400 = 0)

/-- Go `time.daysIn`. -/
def daysIn (m : Int) (year : Int) : Int :=
  if m = 2 && isLeap year then 29
  else daysBefore.getD m.toNat 0 - daysBefore.getD (m - 1).toNat 0

/-- Go `time.norm`. -/
def norm (hi lo base : Int) : Int × Int :=
  let (hi, lo) :=
    if lo < 0 then
      let n := (-lo - 1) / base + 1
      (hi - n, lo + n * base)
    else (hi, lo)
  if lo ≥ base then
    let n := lo / base
    (hi + n, lo - n * base)
  else (hi, lo)

/-- Go `time.daysSinceEpoch`: days from the absolute epoch to the start of `year`. -/
def daysSinceEpoch (year : Int) : Nat :=
  let y := u64 (year - absoluteZeroYear)
  let n := y / 400
  let y := y - 400 * n
  let d := daysPer400Years * n
  let n := y / 100
  let y := y - 100 * n
  let d := d + daysPer100Years * n
  let n := y / 4
  let y := y - 4 * n
  let d := d + daysPer4Years * n
  let n := y
  d + 365 * n

/-- Go `time.Date` with location UTC (zone offset 0). -/
def Date (year month day hour min sec nsec : Int) : Time :=
  let m := month - 1
  let (year, m) := norm year m 12
  let month := m + 1
  let (sec, nsec) := norm sec nsec 1000000000
  let (min, sec) := norm min sec 60
  let (hour, min) := norm hour min 60
  let (day, hour) := norm day hour 24
  let d : Int := daysSinceEpoch year
  let d := d + daysBefore.getD (month - 1).toNat 0
  let d := if isLeap year && month ≥ 3 then d + 1 else d
  let d := u64 (d + u64 (day - 1))
  let abs := u64 (d * secondsPerDay)
  let abs := u64 (abs + u64 (hour * secondsPerHour + min * secondsPerMinute + sec))
  ⟨nsec, i64 (i64 abs + absoluteToInternal)⟩

/-- Go `(Time).abs` for location UTC: seconds since the absolute epoch. -/
def Time.abs (t : Time) : Nat := u64 (t.ext + internalToAbsolute)

/-- Go `time.absDate(abs, false)`: the year and the zero-based day of the year
(the part of `absDate` before its `if !full` return). -/
def absDateYear (abs : Nat) : Int × Int :=
  let d := abs / 86400
  let n := d / daysPer400Years
  let y := 400 * n
  let d := d - daysPer400Years * n
  let n := d / daysPer100Years
  let n := n - n / 4
  let y := y + 100 * n
  let d := d - daysPer100Years * n
  let n := d / daysPer4Years
  let y := y + 4 * n
  let d := d - daysPer4Years * n
  let n := d / 365
  let n := n - n / 4
  let y := y + n
  let d := d - 365 * n
  (i64 (i64 y + absoluteZeroYear), d)

/-- Go `time.absDate(abs, true)`: year, month and day of month. -/
def absDate (abs : Nat) : Int × Int × Int :=
  let (year, day) := absDateYear abs
  if isLeap year && day = 31 + 29 - 1 then (year, 2, 29)
  else
    let day := if isLeap year && day > 31 + 29 - 1 then day - 1 else day
    let month := day / 31
    let end_ := daysBefore.getD (month + 1).toNat 0
    if day ≥ end_ then (year, month + 1 + 1, day - end_ + 1)
    else (year, month + 1, day - daysBefore.getD month.toNat 0 + 1)

/-- Go `time.absClock`: hour, minute and second within the day. -/
def absClock (abs : Nat) : Int × Int × Int :=
  let sec := abs % 86400
  let hour := sec / 3600
  let sec := sec - hour * 3600
  let min := sec / 60
  let sec := sec - min * 60
  (hour, min, sec)

/-- Go `(Time).Date`. -/
def Time.date (t : Time) : Int × Int × Int := absDate t.abs

/-- Go `(Time).Clock`. -/
def Time.Clock (t : Time) : Int × Int × Int := absClock t.abs

/-- Go `(Time).Nanosecond`. -/
def Time.Nanosecond (t : Time) : Int := t.wall

/-- Go `time.isDigit`: is `s[i]` in range and a decimal digit. -/
def isDigit (s : Bytes) (i : Nat) : Bool :=
  match s[i]? with
  | none => false
  | some c => decide (48 ≤ c) && decide (c ≤ 57)

/-- Go `time.commaOrPeriod`. -/
def commaOrPeriod (b : Nat) : Bool := b = 46 || b = 44

/-- Go `time.getnum`: one or two leading digits (exactly two when `fixed`). -/
def getnum (s : Bytes) (fixed : Bool) : Option (Int × Bytes) :=
  if !isDigit s 0 then none
  else if !isDigit s 1 then
    if fixed then none else some ((s.getD 0 0 : Int) - 48, s.drop 1)
  else some (((s.getD 0 0 : Int) - 48) * 10 + ((s.getD 1 0 : Int) - 48), s.drop 2)

/-- Go `time.leadingInt`, with the accumulator `x` of its loop. -/
def leadingInt : Bytes → Nat → Option (Nat × Bytes)
  | [], x => some (x, [])
  | c :: s, x =>
    if c < 48 || c > 57 then some (x, c :: s)
    else if x > 9223372036854775808 / 10 then none
    else
      let x := (x * 10 + c - 48) % 18446744073709551616
      if x > 9223372036854775808 then none else leadingInt s x

/-- Go `time.atoi`. -/
def atoi (s : Bytes) : Option Int :=
  let neg := decide (s.head? = some 45)
  let s := if s.head? = some 45 || s.head? = some 43 then s.drop 1 else s
  match leadingInt s 0 with
  | none => none
  | some (q, rem) =>
    if rem ≠ [] then none
    else some (if neg then i64 (-(i64 q)) else i64 q)

/-- Go `*time.ParseError`, by the three forms of its message. -/
inductive ParseError where
  /-- cannot parse `valueElem` as `layoutElem` -/
  | element (layoutElem valueElem : Bytes)
  /-- `: <what> out of range` -/
  | outOfRange (what : Bytes)
  /-- `: extra text: <rest>` -/
  | extraText (rest : Bytes)
deriving DecidableEq, Repr

/-- Go `time.skip` for a layout prefix without blanks: the value must start with
the prefix. -/
def skip : Bytes → Bytes → Except ParseError Bytes
  | value, [] => .ok value
  | [], p :: ps => .error (.element (p :: ps) [])
  | v :: value, p :: ps =>
    if v ≠ p then .error (.element (p :: ps) (v :: value)) else skip value ps

/-- Go `time.parseNanoseconds`: `value` starts with the separator and `nbytes`
counts the separator and the digits after it. -/
def parseNanoseconds (value : Bytes) (nbytes : Nat) : Except ParseError Int :=
  if !commaOrPeriod (value.getD 0 0) then .error (.element (ascii ".999") value)
  else
    let value := if nbytes > 10 then value.take 10 else value
    let nbytes := if nbytes > 10 then 10 else nbytes
    match atoi ((value.take nbytes).drop 1) with
    | none => .error (.element (ascii ".999") value)
    | some ns =>
      if ns < 0 then .error (.outOfRange (ascii "fractional second"))
      else .ok (ns * 10 ^ (10 - nbytes))

/-- Number of consecutive decimal digits at the front of `s`. -/
def countDigits : Bytes → Nat
  | [] => 0
  | c :: s => if 48 ≤ c ∧ c ≤ 57 then countDigits s + 1 else 0

/-- The fields collected by `time.Parse` before the final date validation. -/
structure Parsed where
  year : Int
  month : Int
  day : Int
  hour : Int
  min : Int
  sec : Int
  nsec : Int
  rest : Bytes
deriving DecidableEq, Repr

/-- Element `2006` (stdLongYear) of the layout. -/
def parseYear (value : Bytes) : Except ParseError (Int × Bytes) :=
  if value.length < 4 || !isDigit value 0 then .error (.element (ascii "2006") value)
  else
    match atoi (value.take 4) with
    | none => .error (.element (ascii "2006") value)
    | some year => .ok (year, value.drop 4)

/-- Element `01` (stdZeroMonth) of the layout. -/
def parseMonth (value : Bytes) : Except ParseError (Int × Bytes) :=
  match getnum value true with
  | none => .error (.element (ascii "01") value)
  | some (month, rest) =>
    if month ≤ 0 || 12 < month then .error (.outOfRange (ascii "month"))
    else .ok (month, rest)

/-- Element `02` (stdZeroDay) of the layout; the day is validated at the end. -/
def parseDay (value : Bytes) : Except ParseError (Int × Bytes) :=
  match getnum value true with
  | none => .error (.element (ascii "02") value)
  | some (day, rest) => .ok (day, rest)

/-- Element `15` (stdHour) of the layout: one or two digits. -/
def parseHour (value : Bytes) : Except ParseError (Int × Bytes) :=
  match getnum value false with
  | none => .error (.element (ascii "15") value)
  | some (hour, rest) =>
    if hour < 0 || 24 ≤ hour then .error (.outOfRange (ascii "hour"))
    else .ok (hour, rest)

/-- Element `04` (stdZeroMinute) of the layout. -/
def parseMinute (value : Bytes) : Except ParseError (Int × Bytes) :=
  match getnum value true with
  | none => .error (.element (ascii "04") value)
  | some (min, rest) =>
    if min < 0 || 60 ≤ min then .error (.outOfRange (ascii "minute"))
    else .ok (min, rest)

/-- Element `05` (stdZeroSecond) of the layout.  The fractional second that may
follow is left to the next element, `.999`, which the layout has. -/
def parseSecond (value : Bytes) : Except ParseError (Int × Bytes) :=
  match getnum value true with
  | none => .error (.element (ascii "05") value)
  | some (sec, rest) =>
    if sec < 0 || 60 ≤ sec then .error (.outOfRange (ascii "second"))
    else .ok (sec, rest)

/-- Element `.999` (stdFracSecond9) of the layout: an optional separator with
any number of digits after it. -/
def parseFrac (value : Bytes) : Except ParseError (Int × Bytes) :=
  if value.length < 2 || !commaOrPeriod (value.getD 0 0)
      || value.getD 1 0 < 48 || 57 < value.getD 1 0 then .ok (0, value)
  else
    let i := countDigits (value.drop 1)
    match parseNanoseconds value (1 + i) with
    | .error e => .error e
    | .ok nsec => .ok (nsec, value.drop (1 + i))

/-- The loop of Go `time.parse` over the elements of the layout
`2006-01-02T15:04:05.999`. -/
def parseFields (value : Bytes) : Except ParseError Parsed := do
  let (year, value) ← parseYear value
  let value ← skip value (ascii "-")
  let (month, value) ← parseMonth value
  let value ← skip value (ascii "-")
  let (day, value) ← parseDay value
  let value ← skip value (ascii "T")
  let (hour, value) ← parseHour value
  let value ← skip value (ascii ":")
  let (min, value) ← parseMinute value
  let value ← skip value (ascii ":")
  let (sec, value) ← parseSecond value
  let (nsec, value) ← parseFrac value
  if value.length ≠ 0 then throw (.extraText value)
  pure ⟨year, month, day, hour, min, sec, nsec, value⟩

/-- Go `time.Parse("2006-01-02T15:04:05.999", value)`. -/
def Parse (value : Bytes) : Except ParseError Time :=
  match parseFields value with
  | .error e => .error e
  | .ok p =>
    if p.day < 1 || p.day > daysIn p.month p.year then
      .error (.outOfRange (ascii "day"))
    else .ok (Date p.year p.month p.day p.hour p.min p.sec p.nsec)

/-! ## C3LI.go: CustomTime -/

/-- Go `CustomTime`, a struct embedding `time.Time`. -/
structure CustomTime where
  Time : Time
deriving DecidableEq, Repr

/-- Go `(*CustomTime).UnmarshalJSON`: the receiver after the call and the
returned error. -/
def CustomTime.UnmarshalJSON (ct : CustomTime) (b : Bytes) : CustomTime × Option ParseError :=
  let s := Trim b 34
  if s = [] then (⟨Time.zero⟩, none)
  else
    match Parse s with
    | .ok t => (⟨t⟩, none)
    | .error e => (⟨Time.zero⟩, some e)

/-! ## Spec-side rendering of timestamps -/

/-- Two decimal digits of `n` (for `n < 100`). -/
def digits2 (n : Nat) : Bytes := [48 + n / 10, 48 + n % 10]

/-- Three decimal digits of `n` (for `n < 1000`). -/
def digits3 (n : Nat) : Bytes := [48 + n / 100, 48 + n / 10 % 10, 48 + n % 10]

/-- Four decimal digits of `n` (for `n < 10000`). -/
def digits4 (n : Nat) : Bytes :=
  [48 + n / 1000, 48 + n / 100 % 10, 48 + n / 10 % 10, 48 + n % 10]

/-- The text `YYYY-MM-DDTHH:MM:SS`. -/
def stamp (y m d H M S : Nat) : Bytes :=
  digits4 y ++ 45 :: digits2 m ++ 45 :: digits2 d ++ 84 :: digits2 H
    ++ 58 :: digits2 M ++ 58 :: digits2 S

/-- The optional suffix `.fff`. -/
def millis : Option Nat → Bytes
  | none => []
  | some f => 46 :: digits3 f

/-- A timestamp as a JSON string literal: the text between two quotes. -/
def quoted (s : Bytes) : Bytes := 34 :: s ++ [34]

/-- Zero-based day of the year of a calendar date (spec side). -/
def yday (year : Int) (m d : Nat) : Nat :=
  (daysBefore.getD (m - 1) 0).toNat + (if isLeap year && decide (3 ≤ m) then 1 else 0) + (d - 1)

/-! ## package sort (`sort.Slice`, pattern-defeating quicksort of `zsortfunc.go`)

The slice is a list; `data.Less(i, j)` is `less` applied to the elements at `i`
and `j`, and `data.Swap(i, j)` exchanges them.  Loops are recursions on a counter
that bounds their number of iterations. -/

/-- Go `data.Less(i, j)` for the closure `less` over the slice elements. -/
def lessAt {α : Type} (less : α → α → Bool) (data : List α) (i j : Nat) : Bool :=
  match data[i]?, data[j]? with
  | some x, some y => less x y
  | _, _ => false

/-- Go `data.Swap(i, j)` (`reflectlite.Swapper`). -/
def swapAt {α : Type} (data : List α) (i j : Nat) : List α :=
  match data[i]?, data[j]? with
  | some x, some y => (data.set i y).set j x
  | _, _ => data

/-- Inner loop of `insertionSort_func`:
`for j := i; j > a && data.Less(j, j-1); j-- { data.Swap(j, j-1) }`. -/
def insertionInner {α : Type} (less : α → α → Bool) (a : Nat) : Nat → List α → List α
  | 0, data => data
  | j + 1, data =>
    if j + 1 > a && lessAt less data (j + 1) j then
      insertionInner less a j (swapAt data (j + 1) j)
    else data

/-- Outer loop of `insertionSort_func` from index `i`, with `n` iterations left. -/
def insertionOuter {α : Type} (less : α → α → Bool) (a b : Nat) : Nat → Nat → List α → List α
  | 0, _, data => data
  | n + 1, i, data =>
    if i < b then insertionOuter less a b n (i + 1) (insertionInner less a i data) else data

/-- Go `sort.insertionSort_func(data, a, b)`. -/
def insertionSort_func {α : Type} (less : α → α → Bool) (data : List α) (a b : Nat) : List α :=
  insertionOuter less a b (b - (a + 1)) (a + 1) data

/-- Go `sort.siftDown_func(data, lo, hi, first)`; `n` bounds the iterations. -/
def siftDown_func {α : Type} (less : α → α → Bool) (hi first : Nat) :
    Nat → Nat → List α → List α
  | 0, _, data => data
  | n + 1, root, data =>
    let child := 2 * root + 1
    if child ≥ hi then data
    else
      let child :=
        if child + 1 < hi && lessAt less data (first + child) (first + child + 1) then child + 1
        else child
      if !lessAt less data (first + root) (first + child) then data
      else siftDown_func less hi first n child (swapAt data (first + root) (first + child))

/-- First loop of `heapSort_func`: `for i := (hi-1)/2; i >= 0; i-- { siftDown(i, hi) }`;
`k` is `i + 1`. -/
def heapBuild {α : Type} (less : α → α → Bool) (hi first : Nat) : Nat → List α → List α
  | 0, data => data
  | i + 1, data => heapBuild less hi first i (siftDown_func less hi first hi i data)

/-- Second loop of `heapSort_func`:
`for i := hi-1; i >= 0; i-- { Swap(first, first+i); siftDown(lo, i) }`; `k` is `i + 1`. -/
def heapPop {α : Type} (less : α → α → Bool) (first : Nat) : Nat → List α → List α
  | 0, data => data
  | i + 1, data =>
    heapPop less first i (siftDown_func less i first i 0 (swapAt data first (first + i)))

/-- Go `sort.heapSort_func(data, a, b)`. -/
def heapSort_func {α : Type} (less : α → α → Bool) (data : List α) (a b : Nat) : List α :=
  let first := a
  let hi := b - a
  let data := heapBuild less hi first ((hi - 1) / 2 + 1) data
  heapPop less first hi data

/-- The loop `for i <= j && data.Less(i, a) { i++ }` of `partition_func`. -/
def scanLess {α : Type} (less : α → α → Bool) (data : List α) (a j : Nat) : Nat → Nat → Nat
  | 0, i => i
  | n + 1, i => if i ≤ j && lessAt less data i a then scanLess less data a j n (i + 1) else i

/-- The loop `for i <= j && !data.Less(j, a) { j-- }` of `partition_func`. -/
def scanNotLess {α : Type} (less : α → α → Bool) (data : List α) (a i : Nat) : Nat → Nat → Nat
  | 0, j => j
  | n + 1, j =>
    if i ≤ j && !lessAt less data j a then scanNotLess less data a i n (j - 1) else j

/-- The main loop of `partition_func`; returns the slice and the final `j`. -/
def partitionLoop {α : Type} (less : α → α → Bool) (a : Nat) :
    Nat → List α → Nat → Nat → List α × Nat
  | 0, data, _, j => (data, j)
  | n + 1, data, i, j =>
    let i := scanLess less data a j (j + 1 - i) i
    let j := scanNotLess less data a i (j + 1 - i) j
    if i > j then (data, j)
    else partitionLoop less a n (swapAt data i j) (i + 1) (j - 1)

/-- Go `sort.partition_func(data, a, b, pivot)`: the slice, `newpivot` and
`alreadyPartitioned`. -/
def partition_func {α : Type} (less : α → α → Bool) (data : List α) (a b pivot : Nat) :
    List α × Nat × Bool :=
  let data := swapAt data a pivot
  let i := a + 1
  let j := b - 1
  let i := scanLess less data a j (j + 1 - i) i
  let j := scanNotLess less data a i (j + 1 - i) j
  if i > j then (swapAt data j a, j, true)
  else
    let data := swapAt data i j
    let (data, j) := partitionLoop less a (b - a) data (i + 1) (j - 1)
    (swapAt data j a, j, false)

/-- The loop `for i <= j && !data.Less(a, i) { i++ }` of `partitionEqual_func`. -/
def scanNotGreater {α : Type} (less : α → α → Bool) (data : List α) (a j : Nat) : Nat → Nat → Nat
  | 0, i => i
  | n + 1, i =>
    if i ≤ j && !lessAt less data a i then scanNotGreater less data a j n (i + 1) else i

/-- The loop `for i <= j && data.Less(a, j) { j-- }` of `partitionEqual_func`. -/
def scanGreater {α : Type} (less : α → α → Bool) (data : List α) (a i : Nat) : Nat → Nat → Nat
  | 0, j => j
  | n + 1, j => if i ≤ j && lessAt less data a j then scanGreater less data a i n (j - 1) else j

/-- The loop of `partitionEqual_func`; returns the slice and the final `i`. -/
def partitionEqualLoop {α : Type} (less : α → α → Bool) (a : Nat) :
    Nat → List α → Nat → Nat → List α × Nat
  | 0, data, i, _ => (data, i)
  | n + 1, data, i, j =>
    let i := scanNotGreater less data a j (j + 1 - i) i
    let j := scanGreater less data a i (j + 1 - i) j
    if i > j then (data, i)
    else partitionEqualLoop less a n (swapAt data i j) (i + 1) (j - 1)

/-- Go `sort.partitionEqual_func(data, a, b, pivot)`: the slice and `newpivot`. -/
def partitionEqual_func {α : Type} (less : α → α → Bool) (data : List α) (a b pivot : Nat) :
    List α × Nat :=
  let data := swapAt data a pivot
  partitionEqualLoop less a (b - a + 1) data (a + 1) (b - 1)

/-- The loop `for i < b && !data.Less(i, i-1) { i++ }` of `partialInsertionSort_func`. -/
def scanSorted {α : Type} (less : α → α → Bool) (data : List α) (b : Nat) : Nat → Nat → Nat
  | 0, i => i
  | n + 1, i => if i < b && !lessAt less data i (i - 1) then scanSorted less data b n (i + 1) else i

/-- The loop `for j := i - 1; j >= 1; j-- { if !Less(j, j-1) break; Swap(j, j-1) }`. -/
def shiftLeft {α : Type} (less : α → α → Bool) : Nat → List α → List α
  | 0, data => data
  | j + 1, data =>
    if !lessAt less data (j + 1) j then data else shiftLeft less j (swapAt data (j + 1) j)

/-- The loop `for j := i + 1; j < b; j++ { if !Less(j, j-1) break; Swap(j, j-1) }`. -/
def shiftRight {α : Type} (less : α → α → Bool) (b : Nat) : Nat → Nat → List α → List α
  | 0, _, data => data
  | n + 1, j, data =>
    if j < b then
      if !lessAt less data j (j - 1) then data
      else shiftRight less b n (j + 1) (swapAt data j (j - 1))
    else data

/-- The loop `for j := 0; j < maxSteps; j++` of `partialInsertionSort_func`, with
`steps` iterations left. -/
def partialInsertionLoop {α : Type} (less : α → α → Bool) (a b : Nat) :
    Nat → Nat → List α → List α × Bool
  | 0, _, data => (data, false)
  | steps + 1, i, data =>
    let i := scanSorted less data b (b - i) i
    if i = b then (data, true)
    else if b - a < 50 then (data, false)
    else
      let data := swapAt data i (i - 1)
      let data := if i - a ≥ 2 then shiftLeft less (i - 1) data else data
      let data := if b - i ≥ 2 then shiftRight less b (b - (i + 1)) (i + 1) data else data
      partialInsertionLoop less a b steps i data

/-- Go `sort.partialInsertionSort_func(data, a, b)`: the slice and whether it is
sorted at the end. -/
def partialInsertionSort_func {α : Type} (less : α → α → Bool) (data : List α) (a b : Nat) :
    List α × Bool :=
  partialInsertionLoop less a b 5 (a + 1) data

/-- Go `math/bits.Len` of a non-negative argument; `n` bounds the iterations. -/
def bitsLenAux : Nat → Nat → Nat
  | 0, _ => 0
  | n + 1, x => if x = 0 then 0 else bitsLenAux n (x / 2) + 1

/-- Go `bits.Len(uint(x))`. -/
def bitsLen (x : Nat) : Nat := bitsLenAux x x

/-- Go `(*xorshift).Next` on a 64-bit state. -/
def xorshiftNext (r : Nat) : Nat :=
  let r := r ^^^ ((r <<< 13) % 18446744073709551616)
  let r := r ^^^ (r >>> 7)
  r ^^^ ((r <<< 17) % 18446744073709551616)

/-- Go `sort.nextPowerOfTwo`. -/
def nextPowerOfTwo (length : Nat) : Nat := (1 <<< bitsLen length) % 18446744073709551616

/-- The loop `for i := 0; i < 3; i++` of `breakPatterns_func`, with `n`
iterations left. -/
def breakPatternsLoop {α : Type} (a length modulus idx : Nat) :
    Nat → Nat → Nat → List α → List α
  | 0, _, _, data => data
  | n + 1, i, random, data =>
    let random := xorshiftNext random
    let other := random &&& (modulus - 1)
    let other := if other ≥ length then other - length else other
    breakPatternsLoop a length modulus idx n (i + 1) random (swapAt data (idx - 1 + i) (a + other))

/-- Go `sort.breakPatterns_func(data, a, b)`. -/
def breakPatterns_func {α : Type} (data : List α) (a b : Nat) : List α :=
  let length := b - a
  if length ≥ 8 then
    let random := length
    let modulus := nextPowerOfTwo length
    let idx := a + (length / 4) * 2 - 1
    breakPatternsLoop a length modulus idx 3 0 random data
  else data

/-- Go `sort.sortedHint`. -/
inductive sortedHint where
  | unknownHint
  | increasingHint
  | decreasingHint
deriving DecidableEq, Repr

/-- Go `sort.order2_func`: the ordered pair of indices and the swap count. -/
def order2_func {α : Type} (less : α → α → Bool) (data : List α) (a b swaps : Nat) :
    Nat × Nat × Nat :=
  if lessAt less data b a then (b, a, swaps + 1) else (a, b, swaps)

/-- Go `sort.median_func`: the index of the median and the swap count. -/
def median_func {α : Type} (less : α → α → Bool) (data : List α) (a b c swaps : Nat) :
    Nat × Nat :=
  let (a, b, swaps) := order2_func less data a b swaps
  let (b, c, swaps) := order2_func less data b c swaps
  let (a, b, swaps) := order2_func less data a b swaps
  (b, swaps)

/-- Go `sort.medianAdjacent_func`. -/
def medianAdjacent_func {α : Type} (less : α → α → Bool) (data : List α) (a swaps : Nat) :
    Nat × Nat :=
  median_func less data (a - 1) a (a + 1) swaps

/-- Go `sort.choosePivot_func(data, a, b)`. -/
def choosePivot_func {α : Type} (less : α → α → Bool) (data : List α) (a b : Nat) :
    Nat × sortedHint :=
  let l := b - a
  let swaps := 0
  let i := a + l / 4 * 1
  let j := a + l / 4 * 2
  let k := a + l / 4 * 3
  let (j, swaps) :=
    if l ≥ 8 then
      let (i, j, k, swaps) :=
        if l ≥ 50 then
          let (i, swaps) := medianAdjacent_func less data i swaps
          let (j, swaps) := medianAdjacent_func less data j swaps
          let (k, swaps) := medianAdjacent_func less data k swaps
          (i, j, k, swaps)
        else (i, j, k, swaps)
      median_func less data i j k swaps
    else (j, swaps)
  if swaps = 0 then (j, .increasingHint)
  else if swaps = 12 then (j, .decreasingHint)
  else (j, .unknownHint)

/-- The loop of `reverseRange_func`, with `n` iterations left. -/
def reverseLoop {α : Type} : Nat → Nat → Nat → List α → List α
  | 0, _, _, data => data
  | n + 1, i, j, data =>
    if i < j then reverseLoop n (i + 1) (j - 1) (swapAt data i j) else data

/-- Go `sort.reverseRange_func(data, a, b)`. -/
def reverseRange_func {α : Type} (data : List α) (a b : Nat) : List α :=
  reverseLoop (b - a) a (b - 1) data

/-- Go `sort.pdqsort_func(data, a, b, limit)`.  One unit of `fuel` is spent per
iteration of its loop and per recursive call; `wasBalanced` and `wasPartitioned`
are the loop's state (both `true` on entry).  `none` means the fuel ran out. -/
def pdqsort_func {α : Type} (less : α → α → Bool) :
    Nat → List α → Nat → Nat → Nat → Bool → Bool → Option (List α)
  | 0, _, _, _, _, _, _ => none
  | fuel + 1, data, a, b, limit, wasBalanced, wasPartitioned =>
    let length := b - a
    if length ≤ 12 then some (insertionSort_func less data a b)
    else if limit = 0 then some (heapSort_func less data a b)
    else
      -- if !wasBalanced { breakPatterns_func(data, a, b); limit-- }
      let data1 := if !wasBalanced then breakPatterns_func data a b else data
      let limit1 := if !wasBalanced then limit - 1 else limit
      -- pivot, hint := choosePivot_func(data, a, b)
      let chosen := choosePivot_func less data1 a b
      -- if hint == decreasingHint { reverseRange_func(data, a, b); pivot = ...; hint = ... }
      let data2 := if chosen.2 = .decreasingHint then reverseRange_func data1 a b else data1
      let pivot := if chosen.2 = .decreasingHint then (b - 1) - (chosen.1 - a) else chosen.1
      let hint := if chosen.2 = .decreasingHint then sortedHint.increasingHint else chosen.2
      -- if wasBalanced && wasPartitioned && hint == increasingHint {
      --   if partialInsertionSort_func(data, a, b) { return } }
      let attempt :=
        if wasBalanced && wasPartitioned && hint = .increasingHint then
          partialInsertionSort_func less data2 a b
        else (data2, false)
      if attempt.2 then some attempt.1
      else
        let data3 := attempt.1
        if a > 0 && !lessAt less data3 (a - 1) pivot then
          -- mid := partitionEqual_func(data, a, b, pivot); a = mid; continue
          let equal := partitionEqual_func less data3 a b pivot
          pdqsort_func less fuel equal.1 equal.2 b limit1 wasBalanced wasPartitioned
        else
          -- mid, alreadyPartitioned := partition_func(data, a, b, pivot)
          let parted := partition_func less data3 a b pivot
          let mid := parted.2.1
          let leftLen := mid - a
          let rightLen := b - mid
          let balanceThreshold := length / 8
          if leftLen < rightLen then
            -- pdqsort_func(data, a, mid, limit); a = mid + 1
            match pdqsort_func less fuel parted.1 a mid limit1 true true with
            | none => none
            | some data4 =>
              pdqsort_func less fuel data4 (mid + 1) b limit1
                (decide (leftLen ≥ balanceThreshold)) parted.2.2
          else
            -- pdqsort_func(data, mid+1, b, limit); b = mid
            match pdqsort_func less fuel parted.1 (mid + 1) b limit1 true true with
            | none => none
            | some data4 =>
              pdqsort_func less fuel data4 a mid limit1
                (decide (rightLen ≥ balanceThreshold)) parted.2.2

/-- Go `sort.Slice(x, less)`, where `less(i, j)` compares the elements at `i` and
`j`.  The fuel `length + 1` is never exhausted (`Slice_total`). -/
def Slice {α : Type} (less : α → α → Bool) (x : List α) : Option (List α) :=
  let length := x.length
  let limit := bitsLen length
  pdqsort_func less (length + 1) x 0 length limit true true

/-! ## package strings: ToLower -/

/-- Go `strings.ToLower(s)`.  An ASCII-only string takes the fast path of the
source; for any other string the result is `strings.Map(unicode.ToLower, s)`,
which is the parameter `mapLower` (the Unicode case tables are not modelled). -/
def ToLower (mapLower : Bytes → Bytes) (s : Bytes) : Bytes :=
  let isASCII := s.all fun c => decide (c < 128)
  let hasUpper := s.any fun c => decide (65 ≤ c) && decide (c ≤ 90)
  if isASCII then
    if !hasUpper then s
    else s.map fun c => if 65 ≤ c ∧ c ≤ 90 then c + 32 else c
  else mapLower s

/-! ## package time: Format -/

/-- Decimal digits of `u`, least significant first; `n` bounds their number. -/
def revDigits : Nat → Nat → Bytes
  | 0, _ => []
  | n + 1, u => if u < 10 then [48 + u] else (48 + u % 10) :: revDigits n (u / 10)

/-- Go `time.appendInt(b, x, width)`: a sign for negative `x`, then the decimal
form of its magnitude padded with leading zeros to `width`. -/
def appendInt (b : Bytes) (x : Int) (width : Nat) : Bytes :=
  let b := if x < 0 then b ++ [45] else b
  let u := (if x < 0 then u64 (-x) else u64 x)
  let ds := (revDigits 20 u).reverse
  b ++ List.replicate (width - ds.length) 48 ++ ds

/-- Go `t.Format("2006-01-02 15:04:05")` for a time in UTC. -/
def Time.Format (t : Time) : Bytes :=
  let date := absDate t.abs
  let clock := absClock t.abs
  let year := date.1
  let month := date.2.1
  let day := date.2.2
  let hour := clock.1
  let min := clock.2.1
  let sec := clock.2.2
  let b := appendInt [] year 4
  let b := appendInt (b ++ [45]) month 2
  let b := appendInt (b ++ [45]) day 2
  let b := appendInt (b ++ [32]) hour 2
  let b := appendInt (b ++ [58]) min 2
  appendInt (b ++ [58]) sec 2

/-! ## C3LI.go: Certificate -/

/-- Go `Certificate`. -/
structure Certificate where
  IssuerCaID : Int
  IssuerName : Bytes
  CommonName : Bytes
  NameValue : Bytes
  ID : Int
  EntryTimestamp : CustomTime
  NotBefore : CustomTime
  NotAfter : CustomTime
  SerialNumber : Bytes
  Source : Bytes
  AllDomains : List Bytes
  ValidationMethods : List Bytes
  ValidationTimestamp : CustomTime
  RevocationStatus : Bytes
  RevocationReason : Bytes
  RevocationTimestamp : CustomTime
  SHA256Fingerprint : Bytes
  SHA1Fingerprint : Bytes
  MD5Fingerprint : Bytes
  SubjectAlternativeNames : List Bytes
deriving DecidableEq, Repr

/-- The zero value of `Certificate`. -/
def Certificate.zero : Certificate :=
  ⟨0, [], [], [], 0, ⟨Time.zero⟩, ⟨Time.zero⟩, ⟨Time.zero⟩, [], [], [], [], ⟨Time.zero⟩, [], [],
    ⟨Time.zero⟩, [], [], [], []⟩

/-! ## package encoding/json: decoding into `[]Certificate` -/

/-- The fields of `Certificate` of type `CustomTime`, which implement
`json.Unmarshaler`. -/
inductive TimeField where
  | EntryTimestamp
  | NotBefore
  | NotAfter
  | ValidationTimestamp
  | RevocationTimestamp
deriving DecidableEq, Repr

/-- The fields of `Certificate` of type `int`, `string` and `[]string`. -/
inductive PlainField where
  | IssuerCaID
  | IssuerName
  | CommonName
  | NameValue
  | ID
  | SerialNumber
  | Source
  | AllDomains
  | ValidationMethods
  | RevocationStatus
  | RevocationReason
  | SHA256Fingerprint
  | SHA1Fingerprint
  | MD5Fingerprint
  | SubjectAlternativeNames
deriving DecidableEq, Repr

/-- A field of `Certificate` selected by an object key. -/
inductive Field where
  | time (f : TimeField)
  | plain (f : PlainField)
deriving DecidableEq, Repr

/-- A value of a JSON text that passed the syntax check of `json.Unmarshal`.
Every value carries `raw`, its bytes in the text (what an `Unmarshaler` is
given); the members of an object carry their unquoted keys. -/
inductive JSON where
  | literal (raw : Bytes)
  | array (raw : Bytes) (items : List JSON)
  | object (raw : Bytes) (members : List (Bytes × JSON))

/-- The bytes of a value in the JSON text. -/
def JSON.raw : JSON → Bytes
  | .literal raw => raw
  | .array raw _ => raw
  | .object raw _ => raw

/-- The error `json.Unmarshal` returns. -/
inductive JSONError where
  /-- `*json.SyntaxError`: the text is not valid JSON -/
  | syntaxError
  /-- `*json.UnmarshalTypeError`: the first one saved while decoding went on -/
  | typeError
  /-- the error returned by an `UnmarshalJSON` method, which stops the decoding -/
  | unmarshaler (e : ParseError)
deriving DecidableEq, Repr

/-- The behaviour of `encoding/json` that is taken as given: its scanner, its
matching of object keys to struct fields, and its stores into fields of the
built-in types. -/
structure JSONLib where
  /-- the value a text denotes, `none` when the text is not valid JSON -/
  scan : Bytes → Option JSON
  /-- the field of `Certificate` an object key selects (exact name, else a
  case-insensitive match), `none` when the key is ignored -/
  field : Bytes → Option Field
  /-- storing a value into a field of type `int`, `string` or `[]string`: the
  record after the store and whether an `UnmarshalTypeError` was saved -/
  store : PlainField → JSON → Certificate → Certificate × Bool

/-- Assignment to a `CustomTime` field. -/
def Certificate.setTime (c : Certificate) (f : TimeField) (t : CustomTime) : Certificate :=
  match f with
  | .EntryTimestamp => { c with EntryTimestamp := t }
  | .NotBefore => { c with NotBefore := t }
  | .NotAfter => { c with NotAfter := t }
  | .ValidationTimestamp => { c with ValidationTimestamp := t }
  | .RevocationTimestamp => { c with RevocationTimestamp := t }

/-- Read of a `CustomTime` field. -/
def Certificate.getTime (c : Certificate) (f : TimeField) : CustomTime :=
  match f with
  | .EntryTimestamp => c.EntryTimestamp
  | .NotBefore => c.NotBefore
  | .NotAfter => c.NotAfter
  | .ValidationTimestamp => c.ValidationTimestamp
  | .RevocationTimestamp => c.RevocationTimestamp

/-- Decoding of the members of a JSON object into a `Certificate`
(`(*decodeState).object` for a struct), member by member.  A value for a
`CustomTime` field is handed to `UnmarshalJSON`, whose error stops the decoding;
`saved` tells whether an `UnmarshalTypeError` has been saved so far. -/
def decodeMembers (lib : JSONLib) :
    List (Bytes × JSON) → Certificate → Bool → Except ParseError (Certificate × Bool)
  | [], c, saved => .ok (c, saved)
  | (key, v) :: rest, c, saved =>
    match lib.field key with
    | none => decodeMembers lib rest c saved
    | some (.plain f) =>
      let (c, bad) := lib.store f v c
      decodeMembers lib rest c (saved || bad)
    | some (.time f) =>
      match (c.getTime f).UnmarshalJSON v.raw with
      | (_, some e) => .error e
      | (t, none) => decodeMembers lib rest (c.setTime f t) saved

/-- Decoding of one element of the top-level array into a fresh `Certificate`:
an object is decoded member by member, `null` leaves the zero value, any other
value saves an `UnmarshalTypeError`. -/
def decodeElement (lib : JSONLib) (v : JSON) (saved : Bool) :
    Except ParseError (Certificate × Bool) :=
  match v with
  | .object _ members => decodeMembers lib members Certificate.zero saved
  | .literal raw => .ok (Certificate.zero, saved || decide (raw ≠ ascii "null"))
  | .array _ _ => .ok (Certificate.zero, true)

/-- Decoding of the elements of the top-level array, in order. -/
def decodeElements (lib : JSONLib) :
    List JSON → Bool → Except ParseError (List Certificate × Bool)
  | [], saved => .ok ([], saved)
  | v :: rest, saved =>
    match decodeElement lib v saved with
    | .error e => .error e
    | .ok (c, saved) =>
      match decodeElements lib rest saved with
      | .error e => .error e
      | .ok (cs, saved) => .ok (c :: cs, saved)

/-- Go `json.Unmarshal(body, &certs)` for `var certs []Certificate`: the decoded
slice, or the error. -/
def Unmarshal (lib : JSONLib) (body : Bytes) : Except JSONError (List Certificate) :=
  match lib.scan body with
  | none => .error .syntaxError
  | some (.array _ items) =>
    match decodeElements lib items false with
    | .error e => .error (.unmarshaler e)
    | .ok (cs, saved) => if saved then .error .typeError else .ok cs
  | some (.literal raw) => if raw = ascii "null" then .ok [] else .error .typeError
  | some (.object _ _) => .error .typeError

/-! ## C3LI.go: fetchCertificates -/

/-- What `http.Get` returns on success, as far as the source reads it: the status
code and the result of `ioutil.ReadAll(resp.Body)` (the body, or the text of the
read error). -/
structure Response where
  StatusCode : Int
  Body : Except Bytes Bytes

/-- The world outside the program. -/
structure World where
  /-- `http.Get(url)`: the response, or the text of the error -/
  httpGet : Bytes → Except Bytes Response
  /-- `os.Create(name)`: success, or the text of the error -/
  osCreate : Bytes → Except Bytes Unit
  /-- `encoding/json` -/
  json : JSONLib
  /-- `strings.Map(unicode.ToLower, s)` -/
  mapLower : Bytes → Bytes

/-- The errors `fetchCertificates` returns, one per `fmt.Errorf` of the source. -/
inductive FetchError where
  /-- `failed to fetch data from crt.sh: %v` -/
  | fetch (err : Bytes)
  /-- `unexpected status code from crt.sh: %d` -/
  | status (code : Int)
  /-- `failed to read response body: %v` -/
  | read (err : Bytes)
  /-- `failed to unmarshal JSON data: %v` -/
  | unmarshal (err : JSONError)
deriving DecidableEq, Repr

/-- Go `fetchCertificates(domain)`: the records, or the error (with which the
source returns `nil` records). -/
def fetchCertificates (w : World) (domain : Bytes) : Except FetchError (List Certificate) :=
  let url := ascii "https://crt.sh/?q=" ++ domain ++ ascii "&output=json"
  match w.httpGet url with
  | .error err => .error (.fetch err)
  | .ok resp =>
    if resp.StatusCode ≠ 200 then .error (.status resp.StatusCode)
    else
      match resp.Body with
      | .error err => .error (.read err)
      | .ok body =>
        match Unmarshal w.json body with
        | .error err => .error (.unmarshal err)
        | .ok certs => .ok certs

/-! ## C3LI.go: printCertificates -/

/-- The verb `%v` of `fmt` for a `[]string`: the elements between brackets,
separated by one blank. -/
def formatStrings (xs : List Bytes) : Bytes :=
  91 :: (List.intercalate [32] xs) ++ [93]

/-- The body of the loop of `printCertificates`: the writes for one record,
appended to what `w` holds. -/
def printCertificate (w : Bytes) (cert : Certificate) (verbose : Bool) : Bytes :=
  let w := w ++ (ascii "Common Name: " ++ cert.CommonName ++ [10])
  let w := w ++ (ascii "Issuer Name: " ++ cert.IssuerName ++ [10])
  let w := w ++ (ascii "Serial Number: " ++ cert.SerialNumber ++ [10])
  let w := w ++ (ascii "Not Before: " ++ cert.NotBefore.Time.Format ++ [10])
  let w := w ++ (ascii "Not After: " ++ cert.NotAfter.Time.Format ++ [10])
  let w :=
    if verbose then
      let w := w ++ (ascii "SHA256 Fingerprint: " ++ cert.SHA256Fingerprint ++ [10])
      let w := w ++ (ascii "SHA1 Fingerprint: " ++ cert.SHA1Fingerprint ++ [10])
      let w := w ++ (ascii "MD5 Fingerprint: " ++ cert.MD5Fingerprint ++ [10])
      w ++ (ascii "Subject Alternative Names: " ++ formatStrings cert.SubjectAlternativeNames
        ++ [10])
    else w
  w ++ [10]

/-- Go `printCertificates(w, certs, verbose)`: what `w` holds after the call. -/
def printCertificates (w : Bytes) (certs : List Certificate) (verbose : Bool) : Bytes :=
  certs.foldl (fun w cert => printCertificate w cert verbose) w

/-! ## C3LI.go: main -/

/-- Go string comparison `s < t`: byte-wise lexicographic order. -/
def stringLess : Bytes → Bytes → Bool
  | [], [] => false
  | [], _ :: _ => true
  | _ :: _, [] => false
  | x :: s, y :: t => if x < y then true else if y < x then false else stringLess s t

/-- The values of the command-line flags after `flag.Parse()`. -/
structure Flags where
  url : Bytes
  v : Bool
  sort : Bytes
  output : Bytes

/-- One write of `main` to standard output. -/
inductive Printed where
  /-- the usage line -/
  | usage
  /-- `Searching certificates for domain: %s` -/
  | searching (domain : Bytes)
  /-- `Error fetching certificates: %s` -/
  | fetchError (err : FetchError)
  /-- `Invalid sort option. Available options: issuer, expiration` -/
  | invalidSort
  /-- `Error creating output file: %s` -/
  | createError (err : Bytes)
  /-- what `printCertificates` wrote, when `out` is standard output -/
  | records (text : Bytes)
  /-- `Results have been saved.` -/
  | saved
deriving DecidableEq, Repr

/-- What a run of `main` does: its writes to standard output, its exit status
(0 when `main` returns), and the file it created or truncated with what it
wrote to it. -/
structure Outcome where
  stdout : List Printed
  exit : Nat
  file : Option (Bytes × Bytes)
deriving DecidableEq, Repr

/-- The closure `certs[i].IssuerName < certs[j].IssuerName` of `main`, on the
elements compared. -/
def lessByIssuer (ci cj : Certificate) : Bool := stringLess ci.IssuerName cj.IssuerName

/-- The closure `certs[i].NotAfter.Time.Before(certs[j].NotAfter.Time)` of `main`,
on the elements compared. -/
def lessByExpiration (ci cj : Certificate) : Bool := ci.NotAfter.Time.Before cj.NotAfter.Time

/-- The `switch strings.ToLower(*sortBy)` of `main`: the sorted slice, `none` for
the `default` case.  The inner option is the result of the fuel-bounded model of
`sort.Slice`. -/
def sortCerts (w : World) (sortBy : Bytes) (certs : List Certificate) :
    Option (Option (List Certificate)) :=
  let key := ToLower w.mapLower sortBy
  if key = ascii "issuer" then
    some (Slice lessByIssuer certs)
  else if key = ascii "expiration" then
    some (Slice lessByExpiration certs)
  else none

/-- The part of `main` after the sort: the output sink and the rendering. -/
def render (w : World) (flags : Flags) (certs : List Certificate) (printed : List Printed) :
    Outcome :=
  if flags.output ≠ [] then
    match w.osCreate flags.output with
    | .error err => ⟨printed ++ [.createError err], 1, none⟩
    | .ok _ =>
      ⟨printed ++ [.saved], 0, some (flags.output, printCertificates [] certs flags.v)⟩
  else ⟨printed ++ [.records (printCertificates [] certs flags.v), .saved], 0, none⟩

/-- Go `main`, given the flag values and the world.  `none` means that the
fuel-bounded model of `sort.Slice` ran out of fuel, which does not happen
(`main_total`). -/
def main (w : World) (flags : Flags) : Option Outcome :=
  if flags.url = [] then some ⟨[.usage], 1, none⟩
  else
    let printed := [Printed.searching flags.url]
    match fetchCertificates w flags.url with
    | .error err => some ⟨printed ++ [.fetchError err], 1, none⟩
    | .ok certs =>
      if flags.sort ≠ [] then
        match sortCerts w flags.sort certs with
        | none => some ⟨printed ++ [.invalidSort], 1, none⟩
        | some none => none
        | some (some certs) => some (render w flags certs printed)
      else some (render w flags certs printed)

/-! ## Notions used in the statements about sorting -/

/-- The laws of a strict weak order, which `sort.Slice` expects of `less`. -/
structure StrictWeak {α : Type} (less : α → α → Bool) : Prop where
  irrefl : ∀ x, less x x = false
  trans : ∀ x y z, less x y = true → less y z = true → less x z = true
  ntrans : ∀ x y z, less x y = false → less y z = false → less x z = false

/-- The slice `l'` is the slice `l` with the elements at the indices `a ≤ k < b`
rearranged (`d` is the default of `getD`). -/
structure Shuffle {α : Type} (d : α) (a b : Nat) (l l' : List α) : Prop where
  length_eq : l'.length = l.length
  perm : l'.Perm l
  outside : ∀ k, (k < a ∨ b ≤ k) → l'.getD k d = l.getD k d
  inside : ∀ P : α → Prop, (∀ k, a ≤ k → k < b → P (l.getD k d)) →
    ∀ k, a ≤ k → k < b → P (l'.getD k d)

/-- The elements at the indices `a ≤ k < b` are in non-decreasing order. -/
def RSorted {α : Type} (less : α → α → Bool) (d : α) (l : List α) (a b : Nat) : Prop :=
  ∀ i j, a ≤ i → i < j → j < b → less (l.getD j d) (l.getD i d) = false

/-- The element before index `a`, if any, is not greater than any element at the
indices `a ≤ k < b`. -/
def LowerBound {α : Type} (less : α → α → Bool) (d : α) (l : List α) (a b : Nat) : Prop :=
  0 < a → ∀ k, a ≤ k → k < b → less (l.getD k d) (l.getD (a - 1) d) = false

/-! ## Notions used in the statements about the calendar -/

/-- Decomposition of a year count into 400-, 100-, 4- and 1-year parts. -/
structure YearSplit (Y q a b c : Nat) : Prop where
  eq : Y = 400 * q + 100 * a + 4 * b + c
  ha : a ≤ 3
  hb : b ≤ 24
  hc : c ≤ 3

/-- Invariant of the inner loop of insertion sort: the elements at `a ≤ k ≤ i`
other than the one at `j` are in order, and the one at `j` is less than those
after it. -/
def InsInv {α : Type} (less : α → α → Bool) (d : α) (l : List α) (a j i : Nat) : Prop :=
  (∀ p q, a ≤ p → p < q → q ≤ i → p ≠ j → q ≠ j → less (l.getD q d) (l.getD p d) = false)
    ∧ (∀ q, j < q → q ≤ i → less (l.getD j d) (l.getD q d) = true)

/-- A scan upwards from `i` while `i ≤ j` and `p i` (the shape of the first
inner loops of the partition functions). -/
def scanUp (p : Nat → Bool) (j : Nat) : Nat → Nat → Nat
  | 0, i => i
  | n + 1, i => if i ≤ j && p i then scanUp p j n (i + 1) else i

/-- A scan downwards from `j` while `i ≤ j` and `p j` (the shape of the second
inner loops of the partition functions). -/
def scanDown (p : Nat → Bool) (i : Nat) : Nat → Nat → Nat
  | 0, j => j
  | n + 1, j => if i ≤ j && p j then scanDown p i n (j - 1) else j

/-- The common shape of the loops of `partition_func` and `partitionEqual_func`:
scan up while `pu`, scan down while `pd`, exchange, repeat.  Returns the slice
and the final `i` and `j`. -/
def genLoop {α : Type} (pu pd : List α → Nat → Bool) :
    Nat → List α → Nat → Nat → List α × Nat × Nat
  | 0, data, i, j => (data, i, j)
  | n + 1, data, i, j =>
    let i := scanUp (pu data) j (j + 1 - i) i
    let j := scanDown (pd data) i (j + 1 - i) j
    if i > j then (data, i, j)
    else genLoop pu pd n (swapAt data i j) (i + 1) (j - 1)

/-- The heap property at node `k` of the heap of size `hi` stored from index
`first`: no child of `k` is greater than `k`. -/
def HeapAt {α : Type} (less : α → α → Bool) (d : α) (l : List α) (first hi k : Nat) : Prop :=
  (2 * k + 1 < hi → less (l.getD (first + k) d) (l.getD (first + (2 * k + 1)) d) = false)
    ∧ (2 * k + 2 < hi → less (l.getD (first + k) d) (l.getD (first + (2 * k + 2)) d) = false)

/-- Invariant of `siftDown_func`: the heap property holds at every node from `lo`
other than `root`, and no child of `root` is greater than the parent of `root`. -/
def SiftInv {α : Type} (less : α → α → Bool) (d : α) (l : List α) (first lo hi root : Nat) :
    Prop :=
  (∀ k, lo ≤ k → k ≠ root → HeapAt less d l first hi k)
    ∧ (∀ pr, lo ≤ pr → (root = 2 * pr + 1 ∨ root = 2 * pr + 2) →
        ∀ c, (c = 2 * root + 1 ∨ c = 2 * root + 2) → c < hi →
          less (l.getD (first + pr) d) (l.getD (first + c) d) = false)

/-- Two elements tie under `less`: neither is less than the other. -/
def tie {α : Type} (less : α → α → Bool) (x y : α) : Bool := !less x y && !less y x

/-- The sort kept the relative order of the elements that tie: for every element
`e`, the elements tying with `e` occur in `out` in the order they have in `inp`. -/
def Stable {α : Type} (less : α → α → Bool) (inp out : List α) : Prop :=
  ∀ e, out.filter (tie less e) = inp.filter (tie less e)

/-! ## Concrete inputs used in witnesses and counterexamples -/

/-- A record with the given common name, issuer name and not-after. -/
def sampleCert (commonName issuer : String) (notAfter : Time) : Certificate :=
  { Certificate.zero with
    CommonName := ascii commonName, IssuerName := ascii issuer, NotAfter := ⟨notAfter⟩ }

/-- Thirteen records: the first issued by `B`, the other twelve by `A`. -/
def thirteenCerts : List Certificate :=
  sampleCert "c00" "B" Time.zero ::
    (["c01", "c02", "c03", "c04", "c05", "c06", "c07", "c08", "c09", "c10", "c11", "c12"].map
      fun cn => sampleCert cn "A" Time.zero)

/-- A toy instance of the `encoding/json` parameters: every text scans to an
array of two objects, with issuer names `B` and `A`; the key `issuer_name`
selects `IssuerName`, the key `not_after` selects `NotAfter`, and a store into
`IssuerName` takes the text between the quotes. -/
def sampleJSON : JSONLib where
  scan := fun _ =>
    some (.array [] [
      .object [] [(ascii "issuer_name", .literal (quoted (ascii "B")))],
      .object [] [(ascii "issuer_name", .literal (quoted (ascii "A")))]])
  field := fun key =>
    if key = ascii "issuer_name" then some (.plain .IssuerName)
    else if key = ascii "not_after" then some (.time .NotAfter)
    else none
  store := fun f v c =>
    match f with
    | .IssuerName => ({ c with IssuerName := Trim v.raw 34 }, false)
    | _ => (c, false)

/-- A world in which crt.sh answers with the given status code and a body that
decodes to two records (issuers `B`, `A`), and files can be created. -/
def sampleWorld (status : Int) : World where
  httpGet := fun _ => .ok ⟨status, .ok (ascii "[]")⟩
  osCreate := fun _ => .ok ()
  json := sampleJSON
  mapLower := fun s => s

/-- The text rendered by a run: what `printCertificates` wrote to standard
output, and what it wrote to the output file. -/
def Outcome.rendered (o : Outcome) : List Bytes :=
  (o.stdout.filterMap fun p => match p with
    | .records text => some text
    | _ => none)
  ++ (match o.file with
    | some (_, text) => [text]
    | none => [])

/-! ## Spec-side description of the rendered text -/

/-- The lines of the block of one record, without their line ends. -/
def fieldLines (cert : Certificate) (verbose : Bool) : List Bytes :=
  [ascii "Common Name: " ++ cert.CommonName,
   ascii "Issuer Name: " ++ cert.IssuerName,
   ascii "Serial Number: " ++ cert.SerialNumber,
   ascii "Not Before: " ++ cert.NotBefore.Time.Format,
   ascii "Not After: " ++ cert.NotAfter.Time.Format]
  ++ (if verbose then
      [ascii "SHA256 Fingerprint: " ++ cert.SHA256Fingerprint,
       ascii "SHA1 Fingerprint: " ++ cert.SHA1Fingerprint,
       ascii "MD5 Fingerprint: " ++ cert.MD5Fingerprint,
       ascii "Subject Alternative Names: " ++ formatStrings cert.SubjectAlternativeNames]
    else [])

/-- The block of one record: its field lines, each ended by a line feed, and one
empty line. -/
def block (cert : Certificate) (verbose : Bool) : Bytes :=
  ((fieldLines cert verbose).map fun line => line ++ [10]).flatten ++ [10]

/-- The records of `thirteenCerts` after `sort.Slice` by issuer. -/
def thirteenSorted : List Certificate :=
  sampleCert "c06" "A" Time.zero ::
    ((["c01", "c02", "c03", "c04", "c05", "c07", "c08", "c09", "c10", "c11", "c12"].map
      fun cn => sampleCert cn "A" Time.zero) ++ [sampleCert "c00" "B" Time.zero])

/-! ## Spec-side description of the accepted timestamps -/

/-- A decimal digit. -/
def isDig (c : Nat) : Bool := decide (48 ≤ c) && decide (c ≤ 57)

/-- The number written by two digits. -/
def num2 (a b : Nat) : Nat := (a - 48) * 10 + (b - 48)

/-- The number written by four digits. -/
def num4 (a b c e : Nat) : Nat := (a - 48) * 1000 + (b - 48) * 100 + (c - 48) * 10 + (e - 48)

/-- The optional fraction: nothing, or a period or comma followed by one or more
digits up to the end. -/
def acceptedFraction : Bytes → Bool
  | [] => true
  | sep :: digs => (sep == 46 || sep == 44) && !digs.isEmpty && digs.all isDig

/-- The text `:MM:SS` with minute and second below 60, and the optional fraction. -/
def acceptedMinSec : Bytes → Bool
  | c1 :: m1 :: m2 :: c2 :: s1 :: s2 :: frac =>
    c1 == 58 && isDig m1 && isDig m2 && decide (num2 m1 m2 < 60)
      && c2 == 58 && isDig s1 && isDig s2 && decide (num2 s1 s2 < 60)
      && acceptedFraction frac
  | _ => false

/-- The hour, written with one or two digits and below 24, and what follows it. -/
def acceptedClock : Bytes → Bool
  | h1 :: h2 :: rest =>
    isDig h1 &&
      (if isDig h2 then decide (num2 h1 h2 < 24) && acceptedMinSec rest
       else acceptedMinSec (h2 :: rest))
  | _ => false

/-- The timestamps `time.Parse` accepts for the layout `2006-01-02T15:04:05.999`:
`YYYY-MM-DDTh:MM:SS` or `YYYY-MM-DDThh:MM:SS` with month 01 to 12, a day of that
month and year, hour below 24, minute and second below 60, optionally followed by
a period or comma and one or more digits, and nothing else. -/
def accepted : Bytes → Bool
  | y1 :: y2 :: y3 :: y4 :: c1 :: m1 :: m2 :: c2 :: d1 :: d2 :: t :: rest =>
    isDig y1 && isDig y2 && isDig y3 && isDig y4 && c1 == 45
      && isDig m1 && isDig m2 && decide (1 ≤ num2 m1 m2) && decide (num2 m1 m2 ≤ 12)
      && c2 == 45 && isDig d1 && isDig d2 && decide (1 ≤ num2 d1 d2)
      && decide ((num2 d1 d2 : Int) ≤ daysIn (num2 m1 m2) (num4 y1 y2 y3 y4))
      && t == 84 && acceptedClock rest
  | _ => false

/-- The format the specification states: `YYYY-MM-DDTHH:MM:SS` optionally followed by a period
and one to three digits. -/
def claimedFormat : Bytes → Bool
  | y1 :: y2 :: y3 :: y4 :: c1 :: m1 :: m2 :: c2 :: d1 :: d2 :: t :: h1 :: h2 :: c3 :: n1 :: n2
      :: c4 :: s1 :: s2 :: frac =>
    isDig y1 && isDig y2 && isDig y3 && isDig y4 && c1 == 45 && isDig m1 && isDig m2
      && c2 == 45 && isDig d1 && isDig d2 && t == 84 && isDig h1 && isDig h2 && c3 == 58
      && isDig n1 && isDig n2 && c4 == 58 && isDig s1 && isDig s2
      && (match frac with
          | [] => true
          | p :: digs => p == 46 && decide (1 ≤ digs.length) && decide (digs.length ≤ 3)
              && digs.all isDig)
  | _ => false

/-! ## Spec-side description of rendered timestamps, and more samples -/

/-- A world in which crt.sh answers with status 200 and a body that scans to an
array of one object, whose only member has the key `not_after` and as value the
given text between quotes. -/
def stampWorld (text : Bytes) : World :=
  { sampleWorld 200 with
    json := { sampleJSON with
      scan := fun _ =>
        some (.array [] [.object [] [(ascii "not_after", .literal (quoted text))]]) } }

/-! ## Spec-side description of the timestamps that denote the zero time -/

/-- The fraction is absent or its first nine digits are zeros. -/
def zeroFraction : Bytes → Bool
  | [] => true
  | _ :: digs => (digs.take 9).all fun c => c == 48

/-- The clock part is `00:00:00` or `0:00:00`, with a fraction that is absent or
starts with nine zeros (or is made of fewer digits, all zeros). -/
def zeroClock (v : Bytes) : Bool :=
  (v.take 8 == ascii "00:00:00" && zeroFraction (v.drop 8))
    || (v.take 7 == ascii "0:00:00" && zeroFraction (v.drop 7))

/-- The timestamp is `0001-01-01T` followed by a clock part that `zeroClock`
describes. -/
def zeroStamp (s : Bytes) : Bool :=
  s.take 11 == ascii "0001-01-01T" && zeroClock (s.drop 11)
/-! ## Lemmas: timestamps -/

theorem trimLeftByte_of_head (s : Bytes) (c : Nat) (h : s.head? ≠ some c) :
    trimLeftByte s c = s := by
  cases s with
  | nil => rfl
  | cons x s =>
    have : x ≠ c := by simpa using h
    simp [trimLeftByte, this]

theorem Trim_quoted (s : Bytes) (h0 : s ≠ []) (h1 : s.head? ≠ some 34)
    (h2 : s.getLast? ≠ some 34) : Trim (quoted s) 34 = s := by
  have hr : trimRightByte (quoted s) 34 = 34 :: s := by
    unfold trimRightByte quoted
    have : (34 :: s ++ [34]).reverse = 34 :: (s.reverse ++ [34]) := by simp
    rw [this]
    have h3 : (s.reverse ++ [34]).head? ≠ some 34 := by
      cases hs : s.reverse with
      | nil => simp at hs; exact absurd hs h0
      | cons a t =>
        have : s.getLast? = some a := by
          rw [← List.head?_reverse, hs]; rfl
        rw [this] at h2
        simpa using h2
    simp only [trimLeftByte, if_true]
    rw [trimLeftByte_of_head _ _ h3]
    simp
  unfold Trim
  rw [if_neg (by simp [quoted]), hr]
  simp only [trimLeftByte, if_true]
  exact trimLeftByte_of_head _ _ h1

theorem isDigit_zero_cons (c : Nat) (s : Bytes) :
    isDigit (c :: s) 0 = (decide (48 ≤ c) && decide (c ≤ 57)) := by
  simp [isDigit]

theorem isDigit_one_cons (c d : Nat) (s : Bytes) :
    isDigit (c :: d :: s) 1 = (decide (48 ≤ d) && decide (d ≤ 57)) := by
  simp [isDigit]

theorem getnum_digits2 (n : Nat) (hn : n < 100) (fixed : Bool) (rest : Bytes) :
    getnum (digits2 n ++ rest) fixed = some ((n : Int), rest) := by
  have h1 : n / 10 < 10 := by omega
  have h2 : n % 10 < 10 := by omega
  simp only [digits2, List.cons_append, List.nil_append, getnum, isDigit_zero_cons,
    isDigit_one_cons]
  have e1 : (decide (48 ≤ 48 + n / 10) && decide (48 + n / 10 ≤ 57)) = true := by
    simp; omega
  have e2 : (decide (48 ≤ 48 + n % 10) && decide (48 + n % 10 ≤ 57)) = true := by
    simp; omega
  simp only [e1, e2, Bool.not_true, Bool.false_eq_true, if_false, List.getD_cons_zero,
    List.getD_cons_succ, List.drop_succ_cons, List.drop_zero]
  congr 2
  push_cast
  omega

theorem leadingInt_digit (c : Nat) (s : Bytes) (x : Nat) (hc : 48 ≤ c ∧ c ≤ 57)
    (hx : x < 1000000000) :
    leadingInt (c :: s) x = leadingInt s (x * 10 + (c - 48)) := by
  have h1 : ¬ (c < 48 ∨ c > 57) := by omega
  have h2 : ¬ (x > 9223372036854775808 / 10) := by omega
  have h3 : (x * 10 + c - 48) % 18446744073709551616 = x * 10 + (c - 48) := by omega
  have h4 : ¬ (x * 10 + (c - 48) > 9223372036854775808) := by omega
  simp [leadingInt, h1, h2, h3, h4]

theorem atoi_digits4 (n : Nat) (hn : n < 10000) : atoi (digits4 n) = some (n : Int) := by
  have a1 : n / 1000 < 10 := by omega
  have a2 : n / 100 % 10 < 10 := by omega
  have a3 : n / 10 % 10 < 10 := by omega
  have a4 : n % 10 < 10 := by omega
  have hh : ∀ k, k < 10 → ¬ (48 + k = 45) ∧ ¬ (48 + k = 43) := by intro k hk; omega
  unfold atoi digits4
  simp only [List.head?_cons, Option.some.injEq, (hh _ a1).1, (hh _ a1).2, decide_False,
    Bool.or_self, Bool.false_eq_true, if_false]
  rw [leadingInt_digit _ _ _ (by omega) (by omega), leadingInt_digit _ _ _ (by omega) (by omega),
    leadingInt_digit _ _ _ (by omega) (by omega), leadingInt_digit _ _ _ (by omega) (by omega)]
  simp only [leadingInt, ne_eq, not_true_eq_false, if_false, Option.some.injEq,
    Nat.add_sub_cancel_left, Nat.zero_mul, Nat.zero_add]
  unfold i64
  generalize hk : ((n / 1000 * 10 + n / 100 % 10) * 10 + n / 10 % 10) * 10 + n % 10 = k
  have : k = n := by omega
  subst this
  omega

theorem atoi_digits3 (n : Nat) (hn : n < 1000) : atoi (digits3 n) = some (n : Int) := by
  have a2 : n / 100 < 10 := by omega
  have a3 : n / 10 % 10 < 10 := by omega
  have a4 : n % 10 < 10 := by omega
  have hh : ∀ k, k < 10 → ¬ (48 + k = 45) ∧ ¬ (48 + k = 43) := by intro k hk; omega
  unfold atoi digits3
  simp only [List.head?_cons, Option.some.injEq, (hh _ a2).1, (hh _ a2).2, decide_False,
    Bool.or_self, Bool.false_eq_true, if_false]
  rw [leadingInt_digit _ _ _ (by omega) (by omega), leadingInt_digit _ _ _ (by omega) (by omega),
    leadingInt_digit _ _ _ (by omega) (by omega)]
  simp only [leadingInt, ne_eq, not_true_eq_false, if_false, Option.some.injEq,
    Nat.add_sub_cancel_left, Nat.zero_mul, Nat.zero_add]
  unfold i64
  generalize hk : (n / 100 * 10 + n / 10 % 10) * 10 + n % 10 = k
  have : k = n := by omega
  subst this
  omega

theorem parseYear_digits4 (n : Nat) (hn : n < 10000) (rest : Bytes) :
    parseYear (digits4 n ++ rest) = .ok ((n : Int), rest) := by
  have a1 : n / 1000 < 10 := by omega
  have hd : isDigit (digits4 n ++ rest) 0 = true := by
    simp only [digits4, List.cons_append, isDigit_zero_cons]
    simp; omega
  have hl : ¬ ((digits4 n ++ rest).length < 4) := by simp [digits4]
  have ht : (digits4 n ++ rest).take 4 = digits4 n := by simp [digits4]
  have hdr : (digits4 n ++ rest).drop 4 = rest := by simp [digits4]
  unfold parseYear
  simp only [hd, hl, ht, hdr, atoi_digits4 n hn, decide_False, Bool.not_true, Bool.or_self,
    Bool.false_eq_true, if_false]

theorem parseFrac_nil : parseFrac [] = .ok (0, []) := by decide

theorem parseFrac_millis (f : Nat) (hf : f < 1000) :
    parseFrac (46 :: digits3 f) = .ok ((f : Int) * 1000000, []) := by
  have a2 : f / 100 < 10 := by omega
  have a3 : f / 10 % 10 < 10 := by omega
  have a4 : f % 10 < 10 := by omega
  have b1 : 48 ≤ 48 + f / 100 ∧ 48 + f / 100 ≤ 57 := by omega
  have b2 : 48 ≤ 48 + f / 10 % 10 ∧ 48 + f / 10 % 10 ≤ 57 := by omega
  have b3 : 48 ≤ 48 + f % 10 ∧ 48 + f % 10 ≤ 57 := by omega
  have e := atoi_digits3 f hf
  unfold digits3 at e
  have hg : ¬ (48 + f / 100 < 48) ∧ ¬ (57 < 48 + f / 100) := by omega
  have hn : ¬ ((f : Int) < 0) := by omega
  simp only [parseFrac, digits3, List.length_cons, List.length_nil, List.getD_cons_zero,
    List.getD_cons_succ, commaOrPeriod, List.drop_succ_cons, List.drop_zero, countDigits, b1, b2,
    b3, and_self, if_true, parseNanoseconds, List.take_succ_cons, List.take_zero, e, hg]
  simp [e]
  rw [if_neg hn]

theorem ascii_dash : ascii "-" = [45] := by decide
theorem ascii_T : ascii "T" = [84] := by decide
theorem ascii_colon : ascii ":" = [58] := by decide

theorem skip_one (c : Nat) (rest : Bytes) : skip (c :: rest) [c] = .ok rest := by
  simp [skip]

theorem parseMonth_digits2 (m : Nat) (hm : 1 ≤ m ∧ m ≤ 12) (rest : Bytes) :
    parseMonth (digits2 m ++ rest) = .ok ((m : Int), rest) := by
  have h : ¬ ((m : Int) ≤ 0 ∨ 12 < (m : Int)) := by omega
  simp [parseMonth, getnum_digits2 m (by omega)]
  omega

theorem parseDay_digits2 (d : Nat) (hd : d < 100) (rest : Bytes) :
    parseDay (digits2 d ++ rest) = .ok ((d : Int), rest) := by
  simp [parseDay, getnum_digits2 d hd]

theorem parseHour_digits2 (h : Nat) (hh : h < 24) (rest : Bytes) :
    parseHour (digits2 h ++ rest) = .ok ((h : Int), rest) := by
  have h' : ¬ ((h : Int) < 0 ∨ 24 ≤ (h : Int)) := by omega
  simp [parseHour, getnum_digits2 h (by omega)]
  omega

theorem parseMinute_digits2 (h : Nat) (hh : h < 60) (rest : Bytes) :
    parseMinute (digits2 h ++ rest) = .ok ((h : Int), rest) := by
  have h' : ¬ ((h : Int) < 0 ∨ 60 ≤ (h : Int)) := by omega
  simp [parseMinute, getnum_digits2 h (by omega)]
  omega

theorem parseSecond_digits2 (h : Nat) (hh : h < 60) (rest : Bytes) :
    parseSecond (digits2 h ++ rest) = .ok ((h : Int), rest) := by
  have h' : ¬ ((h : Int) < 0 ∨ 60 ≤ (h : Int)) := by omega
  simp [parseSecond, getnum_digits2 h (by omega)]
  omega

theorem parseFrac_opt (f : Option Nat) (hf : ∀ x, f = some x → x < 1000) :
    parseFrac (millis f) = .ok (((f.getD 0 : Nat) : Int) * 1000000, []) := by
  cases f with
  | none => simp [millis, parseFrac_nil]
  | some x => simpa [millis] using parseFrac_millis x (hf x rfl)

theorem parseFields_stamp (y m d H M S : Nat) (f : Option Nat)
    (hy : y < 10000) (hm : 1 ≤ m ∧ m ≤ 12) (hd : d < 100) (hH : H < 24) (hM : M < 60)
    (hS : S < 60) (hf : ∀ x, f = some x → x < 1000) :
    parseFields (stamp y m d H M S ++ millis f)
      = .ok ⟨y, m, d, H, M, S, ((f.getD 0 : Nat) : Int) * 1000000, []⟩ := by
  unfold parseFields stamp
  simp only [List.append_assoc, List.cons_append, bind, Except.bind, parseYear_digits4 y hy,
    ascii_dash, ascii_T, ascii_colon, skip_one, parseMonth_digits2 m hm, parseDay_digits2 d hd,
    parseHour_digits2 H hH, parseMinute_digits2 M hM, parseSecond_digits2 S hS,
    parseFrac_opt f hf]
  simp [pure, Except.pure]

theorem yearSplit_exists (Y : Nat) :
    YearSplit Y (Y / 400) (Y % 400 / 100) (Y % 400 % 100 / 4) (Y % 400 % 100 % 4) := by
  constructor <;> omega

theorem daysSinceEpoch_split (y : Int) (Y q a b c : Nat) (hy : y - absoluteZeroYear = Y)
    (hY : Y < 18446744073709551616) (h : YearSplit Y q a b c) :
    daysSinceEpoch y = 146097 * q + 36524 * a + 1461 * b + 365 * c := by
  obtain ⟨e, ha, hb, hc⟩ := h
  have hu : u64 (y - absoluteZeroYear) = Y := by
    rw [hy]; unfold u64; omega
  unfold daysSinceEpoch
  simp only [hu, daysPer400Years, daysPer100Years, daysPer4Years]
  have h1 : Y / 400 = q := by omega
  rw [h1]
  have h2 : Y - 400 * q = 100 * a + 4 * b + c := by omega
  rw [h2]
  have h3 : (100 * a + 4 * b + c) / 100 = a := by omega
  rw [h3]
  have h4 : 100 * a + 4 * b + c - 100 * a = 4 * b + c := by omega
  rw [h4]
  have h5 : (4 * b + c) / 4 = b := by omega
  rw [h5]
  have h6 : 4 * b + c - 4 * b = c := by omega
  rw [h6]

theorem absDateYear_split (Y q a b c doy sod : Nat) (h : YearSplit Y q a b c)
    (hY : Y < 1000000000000)
    (hdoy : doy < 365 ∨ (doy = 365 ∧ c = 3 ∧ (b < 24 ∨ a = 3)))
    (hsod : sod < 86400) :
    absDateYear ((146097 * q + 36524 * a + 1461 * b + 365 * c + doy) * 86400 + sod)
      = ((Y : Int) + absoluteZeroYear, (doy : Int)) := by
  obtain ⟨e, ha, hb, hc⟩ := h
  unfold absDateYear
  lift_lets
  extract_lets d n y d1 n2 n2' y2 d2 n3 y3 d3 n4 n4' y4 d4
  have h0 : d = 146097 * q + (36524 * a + 1461 * b + 365 * c + doy) := by
    simp only [d]; omega
  clear_value d
  have h1 : n = q := by simp only [n, daysPer400Years, h0]; omega
  clear_value n
  have hy : y = 400 * q := by simp only [y, h1]
  clear_value y
  have h2 : d1 = 36524 * a + (1461 * b + 365 * c + doy) := by
    simp only [d1, daysPer400Years, h0, h1]; omega
  clear_value d1
  have hV : 1461 * b + 365 * c + doy < 36524 ∨ (a = 3 ∧ 1461 * b + 365 * c + doy = 36524) := by
    omega
  have h3 : n2' = a := by
    simp only [n2', n2, daysPer100Years, h2]
    generalize 1461 * b + 365 * c + doy = V at hV
    clear h0 h1 hy h2 hdoy e hY
    have ha' : a = 0 ∨ a = 1 ∨ a = 2 ∨ a = 3 := by omega
    rcases ha' with rfl | rfl | rfl | rfl <;> omega
  clear_value n2' n2
  have hy2 : y2 = 400 * q + 100 * a := by simp only [y2, h3, hy]
  clear_value y2
  have h4 : d2 = 1461 * b + (365 * c + doy) := by
    simp only [d2, daysPer100Years, h2, h3]; omega
  clear_value d2
  have h5 : n3 = b := by simp only [n3, daysPer4Years, h4]; omega
  clear_value n3
  have hy3 : y3 = 400 * q + 100 * a + 4 * b := by simp only [y3, h5, hy2]
  clear_value y3
  have h6 : d3 = 365 * c + doy := by simp only [d3, daysPer4Years, h4, h5]; omega
  clear_value d3
  have h7 : n4' = c := by
    simp only [n4', n4, h6]
    clear h0 h1 hy h2 hy2 h3 h4 h5 hy3 h6 e hY hV
    have hc' : c = 0 ∨ c = 1 ∨ c = 2 ∨ c = 3 := by omega
    rcases hc' with rfl | rfl | rfl | rfl <;> omega
  clear_value n4' n4
  have hy4 : y4 = Y := by simp only [y4, h7, hy3]; omega
  clear_value y4
  have h8 : d4 = doy := by simp only [d4, h6, h7]; omega
  clear_value d4
  subst hy4 h8
  clear h0 h1 hy h2 hy2 h3 h4 h5 hy3 h6 h7 e hV hdoy
  simp only [absoluteZeroYear, i64, Prod.mk.injEq, and_true]
  omega



theorem daysBefore_bounds (m : Nat) (hm : 1 ≤ m ∧ m ≤ 12) :
    0 ≤ daysBefore.getD (m - 1) 0 ∧ daysBefore.getD (m - 1) 0 < daysBefore.getD m 0
      ∧ daysBefore.getD m 0 ≤ 365 ∧ daysBefore.getD m 0 - daysBefore.getD (m - 1) 0 ≤ 31
      ∧ (m = 2 → daysBefore.getD (m - 1) 0 = 31 ∧ daysBefore.getD m 0 = 59)
      ∧ (m < 2 → daysBefore.getD m 0 ≤ 31)
      ∧ (3 ≤ m → 59 ≤ daysBefore.getD (m - 1) 0) := by
  obtain ⟨h1, h2⟩ := hm
  interval_cases m <;> simp [daysBefore]

theorem monthPart (day : Int) (m d : Nat) (hm : 1 ≤ m ∧ m ≤ 12)
    (h1 : daysBefore.getD (m - 1) 0 ≤ day) (h2 : day < daysBefore.getD m 0)
    (hd : (d : Int) = day - daysBefore.getD (m - 1) 0 + 1) :
    (if day ≥ daysBefore.getD (day / 31 + 1).toNat 0
      then (day / 31 + 1 + 1, day - daysBefore.getD (day / 31 + 1).toNat 0 + 1)
      else (day / 31 + 1, day - daysBefore.getD (day / 31).toNat 0 + 1))
      = ((m : Int), (d : Int)) := by
  obtain ⟨hm1, hm2⟩ := hm
  obtain ⟨k, hk⟩ : ∃ k : Nat, day / 31 = (k : Int) :=
    ⟨(day / 31).toNat, by
      have := (daysBefore_bounds m ⟨hm1, hm2⟩).1
      omega⟩
  have hk12 : k < 12 := by
    have := (daysBefore_bounds m ⟨hm1, hm2⟩).2.2.1
    omega
  rw [hk, hd]
  interval_cases m <;> simp [daysBefore] at h1 h2 ⊢ <;>
    interval_cases k <;> simp [daysBefore] <;> omega


theorem triple_of_pair (c : Prop) [Decidable c] (y a1 b1 a2 b2 m d : Int)
    (h : (if c then (a1, b1) else (a2, b2)) = (m, d)) :
    (if c then (y, a1, b1) else (y, a2, b2)) = (y, m, d) := by
  split_ifs at h ⊢ <;> simp_all

theorem yday_cast (year : Int) (m d : Nat) (hm : 1 ≤ m ∧ m ≤ 12) (hd : 1 ≤ d) :
    ((yday year m d : Nat) : Int)
      = daysBefore.getD (m - 1) 0 + (if isLeap year && decide (3 ≤ m) then 1 else 0) + (d - 1) := by
  have := (daysBefore_bounds m hm).1
  unfold yday
  split_ifs <;> push_cast <;> omega

theorem absDate_of_year (abs : Nat) (year : Int) (m d : Nat)
    (hm : 1 ≤ m ∧ m ≤ 12) (hd : 1 ≤ d ∧ (d : Int) ≤ daysIn m year)
    (h : absDateYear abs = (year, (yday year m d : Int))) :
    absDate abs = (year, (m : Int), (d : Int)) := by
  unfold absDate
  rw [h]
  simp only
  have hb := daysBefore_bounds m hm
  obtain ⟨hb0, hb1, hb2, hb3, hb4, hb5, hb6⟩ := hb
  obtain ⟨hd1, hd2⟩ := hd
  have hy := yday_cast year m d hm hd1
  generalize (yday year m d : Int) = day at hy ⊢
  unfold daysIn at hd2
  have hm' : ((m : Int) - 1).toNat = m - 1 := by omega
  have hm'' : ((m : Int)).toNat = m := by omega
  rw [hm', hm''] at hd2
  cases hl : isLeap year
  · simp only [hl, Bool.false_and, Bool.false_eq_true, if_false, Bool.and_false] at hy hd2 ⊢
    apply triple_of_pair
    apply monthPart day m d hm <;> omega
  · simp only [hl, Bool.true_and, decide_eq_true_eq, Bool.and_true] at hy hd2 ⊢
    by_cases h59 : day = 31 + 29 - 1
    · rw [if_pos h59]
      have hm2 : m = 2 := by
        by_contra hne
        rcases Nat.lt_or_gt_of_ne hne with hlt | hgt
        · have := hb5 hlt
          rw [if_neg (by omega)] at hy
          split_ifs at hd2 <;> omega
        · have := hb6 (by omega)
          rw [if_pos (by omega)] at hy
          omega
      obtain ⟨e1, e2⟩ := hb4 hm2
      subst hm2
      rw [if_neg (by omega)] at hy
      have : (d : Int) = 29 := by omega
      rw [this]; rfl
    · rw [if_neg h59]
      by_cases h3 : 3 ≤ m
      · have := hb6 h3
        rw [if_pos h3] at hy
        rw [if_neg (by omega)] at hd2
        have hadj : (if day > 31 + 29 - 1 then day - 1 else day) = day - 1 :=
          if_pos (by omega)
        simp only [hadj]
        apply triple_of_pair
        apply monthPart _ m d hm <;> omega
      · rw [if_neg h3] at hy
        have hlt : day < 59 := by
          by_cases hm2 : m = 2
          · obtain ⟨e1, e2⟩ := hb4 hm2
            rw [if_pos (by exact_mod_cast hm2)] at hd2
            omega
          · have := hb5 (by omega)
            rw [if_neg (by omega)] at hd2
            omega
        have hadj : (if day > 31 + 29 - 1 then day - 1 else day) = day :=
          if_neg (by omega)
        simp only [hadj]
        apply triple_of_pair
        apply monthPart _ m d hm
        · omega
        · by_cases hm2 : m = 2
          · obtain ⟨e1, e2⟩ := hb4 hm2
            omega
          · rw [if_neg (by omega)] at hd2
            omega
        · omega

theorem u64_id (x : Int) (h0 : 0 ≤ x) (h1 : x < 18446744073709551616) :
    ((u64 x : Nat) : Int) = x := by
  unfold u64; omega

theorem i64_id (x : Int) (h0 : -9223372036854775808 ≤ x) (h1 : x < 9223372036854775808) :
    i64 x = x := by
  unfold i64; omega

theorem norm_id (hi lo base : Int) (h0 : 0 ≤ lo) (h1 : lo < base) :
    norm hi lo base = (hi, lo) := by
  unfold norm
  simp only [show ¬ (lo < 0) by omega, if_false, show ¬ (lo ≥ base) by omega]

theorem daysBefore_nonneg (k : Nat) : 0 ≤ daysBefore.getD k 0 ∧ daysBefore.getD k 0 ≤ 365 := by
  unfold daysBefore
  rcases Nat.lt_or_ge k 13 with h | h
  · interval_cases k <;> simp
  · rw [List.getD_eq_default _ _ (by simpa using h)]; simp

theorem Date_eq (y m d H M S ns : Nat) (hm : 1 ≤ m ∧ m ≤ 12) (hd : 1 ≤ d ∧ d ≤ 31)
    (hH : H < 24) (hM : M < 60) (hS : S < 60) (hns : ns < 1000000000) (hy : y < 10000) :
    Date y m d H M S ns
      = ⟨ns, ((daysSinceEpoch y + yday y m d) * 86400 + (H * 3600 + M * 60 + S) : Nat)
          + absoluteToInternal⟩ := by
  have n1 := norm_id (y : Int) ((m : Int) - 1) 12 (by omega) (by omega)
  have n2 := norm_id (S : Int) (ns : Int) 1000000000 (by omega) (by omega)
  have n3 := norm_id (M : Int) (S : Int) 60 (by omega) (by omega)
  have n4 := norm_id (H : Int) (M : Int) 60 (by omega) (by omega)
  have n5 := norm_id (d : Int) (H : Int) 24 (by omega) (by omega)
  unfold Date
  simp only [n1, n2, n3, n4, n5, Int.sub_add_cancel]
  have hY : (y : Int) - absoluteZeroYear = ((y + 292277022399 : Nat) : Int) := by
    simp only [absoluteZeroYear]; push_cast; omega
  have hs := daysSinceEpoch_split y _ _ _ _ _ hY (by omega) (yearSplit_exists _)
  have hq : (y + 292277022399) / 400 < 730692600 := by omega
  have ha : (y + 292277022399) % 400 / 100 ≤ 3 := by omega
  have hb : (y + 292277022399) % 400 % 100 / 4 ≤ 24 := by omega
  have hc : (y + 292277022399) % 400 % 100 % 4 ≤ 3 := by omega
  have hD : 106751990000000 ≤ daysSinceEpoch y ∧ daysSinceEpoch y < 106752010000000 := by omega
  clear hs hq ha hb hc hY
  have hyd := yday_cast y m d hm hd.1
  have hm' : ((m : Int) - 1).toNat = m - 1 := by omega
  have hb := daysBefore_nonneg (m - 1)
  rw [hm']
  have hcond : (isLeap (y : Int) && decide ((m : Int) ≥ 3)) = (isLeap (y : Int) && decide (3 ≤ m)) := by
    congr 1; simp
  rw [hcond]
  generalize daysSinceEpoch y = D at hD ⊢
  generalize daysBefore.getD (m - 1) 0 = B at hb hyd ⊢
  generalize yday y m d = W at hyd ⊢
  refine congrArg (Time.mk (ns : Int)) ?_
  have e : ((((D + W) * 86400 + (H * 3600 + M * 60 + S) : Nat)) : Int)
      = ((D : Int) + (W : Int)) * 86400 + ((H : Int) * 3600 + M * 60 + S) := by
    push_cast; rfl
  rw [e, hyd]
  clear e
  simp only [secondsPerDay, secondsPerHour, secondsPerMinute, absoluteToInternal]
  have key : ∀ X : Int, 0 ≤ X → X < 18446744003434500608 →
      i64 (i64 X + -9223371966579724800) = X + -9223371966579724800 := by
    intro X h1 h2; unfold i64; omega
  split_ifs
  · rw [u64_id ((d : Int) - 1) (by omega) (by omega)]
    rw [u64_id (D + B + 1 + ((d : Int) - 1)) (by omega) (by omega)]
    rw [u64_id ((D + B + 1 + ((d : Int) - 1)) * 86400) (by omega) (by omega)]
    rw [u64_id ((H : Int) * 3600 + M * 60 + S) (by omega) (by omega)]
    rw [u64_id ((D + B + 1 + ((d : Int) - 1)) * 86400 + ((H : Int) * 3600 + M * 60 + S))
      (by omega) (by omega)]
    rw [key _ (by omega) (by omega)]
    omega
  · rw [u64_id ((d : Int) - 1) (by omega) (by omega)]
    rw [u64_id (D + B + ((d : Int) - 1)) (by omega) (by omega)]
    rw [u64_id ((D + B + ((d : Int) - 1)) * 86400) (by omega) (by omega)]
    rw [u64_id ((H : Int) * 3600 + M * 60 + S) (by omega) (by omega)]
    rw [u64_id ((D + B + ((d : Int) - 1)) * 86400 + ((H : Int) * 3600 + M * 60 + S))
      (by omega) (by omega)]
    rw [key _ (by omega) (by omega)]
    omega


theorem daysIn_le (m : Nat) (year : Int) (hm : 1 ≤ m ∧ m ≤ 12) : daysIn m year ≤ 31 := by
  have hb := daysBefore_bounds m hm
  unfold daysIn
  have hm' : ((m : Int) - 1).toNat = m - 1 := by omega
  have hm'' : ((m : Int)).toNat = m := by omega
  rw [hm', hm'']
  split_ifs <;> omega

theorem yday_lt (year : Int) (m d : Nat) (hm : 1 ≤ m ∧ m ≤ 12)
    (hd : 1 ≤ d ∧ (d : Int) ≤ daysIn m year) :
    (yday year m d : Int) < 365 + (if isLeap year then 1 else 0) := by
  rw [yday_cast year m d hm hd.1]
  obtain ⟨hb0, hb1, hb2, hb3, hb4, hb5, hb6⟩ := daysBefore_bounds m hm
  obtain ⟨hd1, hd2⟩ := hd
  unfold daysIn at hd2
  have hm' : ((m : Int) - 1).toNat = m - 1 := by omega
  have hm'' : ((m : Int)).toNat = m := by omega
  rw [hm', hm''] at hd2
  cases hl : isLeap year
  · simp only [hl, Bool.false_and, Bool.false_eq_true, if_false, Bool.and_false] at hd2 ⊢
    omega
  · simp only [hl, Bool.true_and, decide_eq_true_eq, Bool.and_true, if_true] at hd2 ⊢
    by_cases h3 : 3 ≤ m
    · rw [if_pos h3]
      rw [if_neg (by omega)] at hd2
      omega
    · rw [if_neg h3]
      by_cases hm2 : m = 2
      · obtain ⟨e1, e2⟩ := hb4 hm2
        rw [if_pos (by exact_mod_cast hm2)] at hd2
        omega
      · have := hb5 (by omega)
        rw [if_neg (by omega)] at hd2
        omega

theorem Date_roundtrip (y m d H M S ns : Nat) (hy : y < 10000) (hm : 1 ≤ m ∧ m ≤ 12)
    (hd : 1 ≤ d ∧ (d : Int) ≤ daysIn m y) (hH : H < 24) (hM : M < 60) (hS : S < 60)
    (hns : ns < 1000000000) :
    (Date y m d H M S ns).date = ((y : Int), (m : Int), (d : Int))
      ∧ (Date y m d H M S ns).Clock = ((H : Int), (M : Int), (S : Int))
      ∧ (Date y m d H M S ns).Nanosecond = (ns : Int) := by
  have hd31 : d ≤ 31 := by
    have := daysIn_le m y hm
    omega
  rw [Date_eq y m d H M S ns hm ⟨hd.1, hd31⟩ hH hM hS hns hy]
  have hY : (y : Int) - absoluteZeroYear = ((y + 292277022399 : Nat) : Int) := by
    simp only [absoluteZeroYear]; push_cast; omega
  have hsp := yearSplit_exists (y + 292277022399)
  have hs := daysSinceEpoch_split y _ _ _ _ _ hY (by omega) hsp
  have hlt := yday_lt y m d hm hd
  generalize (y + 292277022399) / 400 = q at hsp hs
  generalize (y + 292277022399) % 400 / 100 = a at hsp hs
  generalize (y + 292277022399) % 400 % 100 / 4 = b at hsp hs
  generalize (y + 292277022399) % 400 % 100 % 4 = c at hsp hs
  have hleap : isLeap (y : Int) = true → c = 3 ∧ (b < 24 ∨ a = 3) := by
    obtain ⟨e, ha, hb, hc⟩ := hsp
    intro hl
    simp only [isLeap, Bool.and_eq_true, Bool.or_eq_true, decide_eq_true_eq, ne_eq] at hl
    omega
  have hdoy : yday y m d < 365 ∨ (yday y m d = 365 ∧ c = 3 ∧ (b < 24 ∨ a = 3)) := by
    cases hl : isLeap (y : Int)
    · rw [hl] at hlt; simp at hlt; left; omega
    · rw [hl] at hlt; simp at hlt
      have := hleap hl
      omega
  have hsod : H * 3600 + M * 60 + S < 86400 := by omega
  have hyear := absDateYear_split _ q a b c (yday y m d) (H * 3600 + M * 60 + S) hsp
    (by omega) hdoy hsod
  rw [← hs] at hyear
  have habs : Time.abs ⟨(ns : Int), (((daysSinceEpoch y + yday y m d) * 86400
      + (H * 3600 + M * 60 + S) : Nat) : Int) + absoluteToInternal⟩
      = (daysSinceEpoch y + yday y m d) * 86400 + (H * 3600 + M * 60 + S) := by
    have hq : q < 730692600 := by
      obtain ⟨e, ha, hb, hc⟩ := hsp
      omega
    have hD : daysSinceEpoch y < 106752010000000 := by
      obtain ⟨e, ha, hb, hc⟩ := hsp
      omega
    generalize daysSinceEpoch y = D at hD ⊢
    clear hs hyear
    simp only [Time.abs, absoluteToInternal, internalToAbsolute, u64]
    omega
  have hyr : ((y + 292277022399 : Nat) : Int) + absoluteZeroYear = (y : Int) := by
    simp only [absoluteZeroYear]; push_cast; omega
  rw [hyr] at hyear
  refine ⟨?_, ?_, rfl⟩
  · unfold Time.date
    rw [habs]
    exact absDate_of_year _ _ m d hm hd hyear
  · unfold Time.Clock
    rw [habs]
    generalize daysSinceEpoch y + yday y m d = D
    simp only [absClock, Prod.mk.injEq]
    refine ⟨?_, ?_, ?_⟩ <;> omega

theorem stamp_shape (y m d H M S : Nat) (f : Option Nat) (hy : y < 10000) (hS : S < 60)
    (hf : ∀ x, f = some x → x < 1000) :
    stamp y m d H M S ++ millis f ≠ [] ∧ (stamp y m d H M S ++ millis f).head? ≠ some 34
      ∧ (stamp y m d H M S ++ millis f).getLast? ≠ some 34 := by
  refine ⟨by simp [stamp, digits4], ?_, ?_⟩
  · simp [stamp, digits4]
    omega
  · cases f with
    | none =>
      simp [stamp, millis, digits4, digits2, List.getLast?_append, List.getLast?_cons_cons]
      omega
    | some x =>
      simp [stamp, millis, digits4, digits2, digits3, List.getLast?_append,
        List.getLast?_cons_cons]
      omega

/-- A rendered timestamp decodes to the `time.Date` of its fields. -/
theorem unmarshal_stamp (ct : CustomTime) (y m d H M S : Nat) (f : Option Nat)
    (hy : y < 10000) (hm : 1 ≤ m ∧ m ≤ 12) (hd : 1 ≤ d ∧ (d : Int) ≤ daysIn m y)
    (hH : H < 24) (hM : M < 60) (hS : S < 60) (hf : ∀ x, f = some x → x < 1000) :
    ct.UnmarshalJSON (quoted (stamp y m d H M S ++ millis f))
      = (⟨Date y m d H M S ((f.getD 0 * 1000000 : Nat) : Int)⟩, none) := by
  obtain ⟨h0, h1, h2⟩ := stamp_shape y m d H M S f hy hS hf
  have hd31 : d < 100 := by
    have := daysIn_le m y hm
    omega
  unfold CustomTime.UnmarshalJSON
  simp only [Trim_quoted _ h0 h1 h2, h0, if_false, Parse,
    parseFields_stamp y m d H M S f hy hm hd31 hH hM hS hf]
  have hv : ¬ ((d : Int) < 1 ∨ (d : Int) > daysIn m y) := by omega
  simp only [Bool.or_eq_true, decide_eq_true_eq, hv, if_false]
  push_cast
  rfl

theorem millis_bound (f : Option Nat) (hf : ∀ x, f = some x → x < 1000) :
    f.getD 0 * 1000000 < 1000000000 := by
  cases f with
  | none => simp
  | some x => have := hf x rfl; simp; omega

/-! ## Lemmas: the timestamps `time.Parse` accepts -/

theorem isDig_iff (c : Nat) : isDig c = true ↔ 48 ≤ c ∧ c ≤ 57 := by
  simp [isDig]

theorem isDigit_nil (i : Nat) : isDigit [] i = false := by
  simp [isDigit]

theorem isDigit_zero_eq (c : Nat) (s : Bytes) : isDigit (c :: s) 0 = isDig c := by
  simp [isDigit, isDig]

theorem isDigit_one_eq (c : Nat) (s : Bytes) : isDigit (c :: s) 1 = isDigit s 0 := by
  simp [isDigit]

theorem num2_cast (a b : Nat) (ha : isDig a = true) (hb : isDig b = true) :
    ((a : Int) - 48) * 10 + ((b : Int) - 48) = ((num2 a b : Nat) : Int) := by
  rw [isDig_iff] at ha hb
  unfold num2
  push_cast [Nat.cast_sub ha.1, Nat.cast_sub hb.1]
  ring

theorem num2_lt (a b : Nat) (ha : isDig a = true) (hb : isDig b = true) : num2 a b < 100 := by
  rw [isDig_iff] at ha hb
  unfold num2
  omega

/-- The result of `getnum` on two leading digits. -/
theorem getnum_two (a b : Nat) (r : Bytes) (fixed : Bool) (ha : isDig a = true)
    (hb : isDig b = true) :
    getnum (a :: b :: r) fixed = some (((num2 a b : Nat) : Int), r) := by
  unfold getnum
  rw [isDigit_zero_eq, isDigit_one_eq, isDigit_zero_eq, ha, hb]
  simp only [Bool.not_true, Bool.false_eq_true, if_false, List.getD_cons_zero,
    List.getD_cons_succ, List.drop_succ_cons, List.drop_zero]
  rw [num2_cast a b ha hb]

/-- The result of `getnum` on one digit that no digit follows. -/
theorem getnum_one (a : Nat) (r : Bytes) (fixed : Bool) (ha : isDig a = true)
    (hr : isDigit r 0 = false) :
    getnum (a :: r) fixed = if fixed then none else some ((a : Int) - 48, r) := by
  unfold getnum
  rw [isDigit_zero_eq, isDigit_one_eq, ha, hr]
  simp

theorem getnum_none (s : Bytes) (fixed : Bool) (h : isDigit s 0 = false) :
    getnum s fixed = none := by
  unfold getnum
  rw [h]
  simp

theorem getnum_true_inv (v r : Bytes) (n : Int) (h : getnum v true = some (n, r)) :
    ∃ a b, v = a :: b :: r ∧ isDig a = true ∧ isDig b = true
      ∧ n = ((num2 a b : Nat) : Int) := by
  cases v with
  | nil => rw [getnum_none _ _ (isDigit_nil 0)] at h; cases h
  | cons a v =>
    by_cases ha : isDig a = true
    · by_cases hv : isDigit v 0 = true
      · cases v with
        | nil => rw [isDigit_nil] at hv; cases hv
        | cons b r' =>
          rw [isDigit_zero_eq] at hv
          rw [getnum_two a b r' true ha hv] at h
          simp only [Option.some.injEq, Prod.mk.injEq] at h
          exact ⟨a, b, by rw [h.2], ha, hv, h.1.symm⟩
      · rw [getnum_one a v true ha (by simpa using hv)] at h
        simp at h
    · rw [getnum_none _ _ (by rw [isDigit_zero_eq]; simpa using ha)] at h
      cases h

theorem getnum_false_inv (v r : Bytes) (n : Int) (h : getnum v false = some (n, r)) :
    (∃ a b, v = a :: b :: r ∧ isDig a = true ∧ isDig b = true
        ∧ n = ((num2 a b : Nat) : Int))
      ∨ (∃ a, v = a :: r ∧ isDig a = true ∧ isDigit r 0 = false ∧ n = (a : Int) - 48) := by
  cases v with
  | nil => rw [getnum_none _ _ (isDigit_nil 0)] at h; cases h
  | cons a v =>
    by_cases ha : isDig a = true
    · by_cases hv : isDigit v 0 = true
      · cases v with
        | nil => rw [isDigit_nil] at hv; cases hv
        | cons b r' =>
          rw [isDigit_zero_eq] at hv
          rw [getnum_two a b r' false ha hv] at h
          simp only [Option.some.injEq, Prod.mk.injEq] at h
          exact Or.inl ⟨a, b, by rw [h.2], ha, hv, h.1.symm⟩
      · have hv' : isDigit v 0 = false := by simpa using hv
        rw [getnum_one a v false ha hv'] at h
        simp only [Bool.false_eq_true, if_false, Option.some.injEq, Prod.mk.injEq] at h
        exact Or.inr ⟨a, by rw [h.2], ha, by rw [← h.2]; exact hv', h.1.symm⟩
    · rw [getnum_none _ _ (by rw [isDigit_zero_eq]; simpa using ha)] at h
      cases h

theorem skip_inv (v r : Bytes) (c : Nat) (h : skip v [c] = .ok r) : v = c :: r := by
  cases v with
  | nil => simp [skip] at h
  | cons x v =>
    by_cases hx : x = c
    · subst hx
      rw [skip_one] at h
      cases h
      rfl
    · simp [skip, hx] at h

/-- When `leadingInt` consumes its whole argument, the argument is made of
digits. -/
theorem leadingInt_all (s : Bytes) (x q : Nat) (h : leadingInt s x = some (q, [])) :
    s.all isDig = true := by
  induction s generalizing x with
  | nil => rfl
  | cons c s ih =>
    unfold leadingInt at h
    by_cases hc : c < 48 ∨ c > 57
    · rw [if_pos (by simpa using hc)] at h
      simp at h
    · rw [if_neg (by simpa using hc)] at h
      by_cases hx : x > 9223372036854775808 / 10
      · rw [if_pos hx] at h; cases h
      · rw [if_neg hx] at h
        simp only at h
        by_cases hx2 : (x * 10 + c - 48) % 18446744073709551616 > 9223372036854775808
        · rw [if_pos hx2] at h; cases h
        · rw [if_neg hx2] at h
          have hd : isDig c = true := by rw [isDig_iff]; omega
          simp only [List.all_cons, hd, Bool.true_and]
          exact ih _ h

theorem isDig_not_sign (c : Nat) (h : isDig c = true) : c ≠ 45 ∧ c ≠ 43 := by
  rw [isDig_iff] at h
  omega

theorem i64_natCast (q : Nat) (h : q < 9223372036854775808) : i64 (q : Int) = q := by
  unfold i64
  omega

/-- The result of `atoi` on a text made of digits, in terms of `leadingInt`. -/
theorem atoi_of_leadingInt (s : Bytes) (q : Nat) (hs : s.all isDig = true)
    (h : leadingInt s 0 = some (q, [])) (hq : q < 9223372036854775808) :
    atoi s = some (q : Int) := by
  unfold atoi
  have hh : s.head? ≠ some 45 ∧ s.head? ≠ some 43 := by
    cases s with
    | nil => simp
    | cons c s =>
      simp only [List.all_cons, Bool.and_eq_true] at hs
      have := isDig_not_sign c hs.1
      simp [this.1, this.2]
  simp only [hh.1, hh.2, decide_False, Bool.or_self, Bool.false_eq_true, if_false, h,
    ne_eq, not_true_eq_false, i64_natCast q hq]

theorem num4_lt (a b c e : Nat) (ha : isDig a = true) (hb : isDig b = true)
    (hc : isDig c = true) (he : isDig e = true) : num4 a b c e < 10000 := by
  rw [isDig_iff] at ha hb hc he
  unfold num4
  omega

theorem atoi_four (a b c e : Nat) (ha : isDig a = true) (hb : isDig b = true)
    (hc : isDig c = true) (he : isDig e = true) :
    atoi [a, b, c, e] = some ((num4 a b c e : Nat) : Int) := by
  have hl := num4_lt a b c e ha hb hc he
  apply atoi_of_leadingInt _ _ (by simp [ha, hb, hc, he]) _ (by omega)
  rw [isDig_iff] at ha hb hc he
  rw [leadingInt_digit _ _ _ ha (by omega), leadingInt_digit _ _ _ hb (by omega),
    leadingInt_digit _ _ _ hc (by omega), leadingInt_digit _ _ _ he (by omega)]
  simp only [leadingInt, Option.some.injEq, Prod.mk.injEq, and_true]
  unfold num4
  ring

theorem parseYear_four (a b c e : Nat) (r : Bytes) (ha : isDig a = true) (hb : isDig b = true)
    (hc : isDig c = true) (he : isDig e = true) :
    parseYear (a :: b :: c :: e :: r) = .ok (((num4 a b c e : Nat) : Int), r) := by
  unfold parseYear
  rw [isDigit_zero_eq, ha]
  simp [atoi_four a b c e ha hb hc he]

theorem atoi_all (s : Bytes) (y : Int) (hd : s.head?.all isDig = true)
    (h : atoi s = some y) : s.all isDig = true := by
  unfold atoi at h
  have hh : s.head? ≠ some 45 ∧ s.head? ≠ some 43 := by
    cases s with
    | nil => simp
    | cons c s =>
      have := isDig_not_sign c (by simpa using hd)
      simp [this.1, this.2]
  simp only [hh.1, hh.2, decide_False, Bool.or_self, Bool.false_eq_true, if_false] at h
  cases hl : leadingInt s 0 with
  | none => rw [hl] at h; cases h
  | some p =>
    obtain ⟨q, rem⟩ := p
    rw [hl] at h
    simp only at h
    by_cases hr : rem = []
    · subst hr
      exact leadingInt_all s 0 q hl
    · rw [if_pos hr] at h
      cases h

theorem parseYear_inv (v r : Bytes) (y : Int) (h : parseYear v = .ok (y, r)) :
    ∃ a b c e, v = a :: b :: c :: e :: r ∧ isDig a = true ∧ isDig b = true ∧ isDig c = true
      ∧ isDig e = true ∧ y = ((num4 a b c e : Nat) : Int) := by
  rcases v with _ | ⟨a, _ | ⟨b, _ | ⟨c, _ | ⟨e, r'⟩⟩⟩⟩
  · simp [parseYear] at h
  · simp [parseYear] at h
  · simp [parseYear] at h
  · simp [parseYear] at h
  · have h' := h
    unfold parseYear at h'
    by_cases ha : isDig a = true
    · rw [isDigit_zero_eq, ha] at h'
      simp only [List.length_cons, Bool.not_true, Bool.or_false, decide_eq_true_eq,
        List.take_succ_cons, List.take_zero, List.drop_succ_cons, List.drop_zero] at h'
      rw [if_neg (by omega)] at h'
      cases hat : atoi [a, b, c, e] with
      | none => rw [hat] at h'; cases h'
      | some y' =>
        have hall := atoi_all [a, b, c, e] y' (by simpa using ha) hat
        simp only [List.all_cons, List.all_nil, Bool.and_true, Bool.and_eq_true] at hall
        obtain ⟨_, hb, hc, he⟩ := hall
        rw [parseYear_four a b c e r' ha hb hc he] at h
        simp only [Except.ok.injEq, Prod.mk.injEq] at h
        exact ⟨a, b, c, e, by rw [h.2], ha, hb, hc, he, h.1.symm⟩
    · rw [isDigit_zero_eq] at h'
      simp [ha] at h'

theorem parseMonth_inv (v r : Bytes) (n : Int) (h : parseMonth v = .ok (n, r)) :
    ∃ a b, v = a :: b :: r ∧ isDig a = true ∧ isDig b = true ∧ n = ((num2 a b : Nat) : Int)
      ∧ 1 ≤ num2 a b ∧ num2 a b ≤ 12 := by
  unfold parseMonth at h
  cases hg : getnum v true with
  | none => rw [hg] at h; cases h
  | some p =>
    obtain ⟨n', r'⟩ := p
    rw [hg] at h
    simp only at h
    by_cases hc : n' ≤ 0 ∨ 12 < n'
    · rw [if_pos (by simpa using hc)] at h; cases h
    · rw [if_neg (by simpa using hc)] at h
      simp only [Except.ok.injEq, Prod.mk.injEq] at h
      obtain ⟨a, b, hv, ha, hb, hn⟩ := getnum_true_inv v r' n' hg
      refine ⟨a, b, by rw [hv, h.2], ha, hb, by rw [← h.1, hn], ?_, ?_⟩ <;> omega

theorem parseDay_inv (v r : Bytes) (n : Int) (h : parseDay v = .ok (n, r)) :
    ∃ a b, v = a :: b :: r ∧ isDig a = true ∧ isDig b = true
      ∧ n = ((num2 a b : Nat) : Int) := by
  unfold parseDay at h
  cases hg : getnum v true with
  | none => rw [hg] at h; cases h
  | some p =>
    obtain ⟨n', r'⟩ := p
    rw [hg] at h
    simp only [Except.ok.injEq, Prod.mk.injEq] at h
    obtain ⟨a, b, hv, ha, hb, hn⟩ := getnum_true_inv v r' n' hg
    exact ⟨a, b, by rw [hv, h.2], ha, hb, by rw [← h.1, hn]⟩

theorem parseMinute_inv (v r : Bytes) (n : Int) (h : parseMinute v = .ok (n, r)) :
    ∃ a b, v = a :: b :: r ∧ isDig a = true ∧ isDig b = true ∧ n = ((num2 a b : Nat) : Int)
      ∧ num2 a b < 60 := by
  unfold parseMinute at h
  cases hg : getnum v true with
  | none => rw [hg] at h; cases h
  | some p =>
    obtain ⟨n', r'⟩ := p
    rw [hg] at h
    simp only at h
    by_cases hc : n' < 0 ∨ 60 ≤ n'
    · rw [if_pos (by simpa using hc)] at h; cases h
    · rw [if_neg (by simpa using hc)] at h
      simp only [Except.ok.injEq, Prod.mk.injEq] at h
      obtain ⟨a, b, hv, ha, hb, hn⟩ := getnum_true_inv v r' n' hg
      refine ⟨a, b, by rw [hv, h.2], ha, hb, by rw [← h.1, hn], ?_⟩
      omega

theorem parseSecond_inv (v r : Bytes) (n : Int) (h : parseSecond v = .ok (n, r)) :
    ∃ a b, v = a :: b :: r ∧ isDig a = true ∧ isDig b = true ∧ n = ((num2 a b : Nat) : Int)
      ∧ num2 a b < 60 := by
  unfold parseSecond at h
  cases hg : getnum v true with
  | none => rw [hg] at h; cases h
  | some p =>
    obtain ⟨n', r'⟩ := p
    rw [hg] at h
    simp only at h
    by_cases hc : n' < 0 ∨ 60 ≤ n'
    · rw [if_pos (by simpa using hc)] at h; cases h
    · rw [if_neg (by simpa using hc)] at h
      simp only [Except.ok.injEq, Prod.mk.injEq] at h
      obtain ⟨a, b, hv, ha, hb, hn⟩ := getnum_true_inv v r' n' hg
      refine ⟨a, b, by rw [hv, h.2], ha, hb, by rw [← h.1, hn], ?_⟩
      omega

theorem parseHour_inv (v r : Bytes) (n : Int) (h : parseHour v = .ok (n, r)) :
    (∃ a b, v = a :: b :: r ∧ isDig a = true ∧ isDig b = true
        ∧ n = ((num2 a b : Nat) : Int) ∧ num2 a b < 24)
      ∨ (∃ a, v = a :: r ∧ isDig a = true ∧ isDigit r 0 = false
        ∧ n = (((a - 48 : Nat)) : Int)) := by
  unfold parseHour at h
  cases hg : getnum v false with
  | none => rw [hg] at h; cases h
  | some p =>
    obtain ⟨n', r'⟩ := p
    rw [hg] at h
    simp only at h
    by_cases hc : n' < 0 ∨ 24 ≤ n'
    · rw [if_pos (by simpa using hc)] at h; cases h
    · rw [if_neg (by simpa using hc)] at h
      simp only [Except.ok.injEq, Prod.mk.injEq] at h
      rcases getnum_false_inv v r' n' hg with ⟨a, b, hv, ha, hb, hn⟩ | ⟨a, hv, ha, hr, hn⟩
      · refine Or.inl ⟨a, b, by rw [hv, h.2], ha, hb, by rw [← h.1, hn], ?_⟩
        omega
      · refine Or.inr ⟨a, by rw [hv, h.2], ha, by rw [← h.2]; exact hr, ?_⟩
        rw [isDig_iff] at ha
        rw [← h.1, hn]
        omega

theorem parseMonth_two (a b : Nat) (r : Bytes) (ha : isDig a = true) (hb : isDig b = true)
    (h1 : 1 ≤ num2 a b) (h2 : num2 a b ≤ 12) :
    parseMonth (a :: b :: r) = .ok (((num2 a b : Nat) : Int), r) := by
  unfold parseMonth
  rw [getnum_two a b r true ha hb]
  simp only
  rw [if_neg (by simp; omega)]

theorem parseDay_two (a b : Nat) (r : Bytes) (ha : isDig a = true) (hb : isDig b = true) :
    parseDay (a :: b :: r) = .ok (((num2 a b : Nat) : Int), r) := by
  unfold parseDay
  rw [getnum_two a b r true ha hb]

theorem parseMinute_two (a b : Nat) (r : Bytes) (ha : isDig a = true) (hb : isDig b = true)
    (h2 : num2 a b < 60) :
    parseMinute (a :: b :: r) = .ok (((num2 a b : Nat) : Int), r) := by
  unfold parseMinute
  rw [getnum_two a b r true ha hb]
  simp only
  rw [if_neg (by simp; omega)]

theorem parseSecond_two (a b : Nat) (r : Bytes) (ha : isDig a = true) (hb : isDig b = true)
    (h2 : num2 a b < 60) :
    parseSecond (a :: b :: r) = .ok (((num2 a b : Nat) : Int), r) := by
  unfold parseSecond
  rw [getnum_two a b r true ha hb]
  simp only
  rw [if_neg (by simp; omega)]

theorem parseHour_two (a b : Nat) (r : Bytes) (ha : isDig a = true) (hb : isDig b = true)
    (h2 : num2 a b < 24) :
    parseHour (a :: b :: r) = .ok (((num2 a b : Nat) : Int), r) := by
  unfold parseHour
  rw [getnum_two a b r false ha hb]
  simp only
  rw [if_neg (by simp; omega)]

theorem parseHour_one (a : Nat) (r : Bytes) (ha : isDig a = true) (hr : isDigit r 0 = false) :
    parseHour (a :: r) = .ok ((((a - 48 : Nat)) : Int), r) := by
  unfold parseHour
  rw [getnum_one a r false ha hr]
  rw [isDig_iff] at ha
  simp only [Bool.false_eq_true, if_false]
  rw [if_neg (by simp; omega)]
  congr 2
  omega

theorem countDigits_all (s : Bytes) (h : s.all isDig = true) : countDigits s = s.length := by
  induction s with
  | nil => rfl
  | cons c s ih =>
    simp only [List.all_cons, Bool.and_eq_true] at h
    have hc := (isDig_iff c).mp h.1
    simp only [countDigits, hc, and_self, if_true, List.length_cons, ih h.2]

theorem drop_countDigits (s : Bytes) (h : s.drop (countDigits s) = []) :
    s.all isDig = true := by
  induction s with
  | nil => rfl
  | cons c s ih =>
    by_cases hc : 48 ≤ c ∧ c ≤ 57
    · simp only [countDigits, hc, and_self, if_true, List.drop_succ_cons] at h
      simp only [List.all_cons, (isDig_iff c).mpr hc, Bool.true_and]
      exact ih h
    · simp only [countDigits, hc, if_false, List.drop_zero] at h
      cases h

/-- The result of `leadingInt` on a text made of digits, as long as the number stays
small. -/
theorem leadingInt_digits (s : Bytes) (x : Nat) (hs : s.all isDig = true)
    (hx : (x + 1) * 10 ^ s.length ≤ 1000000000) :
    ∃ q, leadingInt s x = some (q, []) ∧ q < 1000000000 := by
  induction s generalizing x with
  | nil =>
    simp only [List.length_nil, pow_zero, Nat.mul_one] at hx
    exact ⟨x, rfl, by omega⟩
  | cons c s ih =>
    simp only [List.all_cons, Bool.and_eq_true] at hs
    have hc := (isDig_iff c).mp hs.1
    have hp : 1 ≤ 10 ^ s.length := Nat.one_le_pow _ _ (by decide)
    have e : (x + 1) * 10 ^ (c :: s).length = ((x + 1) * 10) * 10 ^ s.length := by
      rw [List.length_cons, pow_succ]
      ring
    rw [e] at hx
    have hx1 : (x + 1) * 10 ≤ 1000000000 :=
      le_trans (Nat.le_mul_of_pos_right _ (by omega)) hx
    rw [leadingInt_digit c s x hc (by omega)]
    apply ih _ hs.2
    refine le_trans (Nat.mul_le_mul_right _ ?_) hx
    omega

theorem atoi_digits (s : Bytes) (hs : s.all isDig = true) (hl : s.length ≤ 9) :
    ∃ q : Nat, atoi s = some (q : Int) := by
  have hp : 10 ^ s.length ≤ 10 ^ 9 := Nat.pow_le_pow_right (by decide) hl
  obtain ⟨q, h1, h2⟩ := leadingInt_digits s 0 hs (by simpa using hp)
  exact ⟨q, atoi_of_leadingInt s q hs h1 (by omega)⟩

theorem all_take (s : Bytes) (n : Nat) (h : s.all isDig = true) :
    (s.take n).all isDig = true := by
  rw [List.all_eq_true] at h ⊢
  intro c hc
  exact h c (List.mem_of_mem_take hc)

/-- The text `parseNanoseconds` hands to `atoi`: at most nine digits. -/
theorem frac_digits (sep : Nat) (ds : Bytes) :
    (((if 1 + ds.length > 10 then (sep :: ds).take 10 else sep :: ds).take
        (if 1 + ds.length > 10 then 10 else 1 + ds.length)).drop 1) = ds.take 9 := by
  by_cases h : 1 + ds.length > 10
  · rw [if_pos h, if_pos h]
    simp [List.take_take]
  · rw [if_neg h, if_neg h]
    rw [Nat.add_comm, List.take_succ_cons, List.drop_succ_cons, List.drop_zero,
      List.take_length, List.take_of_length_le (by omega)]

theorem parseFrac_accepted (v : Bytes) (h : acceptedFraction v = true) :
    ∃ ns, parseFrac v = .ok (ns, []) := by
  cases v with
  | nil => exact ⟨0, rfl⟩
  | cons sep ds =>
    cases ds with
    | nil => simp [acceptedFraction] at h
    | cons d rest =>
      simp only [acceptedFraction, Bool.and_eq_true, Bool.or_eq_true, beq_iff_eq,
        List.isEmpty_cons, Bool.not_false, and_true] at h
      obtain ⟨hsep, hall⟩ := h
      have hd : 48 ≤ d ∧ d ≤ 57 := by
        simp only [List.all_cons, Bool.and_eq_true] at hall
        exact (isDig_iff d).mp hall.1
      have hcp : commaOrPeriod sep = true := by simpa [commaOrPeriod] using hsep
      obtain ⟨q, hq⟩ := atoi_digits ((d :: rest).take 9) (all_take _ _ hall)
        (by rw [List.length_take]; omega)
      unfold parseFrac
      rw [if_neg (by
        simp only [List.length_cons, List.getD_cons_zero, List.getD_cons_succ, hcp,
          Bool.not_true, Bool.or_eq_true, decide_eq_true_eq, Bool.false_eq_true, or_false,
          false_or]
        omega)]
      simp only [List.drop_succ_cons, List.drop_zero, countDigits_all _ hall]
      unfold parseNanoseconds
      rw [List.getD_cons_zero, hcp]
      simp only [Bool.not_true, Bool.false_eq_true, if_false]
      rw [frac_digits sep (d :: rest), hq]
      simp only
      rw [if_neg (by omega)]
      have hdrop : (sep :: d :: rest).drop (1 + (d :: rest).length) = [] := by
        rw [Nat.add_comm, List.drop_succ_cons, List.drop_length]
      rw [hdrop]
      exact ⟨_, rfl⟩

theorem parseFrac_inv (v : Bytes) (ns : Int) (h : parseFrac v = .ok (ns, [])) :
    acceptedFraction v = true := by
  unfold parseFrac at h
  by_cases hc : (decide (v.length < 2) || !commaOrPeriod (v.getD 0 0)
      || decide (v.getD 1 0 < 48) || decide (57 < v.getD 1 0)) = true
  · rw [if_pos hc] at h
    simp only [Except.ok.injEq, Prod.mk.injEq] at h
    rw [h.2]
    rfl
  · rw [if_neg hc] at h
    simp only [Bool.or_eq_true, decide_eq_true_eq, Bool.not_eq_true', not_or, not_lt,
      Bool.not_eq_false] at hc
    obtain ⟨⟨⟨hl, hcp⟩, h1⟩, h2⟩ := hc
    rcases v with _ | ⟨sep, _ | ⟨d, rest⟩⟩
    · simp at hl
    · simp at hl
    · simp only [List.getD_cons_zero, List.getD_cons_succ] at hcp h1 h2
      simp only [List.drop_succ_cons, List.drop_zero] at h
      cases hp : parseNanoseconds (sep :: d :: rest) (1 + countDigits (d :: rest)) with
      | error e => rw [hp] at h; cases h
      | ok nsec =>
        rw [hp] at h
        simp only [Except.ok.injEq, Prod.mk.injEq] at h
        have hdrop := h.2
        rw [Nat.add_comm, List.drop_succ_cons] at hdrop
        have hall := drop_countDigits _ hdrop
        simp only [acceptedFraction, Bool.and_eq_true, Bool.or_eq_true, beq_iff_eq,
          List.isEmpty_cons, Bool.not_false, and_true]
        exact ⟨by simpa [commaOrPeriod] using hcp, hall⟩

theorem bind_ok {α β : Type} (x : Except ParseError α) (f : α → Except ParseError β) (b : β)
    (h : (x >>= f) = .ok b) : ∃ a, x = .ok a ∧ f a = .ok b := by
  cases x with
  | error e => cases h
  | ok a => exact ⟨a, rfl, h⟩

theorem parseFields_inv (s : Bytes) (p : Parsed) (h : parseFields s = .ok p) :
    ∃ v1 v2 v3 v4 v5 v6 v7 v8 v9 v10 v11,
      parseYear s = .ok (p.year, v1) ∧ skip v1 [45] = .ok v2
        ∧ parseMonth v2 = .ok (p.month, v3) ∧ skip v3 [45] = .ok v4
        ∧ parseDay v4 = .ok (p.day, v5) ∧ skip v5 [84] = .ok v6
        ∧ parseHour v6 = .ok (p.hour, v7) ∧ skip v7 [58] = .ok v8
        ∧ parseMinute v8 = .ok (p.min, v9) ∧ skip v9 [58] = .ok v10
        ∧ parseSecond v10 = .ok (p.sec, v11) ∧ parseFrac v11 = .ok (p.nsec, []) := by
  unfold parseFields at h
  rw [ascii_dash, ascii_T, ascii_colon] at h
  obtain ⟨⟨year, v1⟩, h1, h⟩ := bind_ok _ _ _ h
  obtain ⟨v2, h2, h⟩ := bind_ok _ _ _ h
  obtain ⟨⟨month, v3⟩, h3, h⟩ := bind_ok _ _ _ h
  obtain ⟨v4, h4, h⟩ := bind_ok _ _ _ h
  obtain ⟨⟨day, v5⟩, h5, h⟩ := bind_ok _ _ _ h
  obtain ⟨v6, h6, h⟩ := bind_ok _ _ _ h
  obtain ⟨⟨hour, v7⟩, h7, h⟩ := bind_ok _ _ _ h
  obtain ⟨v8, h8, h⟩ := bind_ok _ _ _ h
  obtain ⟨⟨min, v9⟩, h9, h⟩ := bind_ok _ _ _ h
  obtain ⟨v10, h10, h⟩ := bind_ok _ _ _ h
  obtain ⟨⟨sec, v11⟩, h11, h⟩ := bind_ok _ _ _ h
  obtain ⟨⟨nsec, v12⟩, h12, h⟩ := bind_ok _ _ _ h
  simp only at h
  by_cases hl : v12.length ≠ 0
  · rw [if_pos hl] at h
    cases h
  · rw [if_neg hl] at h
    have hv : v12 = [] := by
      cases v12 with
      | nil => rfl
      | cons a b => simp at hl
    subst hv
    cases h
    exact ⟨v1, v2, v3, v4, v5, v6, v7, v8, v9, v10, v11, h1, h2, h3, h4, h5, h6, h7, h8, h9,
      h10, h11, h12⟩

theorem parseFields_of (s : Bytes) (year month day hour min sec nsec : Int)
    (v1 v2 v3 v4 v5 v6 v7 v8 v9 v10 v11 : Bytes)
    (h1 : parseYear s = .ok (year, v1)) (h2 : skip v1 [45] = .ok v2)
    (h3 : parseMonth v2 = .ok (month, v3)) (h4 : skip v3 [45] = .ok v4)
    (h5 : parseDay v4 = .ok (day, v5)) (h6 : skip v5 [84] = .ok v6)
    (h7 : parseHour v6 = .ok (hour, v7)) (h8 : skip v7 [58] = .ok v8)
    (h9 : parseMinute v8 = .ok (min, v9)) (h10 : skip v9 [58] = .ok v10)
    (h11 : parseSecond v10 = .ok (sec, v11)) (h12 : parseFrac v11 = .ok (nsec, [])) :
    parseFields s = .ok ⟨year, month, day, hour, min, sec, nsec, []⟩ := by
  unfold parseFields
  rw [ascii_dash, ascii_T, ascii_colon]
  simp only [h1, h2, h3, h4, h5, h6, h7, h8, h9, h10, h11, h12, bind, Except.bind]
  simp [pure, Except.pure]

theorem isDigit_zero_colon (r : Bytes) : isDigit (58 :: r) 0 = false := by
  rw [isDigit_zero_eq]
  decide

/-- The clock part of a timestamp that `time.Parse` accepts. -/
theorem acceptedClock_of (v6 v7 v8 v9 v10 v11 : Bytes) (hour min sec nsec : Int)
    (h7 : parseHour v6 = .ok (hour, v7)) (h8 : skip v7 [58] = .ok v8)
    (h9 : parseMinute v8 = .ok (min, v9)) (h10 : skip v9 [58] = .ok v10)
    (h11 : parseSecond v10 = .ok (sec, v11)) (h12 : parseFrac v11 = .ok (nsec, [])) :
    acceptedClock v6 = true := by
  have e8 := skip_inv _ _ _ h8
  have e10 := skip_inv _ _ _ h10
  obtain ⟨m1, m2, e9, hm1, hm2, _, hmin⟩ := parseMinute_inv _ _ _ h9
  obtain ⟨s1, s2, e11, hs1, hs2, _, hsec⟩ := parseSecond_inv _ _ _ h11
  have hfrac := parseFrac_inv _ _ h12
  have hms : acceptedMinSec v7 = true := by
    rw [e8, e9, e10, e11]
    simp [acceptedMinSec, hm1, hm2, hs1, hs2, hmin, hsec, hfrac]
  rcases parseHour_inv _ _ _ h7 with ⟨a, b, e7, ha, hb, _, hh⟩ | ⟨a, e7, ha, hr, _⟩
  · rw [e7]
    simp [acceptedClock, ha, hb, hh, hms]
  · rw [e7, e8]
    have h58 : isDig 58 = false := by decide
    rw [e8] at hms
    simp [acceptedClock, ha, h58, hms]

theorem Parse_accepted (s : Bytes) (t : Time) (h : Parse s = .ok t) : accepted s = true := by
  unfold Parse at h
  cases hp : parseFields s with
  | error e => rw [hp] at h; cases h
  | ok p =>
    rw [hp] at h
    simp only at h
    by_cases hday : p.day < 1 ∨ p.day > daysIn p.month p.year
    · rw [if_pos (by simpa using hday)] at h
      cases h
    · obtain ⟨v1, v2, v3, v4, v5, v6, v7, v8, v9, v10, v11, h1, h2, h3, h4, h5, h6, h7, h8,
        h9, h10, h11, h12⟩ := parseFields_inv s p hp
      obtain ⟨y1, y2, y3, y4, e1, hy1, hy2, hy3, hy4, hyear⟩ := parseYear_inv _ _ _ h1
      have e2 := skip_inv _ _ _ h2
      obtain ⟨m1, m2, e3, hm1, hm2, hmonth, hmlo, hmhi⟩ := parseMonth_inv _ _ _ h3
      have e4 := skip_inv _ _ _ h4
      obtain ⟨d1, d2, e5, hd1, hd2, hdd⟩ := parseDay_inv _ _ _ h5
      have e6 := skip_inv _ _ _ h6
      have hclock := acceptedClock_of v6 v7 v8 v9 v10 v11 _ _ _ _ h7 h8 h9 h10 h11 h12
      rw [hyear, hmonth, hdd] at hday
      have hlo : 1 ≤ num2 d1 d2 := by omega
      have hhi : ((num2 d1 d2 : Nat) : Int) ≤ daysIn (num2 m1 m2) (num4 y1 y2 y3 y4) := by
        omega
      rw [e1, e2, e3, e4, e5, e6]
      simp [accepted, hy1, hy2, hy3, hy4, hm1, hm2, hd1, hd2, hmlo, hmhi, hlo, hhi, hclock]

theorem acceptedMinSec_parse (v : Bytes) (h : acceptedMinSec v = true) :
    ∃ v8 min v9 v10 sec v11 nsec, skip v [58] = .ok v8 ∧ parseMinute v8 = .ok (min, v9)
      ∧ skip v9 [58] = .ok v10 ∧ parseSecond v10 = .ok (sec, v11)
      ∧ parseFrac v11 = .ok (nsec, []) := by
  rcases v with _ | ⟨c1, _ | ⟨m1, _ | ⟨m2, _ | ⟨c2, _ | ⟨s1, _ | ⟨s2, frac⟩⟩⟩⟩⟩⟩
  · simp [acceptedMinSec] at h
  · simp [acceptedMinSec] at h
  · simp [acceptedMinSec] at h
  · simp [acceptedMinSec] at h
  · simp [acceptedMinSec] at h
  · simp [acceptedMinSec] at h
  · simp only [acceptedMinSec, Bool.and_eq_true, beq_iff_eq, decide_eq_true_eq] at h
    obtain ⟨⟨⟨⟨⟨⟨⟨⟨hc1, hm1⟩, hm2⟩, hmin⟩, hc2⟩, hs1⟩, hs2⟩, hsec⟩, hfrac⟩ := h
    subst hc1 hc2
    obtain ⟨nsec, hns⟩ := parseFrac_accepted frac hfrac
    exact ⟨_, _, _, _, _, _, _, skip_one _ _, parseMinute_two m1 m2 _ hm1 hm2 hmin,
      skip_one _ _, parseSecond_two s1 s2 _ hs1 hs2 hsec, hns⟩

theorem acceptedMinSec_head (v : Bytes) (h : acceptedMinSec v = true) :
    isDigit v 0 = false := by
  cases v with
  | nil => exact isDigit_nil 0
  | cons c r =>
    have hc : c = 58 := by
      rcases r with _ | ⟨m1, _ | ⟨m2, _ | ⟨c2, _ | ⟨s1, _ | ⟨s2, frac⟩⟩⟩⟩⟩ <;>
        simp [acceptedMinSec] at h
      exact h.1.1.1.1.1.1.1.1
    rw [hc]
    exact isDigit_zero_colon r

theorem acceptedClock_parse (v : Bytes) (h : acceptedClock v = true) :
    ∃ hour v7 v8 min v9 v10 sec v11 nsec, parseHour v = .ok (hour, v7)
      ∧ skip v7 [58] = .ok v8 ∧ parseMinute v8 = .ok (min, v9)
      ∧ skip v9 [58] = .ok v10 ∧ parseSecond v10 = .ok (sec, v11)
      ∧ parseFrac v11 = .ok (nsec, []) := by
  rcases v with _ | ⟨h1, _ | ⟨h2, rest⟩⟩
  · simp [acceptedClock] at h
  · simp [acceptedClock] at h
  · simp only [acceptedClock, Bool.and_eq_true] at h
    obtain ⟨hh1, h⟩ := h
    by_cases hh2 : isDig h2 = true
    · rw [if_pos hh2] at h
      simp only [Bool.and_eq_true, decide_eq_true_eq] at h
      obtain ⟨v8, min, v9, v10, sec, v11, nsec, e⟩ := acceptedMinSec_parse rest h.2
      exact ⟨_, _, v8, min, v9, v10, sec, v11, nsec, parseHour_two h1 h2 rest hh1 hh2 h.1, e⟩
    · rw [if_neg hh2] at h
      obtain ⟨v8, min, v9, v10, sec, v11, nsec, e⟩ := acceptedMinSec_parse _ h
      exact ⟨_, _, v8, min, v9, v10, sec, v11, nsec,
        parseHour_one h1 (h2 :: rest) hh1 (acceptedMinSec_head _ h), e⟩

theorem accepted_Parse (s : Bytes) (h : accepted s = true) : ∃ t, Parse s = .ok t := by
  rcases s with _ | ⟨y1, _ | ⟨y2, _ | ⟨y3, _ | ⟨y4, _ | ⟨c1, _ | ⟨m1, _ | ⟨m2, _ | ⟨c2,
    _ | ⟨d1, _ | ⟨d2, _ | ⟨t, rest⟩⟩⟩⟩⟩⟩⟩⟩⟩⟩⟩
  · simp [accepted] at h
  · simp [accepted] at h
  · simp [accepted] at h
  · simp [accepted] at h
  · simp [accepted] at h
  · simp [accepted] at h
  · simp [accepted] at h
  · simp [accepted] at h
  · simp [accepted] at h
  · simp [accepted] at h
  · simp [accepted] at h
  · simp only [accepted, Bool.and_eq_true, beq_iff_eq, decide_eq_true_eq] at h
    obtain ⟨⟨⟨⟨⟨⟨⟨⟨⟨⟨⟨⟨⟨⟨⟨hy1, hy2⟩, hy3⟩, hy4⟩, hc1⟩, hm1⟩, hm2⟩, hmlo⟩, hmhi⟩, hc2⟩, hd1⟩,
      hd2⟩, hlo⟩, hhi⟩, ht⟩, hclock⟩ := h
    subst hc1 hc2 ht
    obtain ⟨hour, v7, v8, min, v9, v10, sec, v11, nsec, h7, h8, h9, h10, h11, h12⟩ :=
      acceptedClock_parse rest hclock
    have hp := parseFields_of _ _ _ _ hour min sec nsec _ _ _ _ _ _ v7 v8 v9 v10 v11
      (parseYear_four y1 y2 y3 y4 _ hy1 hy2 hy3 hy4) (skip_one _ _)
      (parseMonth_two m1 m2 _ hm1 hm2 hmlo hmhi) (skip_one _ _)
      (parseDay_two d1 d2 _ hd1 hd2) (skip_one _ _) h7 h8 h9 h10 h11 h12
    unfold Parse
    rw [hp]
    simp only
    rw [if_neg (by
      simp only [Bool.or_eq_true, decide_eq_true_eq, not_or, not_lt]
      constructor
      · omega
      · omega)]
    exact ⟨_, rfl⟩

/-- The timestamps `UnmarshalJSON` decodes without error are the empty one and
the accepted ones. -/
theorem unmarshal_ok_iff (ct : CustomTime) (b : Bytes) (hne : Trim b 34 ≠ []) :
    (ct.UnmarshalJSON b).2 = none ↔ accepted (Trim b 34) = true := by
  unfold CustomTime.UnmarshalJSON
  simp only
  rw [if_neg hne]
  constructor
  · intro h
    cases hp : Parse (Trim b 34) with
    | error e => rw [hp] at h; cases h
    | ok t => exact Parse_accepted _ t hp
  · intro h
    obtain ⟨t, ht⟩ := accepted_Parse _ h
    rw [ht]

theorem unmarshal_rejected (ct : CustomTime) (b : Bytes) (hne : Trim b 34 ≠ [])
    (hbad : accepted (Trim b 34) = false) :
    ∃ e, ct.UnmarshalJSON b = (⟨Time.zero⟩, some e) := by
  unfold CustomTime.UnmarshalJSON
  simp only
  rw [if_neg hne]
  cases hp : Parse (Trim b 34) with
  | error e => exact ⟨e, rfl⟩
  | ok t =>
    have := Parse_accepted _ t hp
    rw [this] at hbad
    cases hbad

/-! ## Lemmas: the instant an accepted timestamp denotes -/

/-- The value of `leadingInt` on a text made of digits, as long as the number
stays small: its size, and when it is zero. -/
theorem leadingInt_value (s : Bytes) (x : Nat) (hs : s.all isDig = true)
    (hx : (x + 1) * 10 ^ s.length ≤ 1000000000) :
    ∃ q, leadingInt s x = some (q, []) ∧ q + 1 ≤ (x + 1) * 10 ^ s.length
      ∧ (q = 0 ↔ x = 0 ∧ (s.all fun c => c == 48) = true) := by
  induction s generalizing x with
  | nil =>
    refine ⟨x, rfl, by simp, ?_⟩
    simp
  | cons c s ih =>
    simp only [List.all_cons, Bool.and_eq_true] at hs
    have hc := (isDig_iff c).mp hs.1
    have hp : 1 ≤ 10 ^ s.length := Nat.one_le_pow _ _ (by decide)
    have e : (x + 1) * 10 ^ (c :: s).length = ((x + 1) * 10) * 10 ^ s.length := by
      rw [List.length_cons, pow_succ]
      ring
    rw [e] at hx ⊢
    have hx1 : (x + 1) * 10 ≤ 1000000000 :=
      le_trans (Nat.le_mul_of_pos_right _ (by omega)) hx
    have hstep : x * 10 + (c - 48) + 1 ≤ (x + 1) * 10 := by omega
    rw [leadingInt_digit c s x hc (by omega)]
    obtain ⟨q, h1, h2, h3⟩ := ih (x * 10 + (c - 48)) hs.2
      (le_trans (Nat.mul_le_mul_right _ hstep) hx)
    refine ⟨q, h1, le_trans h2 (Nat.mul_le_mul_right _ hstep), ?_⟩
    rw [h3]
    simp only [List.all_cons, Bool.and_eq_true, beq_iff_eq]
    constructor
    · rintro ⟨h0, hall⟩
      exact ⟨by omega, by omega, hall⟩
    · rintro ⟨h0, hc0, hall⟩
      exact ⟨by omega, hall⟩

theorem atoi_value (s : Bytes) (hs : s.all isDig = true) (hl : s.length ≤ 9) :
    ∃ q : Nat, atoi s = some (q : Int) ∧ q < 10 ^ s.length
      ∧ (q = 0 ↔ (s.all fun c => c == 48) = true) := by
  have hp : 10 ^ s.length ≤ 10 ^ 9 := Nat.pow_le_pow_right (by decide) hl
  obtain ⟨q, h1, h2, h3⟩ := leadingInt_value s 0 hs (by simpa using hp)
  have hq : q < 10 ^ s.length := by omega
  refine ⟨q, atoi_of_leadingInt s q hs h1 (by omega), hq, ?_⟩
  rw [h3]
  simp

/-- The value of `parseFrac` on an accepted fraction: below one second, and zero
exactly when `zeroFraction` holds. -/
theorem parseFrac_value (v : Bytes) (h : acceptedFraction v = true) :
    ∃ ns : Nat, parseFrac v = .ok ((ns : Int), []) ∧ ns < 1000000000
      ∧ (ns = 0 ↔ zeroFraction v = true) := by
  cases v with
  | nil => exact ⟨0, rfl, by decide, by simp [zeroFraction]⟩
  | cons sep ds =>
    cases ds with
    | nil => simp [acceptedFraction] at h
    | cons d rest =>
      simp only [acceptedFraction, Bool.and_eq_true, Bool.or_eq_true, beq_iff_eq,
        List.isEmpty_cons, Bool.not_false, and_true] at h
      obtain ⟨hsep, hall⟩ := h
      have hd : 48 ≤ d ∧ d ≤ 57 := by
        simp only [List.all_cons, Bool.and_eq_true] at hall
        exact (isDig_iff d).mp hall.1
      have hcp : commaOrPeriod sep = true := by simpa [commaOrPeriod] using hsep
      have hlen : ((d :: rest).take 9).length = min 9 (d :: rest).length :=
        List.length_take _ _
      obtain ⟨q, hq, hqlt, hq0⟩ := atoi_value ((d :: rest).take 9) (all_take _ _ hall)
        (by rw [hlen]; omega)
      unfold parseFrac
      rw [if_neg (by
        simp only [List.length_cons, List.getD_cons_zero, List.getD_cons_succ, hcp,
          Bool.not_true, Bool.or_eq_true, decide_eq_true_eq, Bool.false_eq_true, or_false,
          false_or]
        omega)]
      simp only [List.drop_succ_cons, List.drop_zero, countDigits_all _ hall]
      unfold parseNanoseconds
      rw [List.getD_cons_zero, hcp]
      simp only [Bool.not_true, Bool.false_eq_true, if_false]
      rw [frac_digits sep (d :: rest), hq]
      simp only
      rw [if_neg (by omega)]
      have hdrop : (sep :: d :: rest).drop (1 + (d :: rest).length) = [] := by
        rw [Nat.add_comm, List.drop_succ_cons, List.drop_length]
      rw [hdrop]
      generalize hk : (10 - if 1 + (d :: rest).length > 10 then 10 else 1 + (d :: rest).length)
        = k
      have hbound : q * 10 ^ k < 1000000000 := by
        by_cases hg : 1 + (d :: rest).length > 10
        · rw [if_pos hg] at hk
          have hk0 : k = 0 := by omega
          have hm : min 9 (d :: rest).length = 9 := by omega
          rw [hlen, hm] at hqlt
          rw [hk0]
          simpa using hqlt
        · rw [if_neg hg] at hk
          have hm : min 9 (d :: rest).length = (d :: rest).length := by omega
          rw [hlen, hm] at hqlt
          have hsum : (d :: rest).length + k = 9 := by omega
          calc q * 10 ^ k < 10 ^ (d :: rest).length * 10 ^ k :=
                Nat.mul_lt_mul_of_pos_right hqlt (Nat.one_le_pow _ _ (by decide))
            _ = 10 ^ 9 := by rw [← pow_add, hsum]
            _ = 1000000000 := by norm_num
      refine ⟨q * 10 ^ k, ?_, hbound, ?_⟩
      · push_cast
        rfl
      · have hpos : 0 < 10 ^ k := Nat.one_le_pow _ _ (by decide)
        rw [Nat.mul_eq_zero]
        simp only [zeroFraction]
        rw [← hq0]
        constructor
        · rintro (h0 | h0)
          · exact h0
          · omega
        · intro h0
          exact Or.inl h0

theorem num2_eq_zero (a b : Nat) (ha : isDig a = true) (hb : isDig b = true) :
    num2 a b = 0 ↔ a = 48 ∧ b = 48 := by
  rw [isDig_iff] at ha hb
  unfold num2
  omega

theorem num2_eq_one (a b : Nat) (ha : isDig a = true) (hb : isDig b = true) :
    num2 a b = 1 ↔ a = 48 ∧ b = 49 := by
  rw [isDig_iff] at ha hb
  unfold num2
  omega

theorem num4_eq_zero (a b c e : Nat) (ha : isDig a = true) (hb : isDig b = true)
    (hc : isDig c = true) (he : isDig e = true) :
    num4 a b c e = 0 ↔ a = 48 ∧ b = 48 ∧ c = 48 ∧ e = 48 := by
  rw [isDig_iff] at ha hb hc he
  unfold num4
  omega

theorem num4_eq_one (a b c e : Nat) (ha : isDig a = true) (hb : isDig b = true)
    (hc : isDig c = true) (he : isDig e = true) :
    num4 a b c e = 1 ↔ a = 48 ∧ b = 48 ∧ c = 48 ∧ e = 49 := by
  rw [isDig_iff] at ha hb hc he
  unfold num4
  omega

theorem acceptedMinSec_value (v : Bytes) (h : acceptedMinSec v = true) :
    ∃ m1 m2 s1 s2 frac, ∃ ns : Nat, v = 58 :: m1 :: m2 :: 58 :: s1 :: s2 :: frac
      ∧ isDig m1 = true ∧ isDig m2 = true ∧ isDig s1 = true ∧ isDig s2 = true
      ∧ num2 m1 m2 < 60 ∧ num2 s1 s2 < 60 ∧ ns < 1000000000
      ∧ parseFrac frac = .ok ((ns : Int), []) ∧ (ns = 0 ↔ zeroFraction frac = true) := by
  rcases v with _ | ⟨c1, _ | ⟨m1, _ | ⟨m2, _ | ⟨c2, _ | ⟨s1, _ | ⟨s2, frac⟩⟩⟩⟩⟩⟩
  · simp [acceptedMinSec] at h
  · simp [acceptedMinSec] at h
  · simp [acceptedMinSec] at h
  · simp [acceptedMinSec] at h
  · simp [acceptedMinSec] at h
  · simp [acceptedMinSec] at h
  · simp only [acceptedMinSec, Bool.and_eq_true, beq_iff_eq, decide_eq_true_eq] at h
    obtain ⟨⟨⟨⟨⟨⟨⟨⟨hc1, hm1⟩, hm2⟩, hmin⟩, hc2⟩, hs1⟩, hs2⟩, hsec⟩, hfrac⟩ := h
    subst hc1 hc2
    obtain ⟨ns, hns, hlt, h0⟩ := parseFrac_value frac hfrac
    exact ⟨m1, m2, s1, s2, frac, ns, rfl, hm1, hm2, hs1, hs2, hmin, hsec, hlt, hns, h0⟩

theorem ascii_zeroClock2 : ascii "00:00:00" = [48, 48, 58, 48, 48, 58, 48, 48] := by decide
theorem ascii_zeroClock1 : ascii "0:00:00" = [48, 58, 48, 48, 58, 48, 48] := by decide
theorem ascii_zeroDate :
    ascii "0001-01-01T" = [48, 48, 48, 49, 45, 48, 49, 45, 48, 49, 84] := by decide
theorem ascii_zeroYear : ascii "0000" = [48, 48, 48, 48] := by decide

/-- The fields `time.Parse` reads from an accepted clock part, and when they are
all zero. -/
theorem acceptedClock_value (v : Bytes) (h : acceptedClock v = true) :
    ∃ H M S ns : Nat, ∃ v7 v8 v9 v10 v11, H < 24 ∧ M < 60 ∧ S < 60 ∧ ns < 1000000000
      ∧ parseHour v = .ok ((H : Int), v7) ∧ skip v7 [58] = .ok v8
      ∧ parseMinute v8 = .ok ((M : Int), v9) ∧ skip v9 [58] = .ok v10
      ∧ parseSecond v10 = .ok ((S : Int), v11) ∧ parseFrac v11 = .ok ((ns : Int), [])
      ∧ ((H = 0 ∧ M = 0 ∧ S = 0 ∧ ns = 0) ↔ zeroClock v = true) := by
  rcases v with _ | ⟨h1, _ | ⟨h2, rest⟩⟩
  · simp [acceptedClock] at h
  · simp [acceptedClock] at h
  · simp only [acceptedClock, Bool.and_eq_true] at h
    obtain ⟨hh1, h⟩ := h
    by_cases hh2 : isDig h2 = true
    · rw [if_pos hh2] at h
      simp only [Bool.and_eq_true, decide_eq_true_eq] at h
      obtain ⟨m1, m2, s1, s2, frac, ns, e, hm1, hm2, hs1, hs2, hmin, hsec, hlt, hns, h0⟩ :=
        acceptedMinSec_value rest h.2
      subst e
      refine ⟨num2 h1 h2, num2 m1 m2, num2 s1 s2, ns, _, _, _, _, _, h.1, hmin, hsec, hlt,
        parseHour_two h1 h2 _ hh1 hh2 h.1, skip_one _ _, parseMinute_two m1 m2 _ hm1 hm2 hmin,
        skip_one _ _, parseSecond_two s1 s2 _ hs1 hs2 hsec, hns, ?_⟩
      have h258 : h2 ≠ 58 := by
        rw [isDig_iff] at hh2
        omega
      rw [num2_eq_zero h1 h2 hh1 hh2, num2_eq_zero m1 m2 hm1 hm2, num2_eq_zero s1 s2 hs1 hs2,
        h0]
      simp only [zeroClock, ascii_zeroClock2, ascii_zeroClock1, List.take_succ_cons,
        List.take_zero, List.drop_succ_cons, List.drop_zero, Bool.or_eq_true,
        Bool.and_eq_true, beq_iff_eq, List.cons.injEq, and_true, true_and]
      constructor
      · rintro ⟨⟨a1, a2⟩, ⟨a3, a4⟩, ⟨a5, a6⟩, a7⟩
        exact Or.inl ⟨⟨a1, a2, a3, a4, a5, a6⟩, a7⟩
      · rintro (⟨⟨a1, a2, a3, a4, a5, a6⟩, a7⟩ | ⟨⟨_, a2, _⟩, _⟩)
        · exact ⟨⟨a1, a2⟩, ⟨a3, a4⟩, ⟨a5, a6⟩, a7⟩
        · exact absurd a2 h258
    · rw [if_neg hh2] at h
      obtain ⟨m1, m2, s1, s2, frac, ns, e, hm1, hm2, hs1, hs2, hmin, hsec, hlt, hns, h0⟩ :=
        acceptedMinSec_value _ h
      simp only [List.cons.injEq] at e
      obtain ⟨e1, e2⟩ := e
      subst e1 e2
      have hb := (isDig_iff h1).mp hh1
      refine ⟨h1 - 48, num2 m1 m2, num2 s1 s2, ns, _, _, _, _, _, by omega, hmin, hsec, hlt,
        parseHour_one h1 _ hh1 (isDigit_zero_colon _), skip_one _ _,
        parseMinute_two m1 m2 _ hm1 hm2 hmin,
        skip_one _ _, parseSecond_two s1 s2 _ hs1 hs2 hsec, hns, ?_⟩
      rw [num2_eq_zero m1 m2 hm1 hm2, num2_eq_zero s1 s2 hs1 hs2, h0]
      have hm148 : m1 ≠ 58 := by
        rw [isDig_iff] at hm1
        omega
      simp only [zeroClock, ascii_zeroClock2, ascii_zeroClock1, List.take_succ_cons,
        List.take_zero, List.drop_succ_cons, List.drop_zero, Bool.or_eq_true,
        Bool.and_eq_true, beq_iff_eq, List.cons.injEq, and_true, true_and]
      constructor
      · rintro ⟨a1, ⟨a3, a4⟩, ⟨a5, a6⟩, a7⟩
        exact Or.inr ⟨⟨by omega, a3, a4, a5, a6⟩, a7⟩
      · rintro (⟨⟨_, a2, _⟩, _⟩ | ⟨⟨a1, a3, a4, a5, a6⟩, a7⟩)
        · omega
        · exact ⟨by omega, ⟨a3, a4⟩, ⟨a5, a6⟩, a7⟩

/-- The instant `time.Parse` returns for an accepted timestamp: the `time.Date` of
valid fields, whose year is zero exactly when the timestamp starts with `0000`,
and which are those of 0001-01-01 00:00:00.000000000 exactly when `zeroStamp`
holds. -/
theorem accepted_value (s : Bytes) (h : accepted s = true) :
    ∃ y m d H M S ns : Nat, y < 10000 ∧ (1 ≤ m ∧ m ≤ 12) ∧ (1 ≤ d ∧ (d : Int) ≤ daysIn m y)
      ∧ H < 24 ∧ M < 60 ∧ S < 60 ∧ ns < 1000000000
      ∧ Parse s = .ok (Date y m d H M S ns)
      ∧ (y = 0 ↔ s.take 4 = ascii "0000")
      ∧ ((y = 1 ∧ m = 1 ∧ d = 1 ∧ H = 0 ∧ M = 0 ∧ S = 0 ∧ ns = 0) ↔ zeroStamp s = true) := by
  rcases s with _ | ⟨y1, _ | ⟨y2, _ | ⟨y3, _ | ⟨y4, _ | ⟨c1, _ | ⟨m1, _ | ⟨m2, _ | ⟨c2,
    _ | ⟨d1, _ | ⟨d2, _ | ⟨t, rest⟩⟩⟩⟩⟩⟩⟩⟩⟩⟩⟩
  · simp [accepted] at h
  · simp [accepted] at h
  · simp [accepted] at h
  · simp [accepted] at h
  · simp [accepted] at h
  · simp [accepted] at h
  · simp [accepted] at h
  · simp [accepted] at h
  · simp [accepted] at h
  · simp [accepted] at h
  · simp [accepted] at h
  · simp only [accepted, Bool.and_eq_true, beq_iff_eq, decide_eq_true_eq] at h
    obtain ⟨⟨⟨⟨⟨⟨⟨⟨⟨⟨⟨⟨⟨⟨⟨hy1, hy2⟩, hy3⟩, hy4⟩, hc1⟩, hm1⟩, hm2⟩, hmlo⟩, hmhi⟩, hc2⟩, hd1⟩,
      hd2⟩, hlo⟩, hhi⟩, ht⟩, hclock⟩ := h
    subst hc1 hc2 ht
    obtain ⟨H, M, S, ns, v7, v8, v9, v10, v11, hH, hM, hS, hns, h7, h8, h9, h10, h11, h12,
      hzero⟩ := acceptedClock_value rest hclock
    have hp := parseFields_of _ _ _ _ (H : Int) (M : Int) (S : Int) (ns : Int) _ _ _ _ _ _
      v7 v8 v9 v10 v11
      (parseYear_four y1 y2 y3 y4 _ hy1 hy2 hy3 hy4) (skip_one _ _)
      (parseMonth_two m1 m2 _ hm1 hm2 hmlo hmhi) (skip_one _ _)
      (parseDay_two d1 d2 _ hd1 hd2) (skip_one _ _) h7 h8 h9 h10 h11 h12
    refine ⟨num4 y1 y2 y3 y4, num2 m1 m2, num2 d1 d2, H, M, S, ns,
      num4_lt y1 y2 y3 y4 hy1 hy2 hy3 hy4, ⟨hmlo, hmhi⟩, ⟨hlo, hhi⟩, hH, hM, hS, hns, ?_, ?_, ?_⟩
    · unfold Parse
      rw [hp]
      simp only
      rw [if_neg (by
        simp only [Bool.or_eq_true, decide_eq_true_eq, not_or, not_lt]
        constructor
        · omega
        · omega)]
    · rw [num4_eq_zero y1 y2 y3 y4 hy1 hy2 hy3 hy4, ascii_zeroYear]
      simp only [List.take_succ_cons, List.take_zero, List.cons.injEq, and_true]
    · rw [num4_eq_one y1 y2 y3 y4 hy1 hy2 hy3 hy4, num2_eq_one m1 m2 hm1 hm2,
        num2_eq_one d1 d2 hd1 hd2]
      simp only [zeroStamp, ascii_zeroDate, List.take_succ_cons, List.take_zero,
        List.drop_succ_cons, List.drop_zero, Bool.and_eq_true, beq_iff_eq, List.cons.injEq,
        and_true, true_and, ← hzero]
      constructor
      · rintro ⟨⟨a1, a2, a3, a4⟩, ⟨a5, a6⟩, ⟨a7, a8⟩, a9⟩
        exact ⟨⟨a1, a2, a3, a4, a5, a6, a7, a8⟩, a9⟩
      · rintro ⟨⟨a1, a2, a3, a4, a5, a6, a7, a8⟩, a9⟩
        exact ⟨⟨a1, a2, a3, a4⟩, ⟨a5, a6⟩, ⟨a7, a8⟩, a9⟩
/-! ## Lemmas: `sort.Slice` -/

section SortLemmas

variable {α : Type}

theorem getD_of_getElem? {l : List α} {k : Nat} {x : α} (d : α) (h : l[k]? = some x) :
    l.getD k d = x := by
  simp [List.getD_eq_getElem?_getD, h]

theorem getElem?_of_lt {l : List α} {k : Nat} (d : α) (h : k < l.length) :
    l[k]? = some (l.getD k d) := by
  simp [List.getD_eq_getElem?_getD, List.getElem?_eq_getElem h]

theorem lessAt_eq (less : α → α → Bool) (d : α) (l : List α) (i j : Nat)
    (hi : i < l.length) (hj : j < l.length) :
    lessAt less l i j = less (l.getD i d) (l.getD j d) := by
  unfold lessAt
  rw [getElem?_of_lt d hi, getElem?_of_lt d hj]

theorem swapAt_eq (d : α) (l : List α) (i j : Nat) (hi : i < l.length) (hj : j < l.length) :
    swapAt l i j = (l.set i (l.getD j d)).set j (l.getD i d) := by
  unfold swapAt
  rw [getElem?_of_lt d hi, getElem?_of_lt d hj]

theorem swapAt_length (l : List α) (i j : Nat) : (swapAt l i j).length = l.length := by
  unfold swapAt
  split <;> simp

theorem swapAt_getD (d : α) (l : List α) (i j k : Nat) (hi : i < l.length)
    (hj : j < l.length) :
    (swapAt l i j).getD k d
      = if k = j then l.getD i d else if k = i then l.getD j d else l.getD k d := by
  rw [swapAt_eq d l i j hi hj]
  simp only [List.getD_eq_getElem?_getD, List.getElem?_set, List.length_set]
  by_cases h1 : j = k
  · subst h1; simp [hj]
  · by_cases h2 : i = k
    · subst h2; simp [h1, hi, Ne.symm h1]
    · simp [h1, h2, Ne.symm h1, Ne.symm h2]

theorem swapAt_perm (l : List α) (i j : Nat) : (swapAt l i j).Perm l := by
  classical
  unfold swapAt
  split
  · rename_i x y hx hy
    have hi : i < l.length := by
      by_contra h; rw [List.getElem?_eq_none (by omega)] at hx; cases hx
    have hj : j < l.length := by
      by_contra h; rw [List.getElem?_eq_none (by omega)] at hy; cases hy
    have ex : l[i] = x := by
      rw [List.getElem?_eq_getElem hi] at hx; exact Option.some.inj hx
    have ey : l[j] = y := by
      rw [List.getElem?_eq_getElem hj] at hy; exact Option.some.inj hy
    rw [List.perm_iff_count]
    intro c
    rw [List.count_set _ _ _ _ (by simpa using hj), List.count_set _ _ _ _ hi]
    have hxc := List.count_pos_iff.mpr (List.getElem_mem hi)
    have hyc := List.count_pos_iff.mpr (List.getElem_mem hj)
    rw [ex] at hxc
    rw [ey] at hyc
    simp only [List.getElem_set, ex, ey]
    by_cases hij : i = j
    · subst hij
      have : x = y := by rw [← ex, ← ey]
      subst this
      simp only [if_true, beq_iff_eq]
      split_ifs with h1
      · subst h1; omega
      · omega
    · simp only [hij, if_false, ey, beq_iff_eq]
      split_ifs with h1 h2 h2
      · subst h1; subst h2; omega
      · subst h1; omega
      · subst h2; omega
      · omega
  · exact List.Perm.refl _

theorem Shuffle.refl (d : α) (a b : Nat) (l : List α) : Shuffle d a b l l :=
  ⟨rfl, List.Perm.refl _, fun _ _ => rfl, fun _ h => h⟩

theorem Shuffle.trans {d : α} {a b : Nat} {l l' l'' : List α}
    (h1 : Shuffle d a b l l') (h2 : Shuffle d a b l' l'') : Shuffle d a b l l'' :=
  ⟨h2.length_eq.trans h1.length_eq, h2.perm.trans h1.perm,
    fun k hk => (h2.outside k hk).trans (h1.outside k hk),
    fun P hP => h2.inside P (h1.inside P hP)⟩

theorem Shuffle.mono {d : α} {a b a' b' : Nat} {l l' : List α}
    (h : Shuffle d a b l l') (ha : a' ≤ a) (hb : b ≤ b') : Shuffle d a' b' l l' := by
  refine ⟨h.length_eq, h.perm, fun k hk => h.outside k (by omega), ?_⟩
  intro P hP k hk1 hk2
  by_cases hin : a ≤ k ∧ k < b
  · exact h.inside P (fun k' h1 h2 => hP k' (by omega) (by omega)) k hin.1 hin.2
  · rw [h.outside k (by omega)]
    exact hP k hk1 hk2

theorem Shuffle.swap (d : α) (a b : Nat) (l : List α) (i j : Nat)
    (hi : a ≤ i ∧ i < b) (hj : a ≤ j ∧ j < b) (hb : b ≤ l.length) :
    Shuffle d a b l (swapAt l i j) := by
  have hil : i < l.length := by omega
  have hjl : j < l.length := by omega
  refine ⟨swapAt_length l i j, swapAt_perm l i j, ?_, ?_⟩
  · intro k hk
    rw [swapAt_getD d l i j k hil hjl, if_neg (by omega), if_neg (by omega)]
  · intro P hP k hk1 hk2
    rw [swapAt_getD d l i j k hil hjl]
    split_ifs
    · exact hP i hi.1 hi.2
    · exact hP j hj.1 hj.2
    · exact hP k hk1 hk2

theorem Shuffle.swap_after {d : α} {a b : Nat} {l l' : List α} (h : Shuffle d a b l l')
    (i j : Nat) (hi : a ≤ i ∧ i < b) (hj : a ≤ j ∧ j < b) (hb : b ≤ l.length) :
    Shuffle d a b l (swapAt l' i j) :=
  h.trans (Shuffle.swap d a b l' i j hi hj (by rw [h.length_eq]; exact hb))

/-- Transitivity of the relation "`y` is not less than `x`". -/
theorem le_trans' {less : α → α → Bool} (sw : StrictWeak less) {x y z : α}
    (h1 : less y x = false) (h2 : less z y = false) : less z x = false :=
  sw.ntrans z y x h2 h1

theorem lt_asymm' {less : α → α → Bool} (sw : StrictWeak less) {x y : α}
    (h : less x y = true) : less y x = false := by
  cases h' : less y x
  · rfl
  · have := sw.trans x y x h h'
    rw [sw.irrefl] at this
    cases this

theorem lt_of_lt_of_le' {less : α → α → Bool} (sw : StrictWeak less) {x y z : α}
    (h1 : less x y = true) (h2 : less z y = false) : less x z = true := by
  cases h : less x z
  · have := sw.ntrans x z y h h2
    rw [h1] at this; cases this
  · rfl

theorem lt_of_le_of_lt' {less : α → α → Bool} (sw : StrictWeak less) {x y z : α}
    (h1 : less y x = false) (h2 : less y z = true) : less x z = true := by
  cases h : less x z
  · have := sw.ntrans y x z h1 h
    rw [h2] at this; cases this
  · rfl

theorem rsorted_of_insInv_stop {less : α → α → Bool} (sw : StrictWeak less) (d : α)
    (l : List α) (a j i : Nat) (hinv : InsInv less d l a j i)
    (hstop : j = a ∨ (a < j ∧ less (l.getD j d) (l.getD (j - 1) d) = false)) :
    RSorted less d l a (i + 1) := by
  obtain ⟨h1, h2⟩ := hinv
  intro p q hp hpq hq
  by_cases hpj : p = j
  · subst hpj
    exact lt_asymm' sw (h2 q hpq (by omega))
  · by_cases hqj : q = j
    · subst hqj
      rcases hstop with h | ⟨h, hl⟩
      · omega
      · by_cases hp1 : p = q - 1
        · subst hp1; exact hl
        · have := h1 p (q - 1) hp (by omega) (by omega) hpj (by omega)
          exact le_trans' sw this hl
    · exact h1 p q hp hpq (by omega) hpj hqj

theorem insertionInner_spec {less : α → α → Bool} (sw : StrictWeak less) (d : α)
    (a0 a i : Nat) (h0 : a0 ≤ a) :
    ∀ (j : Nat) (data : List α), a ≤ j → j ≤ i → i < data.length →
      (a0 < a → less (data.getD j d) (data.getD (a - 1) d) = false) →
      InsInv less d data a j i →
      Shuffle d a (i + 1) data (insertionInner less a0 j data)
        ∧ RSorted less d (insertionInner less a0 j data) a (i + 1) := by
  intro j
  induction j with
  | zero =>
    intro data ha hi hlen hlow hinv
    simp only [insertionInner]
    exact ⟨Shuffle.refl _ _ _ _, rsorted_of_insInv_stop sw d data a 0 i hinv (Or.inl (by omega))⟩
  | succ j ih =>
    intro data ha hi hlen hlow hinv
    simp only [insertionInner]
    rw [lessAt_eq less d data (j + 1) j (by omega) (by omega)]
    by_cases hc : (decide (j + 1 > a0) && less (data.getD (j + 1) d) (data.getD j d)) = true
    · rw [if_pos hc]
      simp only [Bool.and_eq_true, decide_eq_true_eq] at hc
      obtain ⟨hc1, hc2⟩ := hc
      have haj : a ≤ j := by
        by_contra hne
        have hja : j + 1 = a := by omega
        have := hlow (by omega)
        rw [← hja] at this
        simp only [Nat.add_sub_cancel] at this
        rw [hc2] at this; cases this
      have hjl : j < data.length := by omega
      have hj1l : j + 1 < data.length := by omega
      have hg := fun k => swapAt_getD d data (j + 1) j k hj1l hjl
      have hsw := Shuffle.swap d a (i + 1) data (j + 1) j (by omega) (by omega) (by omega)
      obtain ⟨h1, h2⟩ := hinv
      have hres := ih (swapAt data (j + 1) j) haj (by omega)
        (by rw [swapAt_length]; exact hlen)
        (by
          intro h
          rw [hg j, hg (a - 1), if_pos rfl, if_neg (by omega), if_neg (by omega)]
          exact hlow h)
        (by
          constructor
          · intro p q hp hpq hq hpj hqj
            rw [hg q, hg p, if_neg hqj, if_neg hpj]
            by_cases hq1 : q = j + 1
            · rw [if_pos hq1, if_neg (by omega)]
              exact h1 p j hp (by omega) (by omega) (by omega) (by omega)
            · rw [if_neg hq1]
              by_cases hp1 : p = j + 1
              · rw [if_pos hp1]
                exact h1 j q haj (by omega) hq (by omega) (by omega)
              · rw [if_neg hp1]
                exact h1 p q hp hpq hq hp1 hq1
          · intro q hjq hq
            rw [hg j, hg q, if_pos rfl, if_neg (by omega)]
            by_cases hq1 : q = j + 1
            · rw [if_pos hq1]; exact hc2
            · rw [if_neg hq1]; exact h2 q (by omega) hq)
      exact ⟨hsw.trans hres.1, hres.2⟩
    · rw [if_neg hc]
      refine ⟨Shuffle.refl _ _ _ _, rsorted_of_insInv_stop sw d data a (j + 1) i hinv ?_⟩
      simp only [Bool.and_eq_true, decide_eq_true_eq, not_and, Bool.not_eq_true] at hc
      by_cases hja : j + 1 = a
      · exact Or.inl hja
      · right
        refine ⟨by omega, ?_⟩
        simp only [Nat.add_sub_cancel]
        exact hc (by omega)

theorem insInv_of_rsorted {less : α → α → Bool} (d : α) (l : List α) (a i : Nat)
    (h : RSorted less d l a i) : InsInv less d l a i i := by
  constructor
  · intro p q hp hpq hq _ hqi
    exact h p q hp hpq (by omega)
  · intro q h1 h2; omega

theorem insertionOuter_spec {less : α → α → Bool} (sw : StrictWeak less) (d : α) (a b : Nat) :
    ∀ (n i : Nat) (data : List α), b - i ≤ n → a < i → i ≤ b → b ≤ data.length →
      RSorted less d data a i →
      Shuffle d a b data (insertionOuter less a b n i data)
        ∧ RSorted less d (insertionOuter less a b n i data) a b := by
  intro n
  induction n with
  | zero =>
    intro i data hn hai hib hlen hs
    simp only [insertionOuter]
    have : i = b := by omega
    subst this
    exact ⟨Shuffle.refl _ _ _ _, hs⟩
  | succ n ih =>
    intro i data hn hai hib hlen hs
    simp only [insertionOuter]
    by_cases hlt : i < b
    · rw [if_pos hlt]
      obtain ⟨s1, r1⟩ := insertionInner_spec sw d a a i (Nat.le_refl _) i data (by omega)
        (Nat.le_refl _) (by omega) (fun h => absurd h (Nat.lt_irrefl _))
        (insInv_of_rsorted d data a i hs)
      obtain ⟨s2, r2⟩ := ih (i + 1) (insertionInner less a i data) (by omega) (by omega)
        (by omega) (by rw [s1.length_eq]; exact hlen) r1
      exact ⟨(s1.mono (Nat.le_refl _) (by omega)).trans s2, r2⟩
    · rw [if_neg hlt]
      have : i = b := by omega
      subst this
      exact ⟨Shuffle.refl _ _ _ _, hs⟩

theorem insertionSort_func_spec {less : α → α → Bool} (sw : StrictWeak less) (d : α)
    (data : List α) (a b : Nat) (hb : b ≤ data.length) :
    Shuffle d a b data (insertionSort_func less data a b)
      ∧ RSorted less d (insertionSort_func less data a b) a b := by
  unfold insertionSort_func
  by_cases hab : a + 1 ≤ b
  · exact insertionOuter_spec sw d a b (b - (a + 1)) (a + 1) data (Nat.le_refl _) (by omega) hab hb
      (by intro p q hp hpq hq; omega)
  · have h0 : b - (a + 1) = 0 := by omega
    rw [h0]
    simp only [insertionOuter]
    exact ⟨Shuffle.refl _ _ _ _, by intro p q hp hpq hq; omega⟩

theorem scanUp_spec (p : Nat → Bool) (j : Nat) :
    ∀ (n i : Nat), j + 1 - i ≤ n →
      i ≤ scanUp p j n i ∧ (i ≤ j + 1 → scanUp p j n i ≤ j + 1)
        ∧ (∀ k, i ≤ k → k < scanUp p j n i → p k = true)
        ∧ (scanUp p j n i ≤ j → p (scanUp p j n i) = false) := by
  intro n
  induction n with
  | zero =>
    intro i hn
    simp only [scanUp]
    exact ⟨Nat.le_refl _, fun h => h, fun k h1 h2 => by omega, fun h => by omega⟩
  | succ n ih =>
    intro i hn
    simp only [scanUp]
    by_cases hc : (decide (i ≤ j) && p i) = true
    · rw [if_pos hc]
      simp only [Bool.and_eq_true, decide_eq_true_eq] at hc
      obtain ⟨h1, h2, h3, h4⟩ := ih (i + 1) (by omega)
      refine ⟨by omega, fun _ => h2 (by omega), ?_, h4⟩
      intro k hk1 hk2
      by_cases hki : k = i
      · subst hki; exact hc.2
      · exact h3 k (by omega) hk2
    · rw [if_neg hc]
      simp only [Bool.and_eq_true, decide_eq_true_eq, not_and, Bool.not_eq_true] at hc
      exact ⟨Nat.le_refl _, fun h => h, fun k h1 h2 => by omega, hc⟩

theorem scanDown_spec (p : Nat → Bool) (i : Nat) (hi : 1 ≤ i) :
    ∀ (n j : Nat), j + 1 - i ≤ n →
      scanDown p i n j ≤ j ∧ (i ≤ j + 1 → i ≤ scanDown p i n j + 1)
        ∧ (∀ k, scanDown p i n j < k → k ≤ j → p k = true)
        ∧ (i ≤ scanDown p i n j → p (scanDown p i n j) = false) := by
  intro n
  induction n with
  | zero =>
    intro j hn
    simp only [scanDown]
    exact ⟨Nat.le_refl _, fun h => h, fun k h1 h2 => by omega, fun h => by omega⟩
  | succ n ih =>
    intro j hn
    simp only [scanDown]
    by_cases hc : (decide (i ≤ j) && p j) = true
    · rw [if_pos hc]
      simp only [Bool.and_eq_true, decide_eq_true_eq] at hc
      obtain ⟨h1, h2, h3, h4⟩ := ih (j - 1) (by omega)
      refine ⟨by omega, fun _ => h2 (by omega), ?_, h4⟩
      intro k hk1 hk2
      by_cases hkj : k = j
      · subst hkj; exact hc.2
      · exact h3 k hk1 (by omega)
    · rw [if_neg hc]
      simp only [Bool.and_eq_true, decide_eq_true_eq, not_and, Bool.not_eq_true] at hc
      exact ⟨Nat.le_refl _, fun h => h, fun k h1 h2 => by omega, hc⟩

theorem scanLess_eq (less : α → α → Bool) (data : List α) (a j : Nat) :
    ∀ n i, scanLess less data a j n i = scanUp (fun k => lessAt less data k a) j n i := by
  intro n
  induction n with
  | zero => intro i; rfl
  | succ n ih => intro i; simp only [scanLess, scanUp, ih]

theorem scanNotLess_eq (less : α → α → Bool) (data : List α) (a i : Nat) :
    ∀ n j, scanNotLess less data a i n j = scanDown (fun k => !lessAt less data k a) i n j := by
  intro n
  induction n with
  | zero => intro j; rfl
  | succ n ih => intro j; simp only [scanNotLess, scanDown, ih]

theorem scanNotGreater_eq (less : α → α → Bool) (data : List α) (a j : Nat) :
    ∀ n i, scanNotGreater less data a j n i = scanUp (fun k => !lessAt less data a k) j n i := by
  intro n
  induction n with
  | zero => intro i; rfl
  | succ n ih => intro i; simp only [scanNotGreater, scanUp, ih]

theorem scanGreater_eq (less : α → α → Bool) (data : List α) (a i : Nat) :
    ∀ n j, scanGreater less data a i n j = scanDown (fun k => lessAt less data a k) i n j := by
  intro n
  induction n with
  | zero => intro j; rfl
  | succ n ih => intro j; simp only [scanGreater, scanDown, ih]

theorem partitionLoop_eq (less : α → α → Bool) (a : Nat) :
    ∀ n data i j, partitionLoop less a n data i j
      = ((genLoop (fun data k => lessAt less data k a) (fun data k => !lessAt less data k a)
          n data i j).1,
         (genLoop (fun data k => lessAt less data k a) (fun data k => !lessAt less data k a)
          n data i j).2.2) := by
  intro n
  induction n with
  | zero => intro data i j; rfl
  | succ n ih =>
    intro data i j
    simp only [partitionLoop, genLoop, scanLess_eq, scanNotLess_eq]
    split_ifs
    · rfl
    · exact ih _ _ _

theorem partitionEqualLoop_eq (less : α → α → Bool) (a : Nat) :
    ∀ n data i j, partitionEqualLoop less a n data i j
      = ((genLoop (fun data k => !lessAt less data a k) (fun data k => lessAt less data a k)
          n data i j).1,
         (genLoop (fun data k => !lessAt less data a k) (fun data k => lessAt less data a k)
          n data i j).2.1) := by
  intro n
  induction n with
  | zero => intro data i j; rfl
  | succ n ih =>
    intro data i j
    simp only [partitionEqualLoop, genLoop, scanNotGreater_eq, scanGreater_eq]
    split_ifs
    · rfl
    · exact ih _ _ _

/-- The loop of the partition functions splits the range by the predicate `q`. -/
theorem genLoop_spec (pu pd : List α → Nat → Bool) (q : α → Bool) (d : α) (a b len : Nat)
    (p : α) (hb : b ≤ len)
    (hq : ∀ data : List α, data.length = len → data.getD a d = p →
      ∀ k, a < k → k < b → pu data k = q (data.getD k d) ∧ pd data k = !q (data.getD k d)) :
    ∀ (n : Nat) (data : List α) (i j : Nat), j + 1 - i ≤ n → data.length = len →
      data.getD a d = p → a < i → i ≤ j + 1 → j < b →
      (∀ k, a < k → k < i → q (data.getD k d) = true) →
      (∀ k, j < k → k < b → q (data.getD k d) = false) →
      Shuffle d (a + 1) b data (genLoop pu pd n data i j).1
        ∧ (genLoop pu pd n data i j).2.1 = (genLoop pu pd n data i j).2.2 + 1
        ∧ a < (genLoop pu pd n data i j).2.1
        ∧ (genLoop pu pd n data i j).2.2 < b
        ∧ (∀ k, a < k → k < (genLoop pu pd n data i j).2.1 →
            q ((genLoop pu pd n data i j).1.getD k d) = true)
        ∧ (∀ k, (genLoop pu pd n data i j).2.2 < k → k < b →
            q ((genLoop pu pd n data i j).1.getD k d) = false) := by
  intro n
  induction n with
  | zero =>
    intro data i j hn hlen hp hai hij hjb hL hR
    simp only [genLoop]
    exact ⟨Shuffle.refl _ _ _ _, by omega, hai, hjb, hL, hR⟩
  | succ n ih =>
    intro data i j hn hlen hp hai hij hjb hL hR
    simp only [genLoop]
    obtain ⟨u1, u2, u3, u4⟩ := scanUp_spec (pu data) j (j + 1 - i) i (Nat.le_refl _)
    generalize scanUp (pu data) j (j + 1 - i) i = i' at u1 u2 u3 u4 ⊢
    have u2' := u2 hij
    obtain ⟨d1, d2, d3, d4⟩ := scanDown_spec (pd data) i' (by omega) (j + 1 - i') j
      (Nat.le_refl _)
    generalize scanDown (pd data) i' (j + 1 - i') j = j' at d1 d2 d3 d4 ⊢
    have d2' := d2 u2'
    have hL' : ∀ k, a < k → k < i' → q (data.getD k d) = true := by
      intro k h1 h2
      by_cases hk : k < i
      · exact hL k h1 hk
      · have := u3 k (by omega) h2
        rw [(hq data hlen hp k h1 (by omega)).1] at this
        exact this
    have hR' : ∀ k, j' < k → k < b → q (data.getD k d) = false := by
      intro k h1 h2
      by_cases hk : j < k
      · exact hR k hk h2
      · have := d3 k h1 (by omega)
        rw [(hq data hlen hp k (by omega) h2).2] at this
        simpa using this
    split_ifs with hgt
    · dsimp only
      exact ⟨Shuffle.refl _ _ _ _, by omega, by omega, by omega, hL', hR'⟩
    · have hi'j : i' ≤ j := by omega
      have e1 := u4 hi'j
      rw [(hq data hlen hp i' (by omega) (by omega)).1] at e1
      have e2 := d4 (by omega)
      rw [(hq data hlen hp j' (by omega) (by omega)).2] at e2
      simp only [Bool.not_eq_false'] at e2
      have hne : i' ≠ j' := by
        intro h; rw [h] at e1; rw [e1] at e2; cases e2
      have hil : i' < data.length := by omega
      have hjl : j' < data.length := by omega
      have hg := fun k => swapAt_getD d data i' j' k hil hjl
      have hsw := Shuffle.swap d (a + 1) b data i' j' (by omega) (by omega) (by omega)
      obtain ⟨r1, r2, r3, r4, r5, r6⟩ := ih (swapAt data i' j') (i' + 1) (j' - 1) (by omega)
        (by rw [swapAt_length]; exact hlen)
        (by rw [hg a, if_neg (by omega), if_neg (by omega)]; exact hp)
        (by omega) (by omega) (by omega)
        (by
          intro k h1 h2
          rw [hg k, if_neg (by omega)]
          by_cases hk : k = i'
          · rw [if_pos hk]; exact e2
          · rw [if_neg hk]; exact hL' k h1 (by omega))
        (by
          intro k h1 h2
          rw [hg k]
          by_cases hk : k = j'
          · rw [if_pos hk]; exact e1
          · rw [if_neg hk, if_neg (by omega)]; exact hR' k (by omega) h2)
      exact ⟨hsw.trans r1, r2, r3, r4, r5, r6⟩

theorem partition_func_eq (less : α → α → Bool) (data : List α) (a b pivot : Nat) :
    (partition_func less data a b pivot).1
        = swapAt (genLoop (fun data k => lessAt less data k a)
            (fun data k => !lessAt less data k a) (b - a + 1) (swapAt data a pivot) (a + 1)
            (b - 1)).1
          (genLoop (fun data k => lessAt less data k a)
            (fun data k => !lessAt less data k a) (b - a + 1) (swapAt data a pivot) (a + 1)
            (b - 1)).2.2 a
      ∧ (partition_func less data a b pivot).2.1
        = (genLoop (fun data k => lessAt less data k a)
            (fun data k => !lessAt less data k a) (b - a + 1) (swapAt data a pivot) (a + 1)
            (b - 1)).2.2 := by
  simp only [partition_func, genLoop, scanLess_eq, scanNotLess_eq, partitionLoop_eq]
  split_ifs <;> exact ⟨rfl, rfl⟩

theorem partition_func_spec {less : α → α → Bool} (sw : StrictWeak less) (d : α)
    (data : List α) (a b pivot : Nat) (hap : a ≤ pivot) (hpb : pivot < b)
    (hb : b ≤ data.length) :
    Shuffle d a b data (partition_func less data a b pivot).1
      ∧ a ≤ (partition_func less data a b pivot).2.1
      ∧ (partition_func less data a b pivot).2.1 < b
      ∧ (∀ k, a ≤ k → k < (partition_func less data a b pivot).2.1 →
          less ((partition_func less data a b pivot).1.getD k d)
            ((partition_func less data a b pivot).1.getD
              (partition_func less data a b pivot).2.1 d) = true)
      ∧ (∀ k, (partition_func less data a b pivot).2.1 < k → k < b →
          less ((partition_func less data a b pivot).1.getD k d)
            ((partition_func less data a b pivot).1.getD
              (partition_func less data a b pivot).2.1 d) = false) := by
  obtain ⟨e1, e2⟩ := partition_func_eq less data a b pivot
  rw [e1, e2]
  have hal : a < data.length := by omega
  have hpl : pivot < data.length := by omega
  have hs1 := Shuffle.swap d a b data a pivot (by omega) (by omega) hb
  have hg1 := fun k => swapAt_getD d data a pivot k hal hpl
  have hlen1 : (swapAt data a pivot).length = data.length := swapAt_length _ _ _
  obtain ⟨r1, r2, r3, r4, r5, r6⟩ := genLoop_spec (fun data k => lessAt less data k a)
    (fun data k => !lessAt less data k a) (fun x => less x ((swapAt data a pivot).getD a d)) d a b
    data.length ((swapAt data a pivot).getD a d) hb
    (by
      intro dt hl hp k h1 h2
      simp only
      rw [lessAt_eq less d dt k a (by omega) (by omega), hp]
      exact ⟨rfl, rfl⟩)
    (b - a + 1) (swapAt data a pivot) (a + 1) (b - 1) (by omega) hlen1 rfl (by omega) (by omega)
    (by omega) (by intro k h1 h2; omega) (by intro k h1 h2; omega)
  generalize genLoop (fun data k => lessAt less data k a)
    (fun data k => !lessAt less data k a) (b - a + 1) (swapAt data a pivot) (a + 1) (b - 1)
    = G at r1 r2 r3 r4 r5 r6 ⊢
  obtain ⟨data3, i3, j3⟩ := G
  simp only at r1 r2 r3 r4 r5 r6 ⊢
  have hlen3 : data3.length = data.length := r1.length_eq.trans hlen1
  have hg3 := fun k => swapAt_getD d data3 j3 a k (by omega) (by omega)
  have hpa : data3.getD a d = (swapAt data a pivot).getD a d := r1.outside a (by omega)
  generalize (swapAt data a pivot).getD a d = p at r5 r6 hpa
  refine ⟨hs1.trans ((r1.mono (by omega) (Nat.le_refl _)).trans
    (Shuffle.swap d a b data3 j3 a (by omega) (by omega) (by omega))), by omega, r4, ?_, ?_⟩
  · intro k h1 h2
    have hmid : (swapAt data3 j3 a).getD j3 d = p := by
      rw [hg3 j3]
      by_cases h : j3 = a
      · rw [if_pos h, h]; exact hpa
      · rw [if_neg h, if_pos rfl]; exact hpa
    rw [hmid, hg3 k]
    by_cases hk : k = a
    · rw [if_pos hk]
      exact r5 j3 (by omega) (by omega)
    · rw [if_neg hk, if_neg (by omega)]
      exact r5 k (by omega) (by omega)
  · intro k h1 h2
    have hmid : (swapAt data3 j3 a).getD j3 d = p := by
      rw [hg3 j3]
      by_cases h : j3 = a
      · rw [if_pos h, h]; exact hpa
      · rw [if_neg h, if_pos rfl]; exact hpa
    rw [hmid, hg3 k, if_neg (by omega), if_neg (by omega)]
    exact r6 k h1 h2

theorem partitionEqual_func_spec {less : α → α → Bool} (sw : StrictWeak less) (d : α)
    (data : List α) (a b pivot : Nat) (hap : a ≤ pivot) (hpb : pivot < b)
    (hb : b ≤ data.length) :
    Shuffle d a b data (partitionEqual_func less data a b pivot).1
      ∧ a < (partitionEqual_func less data a b pivot).2
      ∧ (partitionEqual_func less data a b pivot).2 ≤ b
      ∧ (∀ k, a ≤ k → k < (partitionEqual_func less data a b pivot).2 →
          less (data.getD pivot d) ((partitionEqual_func less data a b pivot).1.getD k d) = false)
      ∧ (∀ k, (partitionEqual_func less data a b pivot).2 ≤ k → k < b →
          less (data.getD pivot d) ((partitionEqual_func less data a b pivot).1.getD k d) = true) := by
  unfold partitionEqual_func
  rw [partitionEqualLoop_eq]
  have hal : a < data.length := by omega
  have hpl : pivot < data.length := by omega
  have hs1 := Shuffle.swap d a b data a pivot (by omega) (by omega) hb
  have hg1 := fun k => swapAt_getD d data a pivot k hal hpl
  have hlen1 : (swapAt data a pivot).length = data.length := swapAt_length _ _ _
  have hp1 : (swapAt data a pivot).getD a d = data.getD pivot d := by
    rw [hg1 a]
    by_cases h : a = pivot
    · rw [if_pos h, h]
    · rw [if_neg h, if_pos rfl]
  obtain ⟨r1, r2, r3, r4, r5, r6⟩ := genLoop_spec (fun data k => !lessAt less data a k)
    (fun data k => lessAt less data a k) (fun x => !less (data.getD pivot d) x) d a b
    data.length (data.getD pivot d) hb
    (by
      intro dt hl hp k h1 h2
      simp only
      rw [lessAt_eq less d dt a k (by omega) (by omega), hp]
      exact ⟨rfl, by simp⟩)
    (b - a + 1) (swapAt data a pivot) (a + 1) (b - 1) (by omega) hlen1 hp1 (by omega) (by omega)
    (by omega) (by intro k h1 h2; omega) (by intro k h1 h2; omega)
  generalize genLoop (fun data k => !lessAt less data a k)
    (fun data k => lessAt less data a k) (b - a + 1) (swapAt data a pivot) (a + 1) (b - 1)
    = G at r1 r2 r3 r4 r5 r6 ⊢
  obtain ⟨data3, i3, j3⟩ := G
  simp only at r1 r2 r3 r4 r5 r6 ⊢
  have hpa : data3.getD a d = (swapAt data a pivot).getD a d := r1.outside a (by omega)
  refine ⟨hs1.trans (r1.mono (by omega) (Nat.le_refl _)), r3, by omega, ?_, ?_⟩
  · intro k h1 h2
    by_cases hk : k = a
    · rw [hk, hpa, hp1]; exact sw.irrefl _
    · have := r5 k (by omega) h2
      simpa using this
  · intro k h1 h2
    have := r6 k (by omega) h2
    simpa using this

theorem order2_func_fst (less : α → α → Bool) (data : List α) (a b s : Nat) :
    ((order2_func less data a b s).1 = a ∧ (order2_func less data a b s).2.1 = b)
      ∨ ((order2_func less data a b s).1 = b ∧ (order2_func less data a b s).2.1 = a) := by
  unfold order2_func
  split_ifs
  · right; exact ⟨rfl, rfl⟩
  · left; exact ⟨rfl, rfl⟩

theorem median_func_mem (less : α → α → Bool) (data : List α) (a b c s : Nat) :
    (median_func less data a b c s).1 = a ∨ (median_func less data a b c s).1 = b
      ∨ (median_func less data a b c s).1 = c := by
  unfold median_func
  simp only
  have h1 := order2_func_fst less data a b s
  generalize order2_func less data a b s = r1 at h1 ⊢
  obtain ⟨a1, b1, s1⟩ := r1
  simp only at h1 ⊢
  have h2 := order2_func_fst less data b1 c s1
  generalize order2_func less data b1 c s1 = r2 at h2 ⊢
  obtain ⟨b2, c2, s2⟩ := r2
  simp only at h2 ⊢
  have h3 := order2_func_fst less data a1 b2 s2
  generalize order2_func less data a1 b2 s2 = r3 at h3 ⊢
  obtain ⟨a3, b3, s3⟩ := r3
  simp only at h3 ⊢
  omega

theorem choosePivot_func_fst (less : α → α → Bool) (data : List α) (a b : Nat)
    (h : 12 < b - a) :
    (choosePivot_func less data a b).1 =
      (if b - a ≥ 50 then
        (median_func less data
          (medianAdjacent_func less data (a + (b - a) / 4 * 1) 0).1
          (medianAdjacent_func less data (a + (b - a) / 4 * 2)
            (medianAdjacent_func less data (a + (b - a) / 4 * 1) 0).2).1
          (medianAdjacent_func less data (a + (b - a) / 4 * 3)
            (medianAdjacent_func less data (a + (b - a) / 4 * 2)
              (medianAdjacent_func less data (a + (b - a) / 4 * 1) 0).2).2).1
          (medianAdjacent_func less data (a + (b - a) / 4 * 3)
            (medianAdjacent_func less data (a + (b - a) / 4 * 2)
              (medianAdjacent_func less data (a + (b - a) / 4 * 1) 0).2).2).2).1
      else (median_func less data (a + (b - a) / 4 * 1) (a + (b - a) / 4 * 2)
        (a + (b - a) / 4 * 3) 0).1) := by
  unfold choosePivot_func
  have h8 : b - a ≥ 8 := by omega
  by_cases h50 : b - a ≥ 50
  · rw [if_pos h50]
    dsimp only
    rw [if_pos h8, if_pos h50]
    split_ifs <;> rfl
  · rw [if_neg h50]
    dsimp only
    rw [if_pos h8, if_neg h50]
    split_ifs <;> rfl

theorem choosePivot_func_range (less : α → α → Bool) (data : List α) (a b : Nat)
    (h : 12 < b - a) :
    a ≤ (choosePivot_func less data a b).1 ∧ (choosePivot_func less data a b).1 < b := by
  rw [choosePivot_func_fst less data a b h]
  have hq1 : 4 * ((b - a) / 4) ≤ b - a := by omega
  have hq2 : b - a < 4 * ((b - a) / 4) + 4 := by omega
  generalize (b - a) / 4 = q at hq1 hq2 ⊢
  split_ifs with h50
  · simp only [medianAdjacent_func]
    have m1 := median_func_mem less data (a + q * 1 - 1) (a + q * 1) (a + q * 1 + 1) 0
    generalize median_func less data (a + q * 1 - 1) (a + q * 1) (a + q * 1 + 1) 0 = r1 at m1 ⊢
    obtain ⟨i1, s1⟩ := r1
    simp only at m1 ⊢
    have m2 := median_func_mem less data (a + q * 2 - 1) (a + q * 2) (a + q * 2 + 1) s1
    generalize median_func less data (a + q * 2 - 1) (a + q * 2) (a + q * 2 + 1) s1 = r2 at m2 ⊢
    obtain ⟨i2, s2⟩ := r2
    simp only at m2 ⊢
    have m3 := median_func_mem less data (a + q * 3 - 1) (a + q * 3) (a + q * 3 + 1) s2
    generalize median_func less data (a + q * 3 - 1) (a + q * 3) (a + q * 3 + 1) s2 = r3 at m3 ⊢
    obtain ⟨i3, s3⟩ := r3
    simp only at m3 ⊢
    have m4 := median_func_mem less data i1 i2 i3 s3
    have b1 : a ≤ i1 ∧ i1 < b := by omega
    have b2 : a ≤ i2 ∧ i2 < b := by omega
    have b3 : a ≤ i3 ∧ i3 < b := by omega
    clear m1 m2 m3
    omega
  · have m4 := median_func_mem less data (a + q * 1) (a + q * 2) (a + q * 3) 0
    omega

theorem reverseLoop_spec (d : α) (a b : Nat) :
    ∀ (n i j : Nat) (data : List α), a ≤ i → j < b → b ≤ data.length →
      Shuffle d a b data (reverseLoop n i j data) := by
  intro n
  induction n with
  | zero => intro i j data _ _ _; exact Shuffle.refl _ _ _ _
  | succ n ih =>
    intro i j data hi hj hb
    simp only [reverseLoop]
    split_ifs with hlt
    · exact (Shuffle.swap d a b data i j (by omega) (by omega) hb).trans
        (ih (i + 1) (j - 1) _ (by omega) (by omega) (by rw [swapAt_length]; exact hb))
    · exact Shuffle.refl _ _ _ _

theorem reverseRange_func_spec (d : α) (data : List α) (a b : Nat) (hab : a < b)
    (hb : b ≤ data.length) : Shuffle d a b data (reverseRange_func data a b) := by
  unfold reverseRange_func
  exact reverseLoop_spec d a b _ _ _ _ (Nat.le_refl _) (by omega) hb

theorem bitsLenAux_le : ∀ (n x : Nat), x ≤ n → x ≠ 0 → 2 ^ bitsLenAux n x ≤ 2 * x := by
  intro n
  induction n with
  | zero => intro x h1 h2; omega
  | succ n ih =>
    intro x h1 h2
    simp only [bitsLenAux, if_neg h2]
    by_cases hx : x / 2 = 0
    · have : bitsLenAux n (x / 2) = 0 := by
        rw [hx]; cases n <;> simp [bitsLenAux]
      rw [this]
      simp
      omega
    · have := ih (x / 2) (by omega) hx
      rw [pow_succ]
      omega

theorem nextPowerOfTwo_le (length : Nat) (h : length ≠ 0) :
    nextPowerOfTwo length ≤ 2 * length := by
  unfold nextPowerOfTwo bitsLen
  rw [Nat.one_shiftLeft]
  exact (Nat.mod_le _ _).trans (bitsLenAux_le length length (Nat.le_refl _) h)

theorem breakPatternsLoop_spec (d : α) (a b length modulus idx : Nat) (hl : length = b - a)
    (hm : modulus ≤ 2 * length) (hl8 : 8 ≤ length) (hidx : idx = a + (length / 4) * 2 - 1) :
    ∀ (n i random : Nat) (data : List α), i + n ≤ 3 → b ≤ data.length →
      Shuffle d a b data (breakPatternsLoop a length modulus idx n i random data) := by
  intro n
  induction n with
  | zero => intro i random data _ _; exact Shuffle.refl _ _ _ _
  | succ n ih =>
    intro i random data hi hb
    simp only [breakPatternsLoop]
    have hand : xorshiftNext random &&& (modulus - 1) ≤ modulus - 1 := Nat.and_le_right
    generalize xorshiftNext random &&& (modulus - 1) = other at hand
    have hother : (if other ≥ length then other - length else other) < length := by
      split_ifs <;> omega
    generalize (if other ≥ length then other - length else other) = other' at hother
    exact (Shuffle.swap d a b data (idx - 1 + i) (a + other') (by omega) (by omega) hb).trans
      (ih (i + 1) _ _ (by omega) (by rw [swapAt_length]; exact hb))

theorem breakPatterns_func_spec (d : α) (data : List α) (a b : Nat) (hb : b ≤ data.length) :
    Shuffle d a b data (breakPatterns_func data a b) := by
  unfold breakPatterns_func
  simp only
  split_ifs with h8
  · exact breakPatternsLoop_spec d a b (b - a) _ _ rfl (nextPowerOfTwo_le _ (by omega)) h8 rfl
      3 0 _ data (by omega) hb
  · exact Shuffle.refl _ _ _ _

theorem scanSorted_eq (less : α → α → Bool) (data : List α) (b : Nat) (hb : 1 ≤ b) :
    ∀ n i, scanSorted less data b n i
      = scanUp (fun k => !lessAt less data k (k - 1)) (b - 1) n i := by
  intro n
  induction n with
  | zero => intro i; rfl
  | succ n ih =>
    intro i
    simp only [scanSorted, scanUp, ih]
    have : decide (i < b) = decide (i ≤ b - 1) := by
      by_cases h : i < b
      · simp [h]; omega
      · simp [h]; omega
    rw [this]

theorem shiftLeft_eq (less : α → α → Bool) :
    ∀ j data, shiftLeft less j data = insertionInner less 0 j data := by
  intro j
  induction j with
  | zero => intro data; rfl
  | succ j ih =>
    intro data
    simp only [shiftLeft, insertionInner, ih]
    cases lessAt less data (j + 1) j <;> simp

theorem shiftRight_spec (less : α → α → Bool) (d : α) (i b : Nat) :
    ∀ (n j : Nat) (data : List α), i < j → b ≤ data.length →
      Shuffle d i b data (shiftRight less b n j data) := by
  intro n
  induction n with
  | zero => intro j data _ _; exact Shuffle.refl _ _ _ _
  | succ n ih =>
    intro j data hij hb
    simp only [shiftRight]
    split_ifs with h1 h2
    · exact Shuffle.refl _ _ _ _
    · exact (Shuffle.swap d i b data j (j - 1) (by omega) (by omega) hb).trans
        (ih (j + 1) _ (by omega) (by rw [swapAt_length]; exact hb))
    · exact Shuffle.refl _ _ _ _

theorem LowerBound.shuffle {less : α → α → Bool} {d : α} {a b : Nat} {l l' : List α}
    (h : LowerBound less d l a b) (s : Shuffle d a b l l') : LowerBound less d l' a b := by
  intro ha k hk1 hk2
  rw [s.outside (a - 1) (by omega)]
  exact s.inside (fun x => less x (l.getD (a - 1) d) = false) (h ha) k hk1 hk2

theorem RSorted.shuffle_outside {less : α → α → Bool} {d : α} {a b a' b' : Nat}
    {l l' : List α} (h : RSorted less d l a b) (s : Shuffle d a' b' l l')
    (hd : b ≤ a' ∨ b' ≤ a) : RSorted less d l' a b := by
  intro i j hi hij hj
  rw [s.outside i (by omega), s.outside j (by omega)]
  exact h i j hi hij hj

theorem RSorted.extend {less : α → α → Bool} (sw : StrictWeak less) {d : α} {l : List α}
    {a i : Nat} (h : RSorted less d l a i) (hai : a < i)
    (hl : less (l.getD i d) (l.getD (i - 1) d) = false) : RSorted less d l a (i + 1) := by
  intro p q hp hpq hq
  by_cases hqi : q = i
  · subst hqi
    by_cases hp1 : p = q - 1
    · subst hp1; exact hl
    · exact le_trans' sw (h p (q - 1) hp (by omega) (by omega)) hl
  · exact h p q hp hpq (by omega)

theorem rsorted_scan {less : α → α → Bool} (sw : StrictWeak less) (d : α) (l : List α)
    (a : Nat) (hl : ∀ k, k ≤ l.length → True) :
    ∀ (m i : Nat), a < i → RSorted less d l a i →
      (∀ k, i ≤ k → k < i + m → less (l.getD k d) (l.getD (k - 1) d) = false) →
      RSorted less d l a (i + m) := by
  intro m
  induction m with
  | zero => intro i _ h _; exact h
  | succ m ih =>
    intro i hai h hs
    have := ih (i + 1) (by omega) (RSorted.extend sw h hai (hs i (Nat.le_refl _) (by omega)))
      (fun k h1 h2 => hs k (by omega) (by omega))
    rw [show i + (m + 1) = i + 1 + m by omega]
    exact this

theorem partialInsertionLoop_spec {less : α → α → Bool} (sw : StrictWeak less) (d : α)
    (a b : Nat) :
    ∀ (steps i : Nat) (data : List α), a < i → i ≤ b → b ≤ data.length →
      RSorted less d data a i → LowerBound less d data a b →
      Shuffle d a b data (partialInsertionLoop less a b steps i data).1
        ∧ ((partialInsertionLoop less a b steps i data).2 = true →
            RSorted less d (partialInsertionLoop less a b steps i data).1 a b) := by
  intro steps
  induction steps with
  | zero =>
    intro i data _ _ _ _ _
    simp only [partialInsertionLoop]
    exact ⟨Shuffle.refl _ _ _ _, fun h => by cases h⟩
  | succ steps ih =>
    intro i data hai hib hb hs hlow
    simp only [partialInsertionLoop]
    rw [scanSorted_eq less data b (by omega)]
    obtain ⟨u1, u2, u3, u4⟩ := scanUp_spec (fun k => !lessAt less data k (k - 1)) (b - 1)
      (b - i) i (by omega)
    generalize scanUp (fun k => !lessAt less data k (k - 1)) (b - 1) (b - i) i = i' at u1 u2 u3 u4 ⊢
    have u2' : i' ≤ b := by have := u2 (by omega); omega
    have hs' : RSorted less d data a i' := by
      have := rsorted_scan sw d data a (fun _ _ => trivial) (i' - i) i hai hs
        (by
          intro k h1 h2
          have := u3 k h1 (by omega)
          simp only [Bool.not_eq_true'] at this
          rw [lessAt_eq less d data k (k - 1) (by omega) (by omega)] at this
          exact this)
      rw [show i + (i' - i) = i' by omega] at this
      exact this
    by_cases h1 : i' = b
    · rw [if_pos h1]
      subst h1
      exact ⟨Shuffle.refl _ _ _ _, fun _ => hs'⟩
    by_cases h2 : b - a < 50
    · rw [if_neg h1, if_pos h2]
      exact ⟨Shuffle.refl _ _ _ _, fun h => by cases h⟩
    · rw [if_neg h1, if_neg h2]
      have hi'b : i' < b := by omega
      have hsw := Shuffle.swap d a b data i' (i' - 1) (by omega) (by omega) hb
      have hg := fun k => swapAt_getD d data i' (i' - 1) k (by omega) (by omega)
      have hlen1 : (swapAt data i' (i' - 1)).length = data.length := swapAt_length _ _ _
      -- after the exchange the prefix below `i' - 1` is untouched
      have hs1 : RSorted less d (swapAt data i' (i' - 1)) a (i' - 1) := by
        intro p q hp hpq hq
        rw [hg p, hg q, if_neg (by omega), if_neg (by omega), if_neg (by omega),
          if_neg (by omega)]
        exact hs' p q hp hpq (by omega)
      have hlow1 := hlow.shuffle hsw
      -- shift the smaller one to the left
      have hleft : Shuffle d a b (swapAt data i' (i' - 1))
            (if i' - a ≥ 2 then shiftLeft less (i' - 1) (swapAt data i' (i' - 1))
              else swapAt data i' (i' - 1))
          ∧ RSorted less d (if i' - a ≥ 2 then shiftLeft less (i' - 1) (swapAt data i' (i' - 1))
              else swapAt data i' (i' - 1)) a i' := by
        split_ifs with h3
        · rw [shiftLeft_eq]
          have := insertionInner_spec sw d 0 a (i' - 1) (Nat.zero_le _) (i' - 1)
            (swapAt data i' (i' - 1)) (by omega) (Nat.le_refl _) (by omega)
            (fun h => hlow1 h (i' - 1) (by omega) (by omega))
            (insInv_of_rsorted d _ a (i' - 1) hs1)
          rw [show i' - 1 + 1 = i' by omega] at this
          exact ⟨this.1.mono (Nat.le_refl _) (by omega), this.2⟩
        · refine ⟨Shuffle.refl _ _ _ _, ?_⟩
          intro p q hp hpq hq
          omega
      generalize (if i' - a ≥ 2 then shiftLeft less (i' - 1) (swapAt data i' (i' - 1))
              else swapAt data i' (i' - 1)) = data2 at hleft ⊢
      obtain ⟨sl, rl⟩ := hleft
      have hlen2 : data2.length = data.length := sl.length_eq.trans hlen1
      have hright : Shuffle d i' b data2
          (if b - i' ≥ 2 then shiftRight less b (b - (i' + 1)) (i' + 1) data2 else data2) := by
        split_ifs with h4
        · exact shiftRight_spec less d i' b _ _ _ (by omega) (by omega)
        · exact Shuffle.refl _ _ _ _
      generalize (if b - i' ≥ 2 then shiftRight less b (b - (i' + 1)) (i' + 1) data2 else data2)
        = data3 at hright ⊢
      have s3 : Shuffle d a b data data3 :=
        hsw.trans (sl.trans (hright.mono (by omega) (Nat.le_refl _)))
      obtain ⟨r1, r2⟩ := ih i' data3 (by omega) u2' (by rw [s3.length_eq]; exact hb)
        (rl.shuffle_outside hright (Or.inl (Nat.le_refl _))) (hlow.shuffle s3)
      exact ⟨s3.trans r1, r2⟩

theorem partialInsertionSort_func_spec {less : α → α → Bool} (sw : StrictWeak less) (d : α)
    (data : List α) (a b : Nat) (hab : a < b) (hb : b ≤ data.length)
    (hlow : LowerBound less d data a b) :
    Shuffle d a b data (partialInsertionSort_func less data a b).1
      ∧ ((partialInsertionSort_func less data a b).2 = true →
          RSorted less d (partialInsertionSort_func less data a b).1 a b) := by
  unfold partialInsertionSort_func
  exact partialInsertionLoop_spec sw d a b 5 (a + 1) data (by omega) (by omega) hb
    (by intro p q hp hpq hq; omega) hlow

theorem siftDown_func_spec {less : α → α → Bool} (sw : StrictWeak less) (d : α)
    (first lo hi : Nat) :
    ∀ (n root : Nat) (data : List α), hi - root ≤ n → first + hi ≤ data.length → lo ≤ root →
      SiftInv less d data first lo hi root →
      Shuffle d first (first + hi) data (siftDown_func less hi first n root data)
        ∧ (∀ k, lo ≤ k → HeapAt less d (siftDown_func less hi first n root data) first hi k) := by
  intro n
  induction n with
  | zero =>
    intro root data hn hlen hlo hinv
    simp only [siftDown_func]
    refine ⟨Shuffle.refl _ _ _ _, ?_⟩
    intro k hk
    by_cases hkr : k = root
    · subst hkr
      exact ⟨fun h => by omega, fun h => by omega⟩
    · exact hinv.1 k hk hkr
  | succ n ih =>
    intro root data hn hlen hlo hinv
    simp only [siftDown_func]
    by_cases hc0 : 2 * root + 1 ≥ hi
    · rw [if_pos hc0]
      refine ⟨Shuffle.refl _ _ _ _, ?_⟩
      intro k hk
      by_cases hkr : k = root
      · subst hkr
        exact ⟨fun h => by omega, fun h => by omega⟩
      · exact hinv.1 k hk hkr
    · rw [if_neg hc0]
      -- the greater child
      have hchild : ∃ c, (if (decide (2 * root + 1 + 1 < hi)
            && lessAt less data (first + (2 * root + 1)) (first + (2 * root + 1) + 1)) = true
            then 2 * root + 1 + 1 else 2 * root + 1) = c
          ∧ (c = 2 * root + 1 ∨ c = 2 * root + 2) ∧ c < hi
          ∧ (∀ c', (c' = 2 * root + 1 ∨ c' = 2 * root + 2) → c' < hi →
              less (data.getD (first + c) d) (data.getD (first + c') d) = false) := by
        by_cases h2 : 2 * root + 1 + 1 < hi
        · rw [lessAt_eq less d data _ _ (by omega) (by omega)]
          cases hl : less (data.getD (first + (2 * root + 1)) d)
            (data.getD (first + (2 * root + 1) + 1) d)
          · refine ⟨2 * root + 1, by simp [h2], Or.inl rfl, by omega, ?_⟩
            intro c' hc' hlt
            rcases hc' with h | h
            · subst h; exact sw.irrefl _
            · subst h; exact hl
          · refine ⟨2 * root + 2, by simp [h2], Or.inr rfl, by omega, ?_⟩
            intro c' hc' hlt
            rcases hc' with h | h
            · subst h; exact lt_asymm' sw hl
            · subst h; exact sw.irrefl _
        · refine ⟨2 * root + 1, by simp [h2], Or.inl rfl, by omega, ?_⟩
          intro c' hc' hlt
          rcases hc' with h | h
          · subst h; exact sw.irrefl _
          · omega
      obtain ⟨c, hce, hcc, hclt, hcmax⟩ := hchild
      rw [hce]
      rw [lessAt_eq less d data (first + root) (first + c) (by omega) (by omega)]
      cases hl : less (data.getD (first + root) d) (data.getD (first + c) d)
      · simp only [Bool.not_false, if_true]
        refine ⟨Shuffle.refl _ _ _ _, ?_⟩
        intro k hk
        by_cases hkr : k = root
        · subst hkr
          constructor
          · intro h
            exact sw.ntrans _ _ _ hl (hcmax (2 * k + 1) (Or.inl rfl) h)
          · intro h
            exact sw.ntrans _ _ _ hl (hcmax (2 * k + 2) (Or.inr rfl) h)
        · exact hinv.1 k hk hkr
      · simp only [Bool.not_true, Bool.false_eq_true, if_false]
        have hrl : first + root < data.length := by omega
        have hcl : first + c < data.length := by omega
        have hg := fun k => swapAt_getD d data (first + root) (first + c) k hrl hcl
        have hsw := Shuffle.swap d first (first + hi) data (first + root) (first + c)
          (by omega) (by omega) hlen
        obtain ⟨i1, i2⟩ := hinv
        obtain ⟨r1, r2⟩ := ih c (swapAt data (first + root) (first + c)) (by omega)
          (by rw [swapAt_length]; exact hlen) (by omega)
          (by
            constructor
            · intro k hk hkc
              by_cases hkr : k = root
              · subst hkr
                constructor
                · intro h
                  rw [hg (first + k), hg (first + (2 * k + 1)), if_neg (by omega), if_pos rfl]
                  by_cases hcc1 : 2 * k + 1 = c
                  · rw [if_pos (by omega)]
                    exact lt_asymm' sw hl
                  · rw [if_neg (by omega), if_neg (by omega)]
                    exact hcmax (2 * k + 1) (Or.inl rfl) h
                · intro h
                  rw [hg (first + k), hg (first + (2 * k + 2)), if_neg (by omega), if_pos rfl]
                  by_cases hcc1 : 2 * k + 2 = c
                  · rw [if_pos (by omega)]
                    exact lt_asymm' sw hl
                  · rw [if_neg (by omega), if_neg (by omega)]
                    exact hcmax (2 * k + 2) (Or.inr rfl) h
              · have hk' := i1 k hk hkr
                constructor
                · intro h
                  rw [hg (first + k), hg (first + (2 * k + 1)), if_neg (by omega),
                    if_neg (by omega), if_neg (by omega)]
                  by_cases hpr : 2 * k + 1 = root
                  · rw [if_pos (by omega)]
                    exact i2 k hk (Or.inl hpr.symm) c hcc hclt
                  · rw [if_neg (by omega)]
                    exact hk'.1 h
                · intro h
                  rw [hg (first + k), hg (first + (2 * k + 2)), if_neg (by omega),
                    if_neg (by omega), if_neg (by omega)]
                  by_cases hpr : 2 * k + 2 = root
                  · rw [if_pos (by omega)]
                    exact i2 k hk (Or.inr hpr.symm) c hcc hclt
                  · rw [if_neg (by omega)]
                    exact hk'.2 h
            · intro pr hpr hpc c' hc' hc'lt
              have hprr : pr = root := by omega
              subst hprr
              rw [hg (first + pr), hg (first + c'), if_neg (by omega), if_pos rfl,
                if_neg (by omega), if_neg (by omega)]
              have hcn := i1 c (by omega) (by omega)
              rcases hc' with h | h
              · subst h; exact hcn.1 hc'lt
              · subst h; exact hcn.2 hc'lt)
        exact ⟨hsw.trans r1, r2⟩

theorem heap_root_max {less : α → α → Bool} (sw : StrictWeak less) (d : α) (l : List α)
    (first hi : Nat) (h : ∀ k, HeapAt less d l first hi k) :
    ∀ k, k < hi → less (l.getD first d) (l.getD (first + k) d) = false := by
  intro k
  induction k using Nat.strong_induction_on with
  | _ k ih =>
    intro hk
    by_cases hk0 : k = 0
    · subst hk0; exact sw.irrefl _
    · have hp := ih ((k - 1) / 2) (by omega) (by omega)
      have hh := h ((k - 1) / 2)
      by_cases hodd : k = 2 * ((k - 1) / 2) + 1
      · have := hh.1 (by omega)
        rw [← hodd] at this
        exact sw.ntrans _ _ _ hp this
      · have hev : k = 2 * ((k - 1) / 2) + 2 := by omega
        have := hh.2 (by omega)
        rw [← hev] at this
        exact sw.ntrans _ _ _ hp this

theorem heapBuild_spec {less : α → α → Bool} (sw : StrictWeak less) (d : α) (first hi : Nat) :
    ∀ (i : Nat) (data : List α), first + hi ≤ data.length →
      (∀ k, i ≤ k → HeapAt less d data first hi k) →
      Shuffle d first (first + hi) data (heapBuild less hi first i data)
        ∧ (∀ k, HeapAt less d (heapBuild less hi first i data) first hi k) := by
  intro i
  induction i with
  | zero =>
    intro data hlen h
    simp only [heapBuild]
    exact ⟨Shuffle.refl _ _ _ _, fun k => h k (Nat.zero_le _)⟩
  | succ i ih =>
    intro data hlen h
    simp only [heapBuild]
    obtain ⟨s1, h1⟩ := siftDown_func_spec sw d first i hi hi i data (by omega) hlen
      (Nat.le_refl _)
      ⟨fun k hk hki => h k (by omega), fun pr hpr hpc => by omega⟩
    obtain ⟨s2, h2⟩ := ih (siftDown_func less hi first hi i data)
      (by rw [s1.length_eq]; exact hlen) h1
    exact ⟨s1.trans s2, h2⟩

theorem heapPop_spec {less : α → α → Bool} (sw : StrictWeak less) (d : α) (first hi : Nat) :
    ∀ (m : Nat) (data : List α), m ≤ hi → first + hi ≤ data.length →
      (∀ k, HeapAt less d data first m k) →
      RSorted less d data (first + m) (first + hi) →
      (∀ k t, k < m → m ≤ t → t < hi →
        less (data.getD (first + t) d) (data.getD (first + k) d) = false) →
      Shuffle d first (first + hi) data (heapPop less first m data)
        ∧ RSorted less d (heapPop less first m data) first (first + hi) := by
  intro m
  induction m with
  | zero =>
    intro data hm hlen hheap htail hle
    simp only [heapPop]
    exact ⟨Shuffle.refl _ _ _ _, htail⟩
  | succ i ih =>
    intro data hm hlen hheap htail hle
    simp only [heapPop]
    have hmax := heap_root_max sw d data first (i + 1) hheap
    have hg := fun k => swapAt_getD d data first (first + i) k (by omega) (by omega)
    have hs1 := Shuffle.swap d first (first + hi) data first (first + i) (by omega) (by omega)
      hlen
    have hlen1 : (swapAt data first (first + i)).length = data.length := swapAt_length _ _ _
    obtain ⟨s2, h2⟩ := siftDown_func_spec sw d first 0 i i 0 (swapAt data first (first + i))
      (by omega) (by omega) (Nat.le_refl _)
      ⟨(by
          intro k _ hk0
          have hk := hheap k
          constructor
          · intro h
            rw [hg (first + k), hg (first + (2 * k + 1)), if_neg (by omega), if_neg (by omega),
              if_neg (by omega), if_neg (by omega)]
            exact hk.1 (by omega)
          · intro h
            rw [hg (first + k), hg (first + (2 * k + 2)), if_neg (by omega), if_neg (by omega),
              if_neg (by omega), if_neg (by omega)]
            exact hk.2 (by omega)),
        fun pr hpr hpc => by omega⟩
    generalize hd2 : siftDown_func less i first i 0 (swapAt data first (first + i)) = data2
      at s2 h2 ⊢
    have hlen2 : data2.length = data.length := s2.length_eq.trans hlen1
    -- the values of the slice after the exchange
    have v_last : (swapAt data first (first + i)).getD (first + i) d = data.getD first d := by
      rw [hg (first + i), if_pos rfl]
    have v_tail : ∀ t, i < t → (swapAt data first (first + i)).getD (first + t) d
        = data.getD (first + t) d := by
      intro t ht
      rw [hg (first + t), if_neg (show ¬ first + t = first + i by omega),
        if_neg (show ¬ first + t = first by omega)]
    have v_heap : ∀ k, first ≤ k → k < first + i →
        ∃ k', k' < i + 1 ∧ (swapAt data first (first + i)).getD k d
          = data.getD (first + k') d := by
      intro k hk1 hk2
      rw [hg k, if_neg (show ¬ k = first + i by omega)]
      by_cases hkf : k = first
      · rw [if_pos hkf]; exact ⟨i, by omega, rfl⟩
      · rw [if_neg hkf]
        exact ⟨k - first, by omega, by rw [show first + (k - first) = k by omega]⟩
    -- every element of the shrunk heap is below the element moved to the end and the tail
    have hP : ∀ k, first ≤ k → k < first + i → ∀ t, i ≤ t → t < hi →
        less ((swapAt data first (first + i)).getD (first + t) d) (data2.getD k d) = false := by
      refine s2.inside (fun x => ∀ t, i ≤ t → t < hi →
        less ((swapAt data first (first + i)).getD (first + t) d) x = false) ?_
      intro k hk1 hk2 t ht1 ht2
      obtain ⟨k', hk', ek⟩ := v_heap k hk1 hk2
      rw [ek]
      by_cases hti : t = i
      · subst hti
        rw [v_last]
        exact hmax k' hk'
      · rw [v_tail t (by omega)]
        exact hle k' t hk' (by omega) ht2
    have hout : ∀ t, i ≤ t → t < hi →
        data2.getD (first + t) d = (swapAt data first (first + i)).getD (first + t) d :=
      fun t h1 h2 => s2.outside (first + t) (by omega)
    obtain ⟨s3, r3⟩ := ih data2 (by omega) (by omega) (fun k => h2 k (Nat.zero_le _))
      (by
        intro p q hp hpq hq
        obtain ⟨p', rfl⟩ : ∃ p', p = first + p' := ⟨p - first, by omega⟩
        obtain ⟨q', rfl⟩ : ∃ q', q = first + q' := ⟨q - first, by omega⟩
        rw [hout p' (by omega) (by omega), hout q' (by omega) (by omega),
          v_tail q' (by omega)]
        by_cases hpi : p' = i
        · subst hpi
          rw [v_last]
          have := hle 0 q' (by omega) (by omega) (by omega)
          exact this
        · rw [v_tail p' (by omega)]
          exact htail (first + p') (first + q') (by omega) (by omega) (by omega))
      (by
        intro k t hk ht1 ht2
        rw [hout t ht1 ht2]
        exact hP (first + k) (by omega) (by omega) t ht1 ht2)
    exact ⟨hs1.trans ((s2.mono (Nat.le_refl _) (by omega)).trans s3), r3⟩

theorem heapSort_func_spec {less : α → α → Bool} (sw : StrictWeak less) (d : α)
    (data : List α) (a b : Nat) (hab : a ≤ b) (hb : b ≤ data.length) :
    Shuffle d a b data (heapSort_func less data a b)
      ∧ RSorted less d (heapSort_func less data a b) a b := by
  unfold heapSort_func
  simp only
  obtain ⟨s1, h1⟩ := heapBuild_spec sw d a (b - a) ((b - a - 1) / 2 + 1) data (by omega)
    (fun k hk => ⟨fun h => by omega, fun h => by omega⟩)
  obtain ⟨s2, r2⟩ := heapPop_spec sw d a (b - a) (b - a) _ (Nat.le_refl _)
    (by rw [s1.length_eq]; omega) h1 (by intro p q hp hpq hq; omega)
    (by intro k t hk ht1 ht2; omega)
  rw [show a + (b - a) = b by omega] at s1 s2 r2
  exact ⟨s1.trans s2, r2⟩

theorem rsorted_combine {less : α → α → Bool} (sw : StrictWeak less) (d : α) (out : List α)
    (a mid b : Nat) (hl : RSorted less d out a mid) (hr : RSorted less d out (mid + 1) b)
    (hL : ∀ k, a ≤ k → k < mid → less (out.getD k d) (out.getD mid d) = true)
    (hR : ∀ k, mid < k → k < b → less (out.getD k d) (out.getD mid d) = false) :
    RSorted less d out a b := by
  intro i j hi hij hj
  by_cases h1 : j < mid
  · exact hl i j hi hij h1
  by_cases h2 : j = mid
  · subst h2
    exact lt_asymm' sw (hL i hi hij)
  by_cases h3 : i < mid
  · cases h : less (out.getD j d) (out.getD i d)
    · rfl
    · have := sw.trans _ _ _ h (hL i hi h3)
      rw [hR j (by omega) hj] at this
      cases this
  by_cases h4 : i = mid
  · subst h4
    exact hR j (by omega) hj
  · exact hr i j (by omega) hij hj

theorem rsorted_combine_equal {less : α → α → Bool} (sw : StrictWeak less) (d : α)
    (out : List α) (p : α) (a mid b : Nat) (hr : RSorted less d out mid b)
    (hE1 : ∀ k, a ≤ k → k < mid → less p (out.getD k d) = false)
    (hE2 : ∀ k, a ≤ k → k < mid → less (out.getD k d) p = false)
    (hG : ∀ k, mid ≤ k → k < b → less p (out.getD k d) = true) :
    RSorted less d out a b := by
  intro i j hi hij hj
  by_cases h1 : mid ≤ i
  · exact hr i j h1 hij hj
  by_cases h2 : j < mid
  · exact sw.ntrans _ _ _ (hE2 j (by omega) h2) (hE1 i hi (by omega))
  · cases h : less (out.getD j d) (out.getD i d)
    · rfl
    · have := sw.trans _ _ _ (hG j (by omega) hj) h
      rw [hE1 i hi (by omega)] at this
      cases this

theorem LowerBound.shrink {less : α → α → Bool} {d : α} {l : List α} {a b b' : Nat}
    (h : LowerBound less d l a b) (hb : b' ≤ b) : LowerBound less d l a b' :=
  fun ha k hk1 hk2 => h ha k hk1 (by omega)

theorem pdqsort_func_spec {less : α → α → Bool} (sw : StrictWeak less) (d : α) :
    ∀ (fuel : Nat) (data : List α) (a b limit : Nat) (wasBalanced wasPartitioned : Bool),
      a ≤ b → b ≤ data.length → b - a < fuel → LowerBound less d data a b →
      ∃ out, pdqsort_func less fuel data a b limit wasBalanced wasPartitioned = some out
        ∧ Shuffle d a b data out ∧ RSorted less d out a b := by
  intro fuel
  induction fuel with
  | zero => intro data a b limit wb wp hab hb hf; omega
  | succ fuel ih =>
    intro data a b limit wb wp hab hb hf hlow
    rw [pdqsort_func]
    lift_lets
    extract_lets data1 limit1 chosen data2 pivot hint attempt data3 equal parted mid leftLen rightLen balanceThreshold
    by_cases h12 : b - a ≤ 12
    · rw [if_pos h12]
      obtain ⟨s, r⟩ := insertionSort_func_spec sw d data a b hb
      exact ⟨_, rfl, s, r⟩
    rw [if_neg h12]
    by_cases hl0 : limit = 0
    · rw [if_pos hl0]
      obtain ⟨s, r⟩ := heapSort_func_spec sw d data a b hab hb
      exact ⟨_, rfl, s, r⟩
    rw [if_neg hl0]
    have s1 : Shuffle d a b data data1 := by
      simp only [data1]
      split_ifs
      · exact breakPatterns_func_spec d data a b hb
      · exact Shuffle.refl _ _ _ _
    have hch : a ≤ chosen.1 ∧ chosen.1 < b := choosePivot_func_range less data1 a b (by omega)
    have s2 : Shuffle d a b data1 data2 := by
      simp only [data2]
      split_ifs
      · exact reverseRange_func_spec d data1 a b (by omega) (by rw [s1.length_eq]; exact hb)
      · exact Shuffle.refl _ _ _ _
    have hpiv : a ≤ pivot ∧ pivot < b := by
      simp only [pivot]
      split_ifs <;> omega
    have s12 := s1.trans s2
    have s3 : Shuffle d a b data2 attempt.1
        ∧ (attempt.2 = true → RSorted less d attempt.1 a b) := by
      simp only [attempt]
      split_ifs
      · exact partialInsertionSort_func_spec sw d data2 a b (by omega)
          (by rw [s12.length_eq]; exact hb) (hlow.shuffle s12)
      · exact ⟨Shuffle.refl _ _ _ _, fun h => by cases h⟩
    have hd3 : data3 = attempt.1 := rfl
    have heq : equal = partitionEqual_func less data3 a b pivot := rfl
    have hpr : parted = partition_func less data3 a b pivot := rfl
    have hmid : mid = parted.2.1 := rfl
    have hleft : leftLen = mid - a := rfl
    have hright : rightLen = b - mid := rfl
    clear_value balanceThreshold rightLen leftLen mid parted equal data3 attempt hint pivot data2
      chosen limit1 data1
    by_cases hat : attempt.2 = true
    · rw [if_pos hat]
      exact ⟨_, rfl, s12.trans s3.1, s3.2 hat⟩
    rw [if_neg hat]
    have S : Shuffle d a b data data3 := by rw [hd3]; exact s12.trans s3.1
    have hlow3 := hlow.shuffle S
    have hlen3 : b ≤ data3.length := by rw [S.length_eq]; exact hb
    clear s1 s2 s12 s3 hd3 hat hch
    by_cases hpe : (decide (a > 0) && !lessAt less data3 (a - 1) pivot) = true
    · rw [if_pos hpe]
      simp only [Bool.and_eq_true, decide_eq_true_eq, Bool.not_eq_true'] at hpe
      obtain ⟨ha0, hle⟩ := hpe
      rw [lessAt_eq less d data3 (a - 1) pivot (by omega) (by omega)] at hle
      obtain ⟨e1, e2, e3, e4, e5⟩ := partitionEqual_func_spec sw d data3 a b pivot hpiv.1 hpiv.2
        hlen3
      rw [← heq] at e1 e2 e3 e4 e5
      have hsm : ∀ k, a ≤ k → k < b → less (equal.1.getD k d) (data3.getD pivot d) = false := by
        refine e1.inside (fun x => less x (data3.getD pivot d) = false) ?_
        intro k hk1 hk2
        exact sw.ntrans _ _ _ (hlow3 ha0 k hk1 hk2) hle
      obtain ⟨out, o1, o2, o3⟩ := ih equal.1 equal.2 b limit1 wb wp e3
        (by rw [e1.length_eq]; exact hlen3) (by omega)
        (by
          intro _ k hk1 hk2
          cases h : less (equal.1.getD k d) (equal.1.getD (equal.2 - 1) d)
          · rfl
          · have := sw.trans _ _ _ (e5 k hk1 hk2) h
            rw [e4 (equal.2 - 1) (by omega) (by omega)] at this
            cases this)
      refine ⟨out, o1, S.trans (e1.trans (o2.mono (by omega) (Nat.le_refl _))), ?_⟩
      refine rsorted_combine_equal sw d out (data3.getD pivot d) a equal.2 b o3 ?_ ?_ ?_
      · intro k hk1 hk2
        rw [o2.outside k (by omega)]
        exact e4 k hk1 hk2
      · intro k hk1 hk2
        rw [o2.outside k (by omega)]
        exact hsm k hk1 (by omega)
      · exact o2.inside (fun x => less (data3.getD pivot d) x = true) e5
    rw [if_neg hpe]
    obtain ⟨p1, p2, p3, p4, p5⟩ := partition_func_spec sw d data3 a b pivot hpiv.1 hpiv.2 hlen3
    rw [← hpr] at p1 p2 p3 p4 p5
    rw [← hmid] at p2 p3 p4 p5
    have hlenp : b ≤ parted.1.length := by rw [p1.length_eq]; exact hlen3
    have hlowp := hlow3.shuffle p1
    clear hpe hmid hpr heq hlow3 hlow
    by_cases hlr : leftLen < rightLen
    · rw [if_pos hlr]
      obtain ⟨data4, q1, q2, q3⟩ := ih parted.1 a mid limit1 true true p2 (by omega) (by omega)
        (hlowp.shrink (by omega))
      rw [q1]
      dsimp only
      have hlen4 : b ≤ data4.length := by rw [q2.length_eq]; exact hlenp
      have hm4 : data4.getD mid d = parted.1.getD mid d := q2.outside mid (by omega)
      obtain ⟨out, o1, o2, o3⟩ := ih data4 (mid + 1) b limit1
        (decide (leftLen ≥ balanceThreshold)) parted.2.2 (by omega) hlen4 (by omega)
        (by
          intro _ k hk1 hk2
          rw [Nat.add_sub_cancel, q2.outside k (by omega), hm4]
          exact p5 k (by omega) hk2)
      have hmo : out.getD mid d = parted.1.getD mid d := by
        rw [o2.outside mid (by omega), hm4]
      refine ⟨out, o1, S.trans (p1.trans ((q2.mono (Nat.le_refl _) (by omega)).trans
        (o2.mono (by omega) (Nat.le_refl _)))), ?_⟩
      refine rsorted_combine sw d out a mid b (q3.shuffle_outside o2 (Or.inl (by omega))) o3 ?_ ?_
      · intro k hk1 hk2
        rw [hmo, o2.outside k (by omega)]
        exact q2.inside (fun x => less x (parted.1.getD mid d) = true) p4 k hk1 hk2
      · intro k hk1 hk2
        rw [hmo]
        refine o2.inside (fun x => less x (parted.1.getD mid d) = false) ?_ k (by omega) hk2
        intro k' h1 h2
        rw [q2.outside k' (by omega)]
        exact p5 k' (by omega) h2
    · rw [if_neg hlr]
      obtain ⟨data4, q1, q2, q3⟩ := ih parted.1 (mid + 1) b limit1 true true (by omega) hlenp
        (by omega)
        (by
          intro _ k hk1 hk2
          rw [Nat.add_sub_cancel]
          exact p5 k (by omega) hk2)
      rw [q1]
      dsimp only
      have hlen4 : b ≤ data4.length := by rw [q2.length_eq]; exact hlenp
      have hm4 : data4.getD mid d = parted.1.getD mid d := q2.outside mid (by omega)
      obtain ⟨out, o1, o2, o3⟩ := ih data4 a mid limit1
        (decide (rightLen ≥ balanceThreshold)) parted.2.2 p2 (by omega) (by omega)
        ((hlowp.shuffle (q2.mono (by omega) (Nat.le_refl _))).shrink (by omega))
      have hmo : out.getD mid d = parted.1.getD mid d := by
        rw [o2.outside mid (by omega), hm4]
      refine ⟨out, o1, S.trans (p1.trans ((q2.mono (by omega) (Nat.le_refl _)).trans
        (o2.mono (Nat.le_refl _) (by omega)))), ?_⟩
      refine rsorted_combine sw d out a mid b o3 (q3.shuffle_outside o2 (Or.inr (by omega))) ?_ ?_
      · intro k hk1 hk2
        rw [hmo]
        refine o2.inside (fun x => less x (parted.1.getD mid d) = true) ?_ k hk1 hk2
        intro k' h1 h2
        rw [q2.outside k' (by omega)]
        exact p4 k' h1 h2
      · intro k hk1 hk2
        rw [hmo, o2.outside k (by omega)]
        exact q2.inside (fun x => less x (parted.1.getD mid d) = false)
          (fun k' h1 h2 => p5 k' (by omega) h2) k (by omega) hk2

theorem pairwise_of_rsorted {less : α → α → Bool} (d : α) (l : List α)
    (h : RSorted less d l 0 l.length) : l.Pairwise (fun p q => less q p = false) := by
  rw [List.pairwise_iff_getElem]
  intro i j hi hj hij
  have := h i j (Nat.zero_le _) hij hj
  rw [List.getD_eq_getElem l d hi, List.getD_eq_getElem l d hj] at this
  exact this

/-- The call of `sort.Slice` returns, and returns a sorted permutation of its argument. -/
theorem Slice_spec {less : α → α → Bool} (sw : StrictWeak less) (x : List α) :
    ∃ out, Slice less x = some out ∧ out.Perm x
      ∧ out.Pairwise (fun p q => less q p = false) := by
  cases x with
  | nil => exact ⟨[], rfl, List.Perm.refl _, List.Pairwise.nil⟩
  | cons d xs =>
    obtain ⟨out, h1, h2, h3⟩ := pdqsort_func_spec sw d ((d :: xs).length + 1) (d :: xs) 0
      (d :: xs).length (bitsLen (d :: xs).length) true true (Nat.zero_le _) (Nat.le_refl _)
      (by omega) (fun h => absurd h (Nat.lt_irrefl _))
    refine ⟨out, h1, h2.perm, pairwise_of_rsorted d out ?_⟩
    rw [h2.length_eq]
    exact h3

/-! ### stability of the insertion sort -/

theorem tie_trans {less : α → α → Bool} (sw : StrictWeak less) {e x y : α}
    (hx : tie less e x = true) (hy : tie less e y = true) : less y x = false := by
  simp only [tie, Bool.and_eq_true, Bool.not_eq_true'] at hx hy
  exact sw.ntrans _ _ _ hy.2 hx.1

theorem swapAt_adjacent (l : List α) (j : Nat) (x y : α) (hx : l[j]? = some x)
    (hy : l[j + 1]? = some y) :
    l = l.take j ++ x :: y :: l.drop (j + 2)
      ∧ swapAt l (j + 1) j = l.take j ++ y :: x :: l.drop (j + 2) := by
  induction l generalizing j with
  | nil => simp at hx
  | cons a l ih =>
    cases j with
    | zero =>
      cases l with
      | nil => simp at hy
      | cons b l =>
        simp only [List.getElem?_cons_zero, Option.some.injEq] at hx
        simp only [zero_add, List.getElem?_cons_succ, List.getElem?_cons_zero,
          Option.some.injEq] at hy
        subst hx hy
        simp [swapAt]
    | succ j =>
      simp only [List.getElem?_cons_succ] at hx hy
      obtain ⟨e1, e2⟩ := ih j hx hy
      constructor
      · simp only [List.take_succ_cons, List.drop_succ_cons, List.cons_append]
        rw [← e1]
      · have : swapAt (a :: l) (j + 1 + 1) (j + 1) = a :: swapAt l (j + 1) j := by
          simp only [swapAt, List.getElem?_cons_succ, hx, hy, List.set_cons_succ]
        rw [this, e2]
        simp

theorem filter_swap_adjacent {less : α → α → Bool} (sw : StrictWeak less) (d : α)
    (l : List α) (j : Nat) (hj : j + 1 < l.length)
    (hlt : less (l.getD (j + 1) d) (l.getD j d) = true) (e : α) :
    (swapAt l (j + 1) j).filter (tie less e) = l.filter (tie less e) := by
  obtain ⟨e1, e2⟩ := swapAt_adjacent l j (l.getD j d) (l.getD (j + 1) d)
    (getElem?_of_lt d (by omega)) (getElem?_of_lt d hj)
  rw [e2]
  conv_rhs => rw [e1]
  simp only [List.filter_append, List.filter_cons]
  congr 1
  cases hx : tie less e (l.getD j d) <;> cases hy : tie less e (l.getD (j + 1) d) <;>
    simp only [if_true, if_false, Bool.false_eq_true]
  have := tie_trans sw hx hy
  rw [hlt] at this
  cases this

theorem insertionInner_stable {less : α → α → Bool} (sw : StrictWeak less) (d : α) (a : Nat)
    (e : α) :
    ∀ (j : Nat) (data : List α), j < data.length →
      (insertionInner less a j data).filter (tie less e) = data.filter (tie less e) := by
  intro j
  induction j with
  | zero => intro data _; rfl
  | succ j ih =>
    intro data hj
    simp only [insertionInner]
    split_ifs with hc
    · simp only [Bool.and_eq_true, decide_eq_true_eq] at hc
      rw [lessAt_eq less d data (j + 1) j hj (by omega)] at hc
      rw [ih _ (by rw [swapAt_length]; omega)]
      exact filter_swap_adjacent sw d data j hj hc.2 e
    · rfl

theorem insertionInner_length (less : α → α → Bool) (a : Nat) :
    ∀ (j : Nat) (data : List α), (insertionInner less a j data).length = data.length := by
  intro j
  induction j with
  | zero => intro data; rfl
  | succ j ih =>
    intro data
    simp only [insertionInner]
    split_ifs
    · rw [ih, swapAt_length]
    · rfl

theorem insertionOuter_stable {less : α → α → Bool} (sw : StrictWeak less) (d : α) (a b : Nat)
    (e : α) :
    ∀ (n i : Nat) (data : List α), b ≤ data.length →
      (insertionOuter less a b n i data).filter (tie less e) = data.filter (tie less e) := by
  intro n
  induction n with
  | zero => intro i data _; rfl
  | succ n ih =>
    intro i data hb
    simp only [insertionOuter]
    split_ifs with hc
    · rw [ih _ _ (by rw [insertionInner_length]; exact hb)]
      exact insertionInner_stable sw d a e i data (by omega)
    · rfl

/-- For at most twelve elements `sort.Slice` is an insertion sort, which is
stable. -/
theorem Slice_stable_small {less : α → α → Bool} (sw : StrictWeak less) (x : List α)
    (h : x.length ≤ 12) :
    ∃ out, Slice less x = some out ∧ Stable less x out := by
  refine ⟨insertionSort_func less x 0 x.length, ?_, ?_⟩
  · unfold Slice
    simp only [pdqsort_func]
    rw [if_pos (by omega)]
  · intro e
    cases x with
    | nil => rfl
    | cons d xs =>
      unfold insertionSort_func
      exact insertionOuter_stable sw d 0 _ e _ _ _ (Nat.le_refl _)

/-! ### the two orders of `main` -/

theorem stringLess_irrefl : ∀ s : Bytes, stringLess s s = false := by
  intro s
  induction s with
  | nil => rfl
  | cons x s ih => simp [stringLess, ih]

theorem stringLess_trans : ∀ s t u : Bytes,
    stringLess s t = true → stringLess t u = true → stringLess s u = true := by
  intro s
  induction s with
  | nil =>
    intro t u h1 h2
    cases t with
    | nil => simp [stringLess] at h1
    | cons y t =>
      cases u with
      | nil => simp [stringLess] at h2
      | cons z u => rfl
  | cons x s ih =>
    intro t u h1 h2
    cases t with
    | nil => simp [stringLess] at h1
    | cons y t =>
      cases u with
      | nil => simp [stringLess] at h2
      | cons z u =>
        simp only [stringLess] at h1 h2 ⊢
        split_ifs at h1 h2 ⊢ <;> first | rfl | omega | (exact ih t u h1 h2)

theorem stringLess_ntrans : ∀ s t u : Bytes,
    stringLess s t = false → stringLess t u = false → stringLess s u = false := by
  intro s
  induction s with
  | nil =>
    intro t u h1 h2
    cases t with
    | nil => exact h2
    | cons y t => simp [stringLess] at h1
  | cons x s ih =>
    intro t u h1 h2
    cases t with
    | nil =>
      cases u with
      | nil => rfl
      | cons z u => simp [stringLess] at h2
    | cons y t =>
      cases u with
      | nil => rfl
      | cons z u =>
        simp only [stringLess] at h1 h2 ⊢
        split_ifs at h1 h2 ⊢ <;> first | rfl | omega | (exact ih t u h1 h2)

theorem lessByIssuer_strictWeak : StrictWeak lessByIssuer :=
  ⟨fun x => stringLess_irrefl _, fun x y z => stringLess_trans _ _ _,
    fun x y z => stringLess_ntrans _ _ _⟩

theorem lessByExpiration_strictWeak : StrictWeak lessByExpiration := by
  refine ⟨?_, ?_, ?_⟩
  · intro x
    simp [lessByExpiration, Time.Before]
  · intro x y z h1 h2
    simp only [lessByExpiration, Time.Before, Bool.or_eq_true, Bool.and_eq_true,
      decide_eq_true_eq] at h1 h2 ⊢
    omega
  · intro x y z h1 h2
    simp only [lessByExpiration, Time.Before, Bool.or_eq_false_iff, Bool.and_eq_false_iff,
      decide_eq_false_iff_not] at h1 h2 ⊢
    omega

end SortLemmas

/-! ## Lemmas: the program -/

theorem ToLower_issuer (f : Bytes → Bytes) : ToLower f (ascii "issuer") = ascii "issuer" := by
  rfl

theorem ToLower_expiration (f : Bytes → Bytes) :
    ToLower f (ascii "expiration") = ascii "expiration" := by
  rfl

theorem sortCerts_issuer (w : World) (certs : List Certificate) :
    sortCerts w (ascii "issuer") certs = some (Slice lessByIssuer certs) := by
  unfold sortCerts
  simp only [ToLower_issuer, if_true]

theorem sortCerts_expiration (w : World) (certs : List Certificate) :
    sortCerts w (ascii "expiration") certs = some (Slice lessByExpiration certs) := by
  unfold sortCerts
  simp only [ToLower_expiration]
  rw [if_neg (by decide)]
  simp

theorem sortCerts_total (w : World) (sortBy : Bytes) (certs : List Certificate) :
    sortCerts w sortBy certs = none
      ∨ ∃ out, sortCerts w sortBy certs = some (some out) ∧ out.Perm certs := by
  unfold sortCerts
  simp only
  split_ifs
  · obtain ⟨out, h1, h2, _⟩ := Slice_spec lessByIssuer_strictWeak certs
    exact Or.inr ⟨out, by rw [h1], h2⟩
  · obtain ⟨out, h1, h2, _⟩ := Slice_spec lessByExpiration_strictWeak certs
    exact Or.inr ⟨out, by rw [h1], h2⟩
  · exact Or.inl rfl

/-- After a successful fetch `main` sorts, if asked to, and renders. -/
theorem main_eq (w : World) (flags : Flags) (certs : List Certificate)
    (hurl : flags.url ≠ []) (hfetch : fetchCertificates w flags.url = .ok certs) :
    main w flags =
      if flags.sort ≠ [] then
        match sortCerts w flags.sort certs with
        | none => some ⟨[.searching flags.url, .invalidSort], 1, none⟩
        | some none => none
        | some (some certs) => some (render w flags certs [.searching flags.url])
      else some (render w flags certs [.searching flags.url]) := by
  unfold main
  rw [if_neg hurl]
  simp only [hfetch]
  rfl

theorem main_eq_error (w : World) (flags : Flags) (e : FetchError)
    (hurl : flags.url ≠ []) (hfetch : fetchCertificates w flags.url = .error e) :
    main w flags = some ⟨[.searching flags.url, .fetchError e], 1, none⟩ := by
  unfold main
  rw [if_neg hurl]
  simp only [hfetch]
  rfl

/-- Totality of `main`: it returns an outcome for every world and all flag values. -/
theorem main_total (w : World) (flags : Flags) : ∃ o, main w flags = some o := by
  by_cases h1 : flags.url = []
  · unfold main
    rw [if_pos h1]
    exact ⟨_, rfl⟩
  · cases hf : fetchCertificates w flags.url with
    | error e => exact ⟨_, main_eq_error w flags e h1 hf⟩
    | ok certs =>
      rw [main_eq w flags certs h1 hf]
      by_cases h2 : flags.sort ≠ []
      · rw [if_pos h2]
        rcases sortCerts_total w flags.sort certs with h | ⟨out, h, _⟩
        · rw [h]; exact ⟨_, rfl⟩
        · rw [h]; exact ⟨_, rfl⟩
      · rw [if_neg h2]
        exact ⟨_, rfl⟩

theorem yday_eq_zero (year : Int) (m d : Nat) (hm : 1 ≤ m ∧ m ≤ 12) (hd : 1 ≤ d)
    (h : yday year m d = 0) : m = 1 ∧ d = 1 := by
  have hc := yday_cast year m d hm hd
  rw [h] at hc
  obtain ⟨hb0, hb1, hb2, hb3, hb4, hb5, hb6⟩ := daysBefore_bounds m hm
  by_cases h3 : 3 ≤ m
  · have := hb6 h3
    split_ifs at hc <;> omega
  · by_cases h2 : m = 2
    · have := (hb4 h2).1
      split_ifs at hc <;> omega
    · refine ⟨by omega, ?_⟩
      split_ifs at hc <;> omega

/-- A valid timestamp of year 1 or later denotes an instant that is not before the
zero time, and is the zero time only for `0001-01-01T00:00:00`. -/
theorem Date_after_zero (y m d H M S ns : Nat) (hy : 1 ≤ y ∧ y < 10000)
    (hm : 1 ≤ m ∧ m ≤ 12) (hd : 1 ≤ d ∧ (d : Int) ≤ daysIn m y) (hH : H < 24) (hM : M < 60)
    (hS : S < 60) (hns : ns < 1000000000) :
    Time.zero.Before (Date y m d H M S ns) = true
      ∨ (y = 1 ∧ m = 1 ∧ d = 1 ∧ H = 0 ∧ M = 0 ∧ S = 0 ∧ ns = 0) := by
  have hd31 : d ≤ 31 := by
    have := daysIn_le m y hm
    omega
  rw [Date_eq y m d H M S ns hm ⟨hd.1, hd31⟩ hH hM hS hns hy.2]
  have hY : (y : Int) - absoluteZeroYear = ((y + 292277022399 : Nat) : Int) := by
    simp only [absoluteZeroYear]; push_cast; omega
  have hsp := yearSplit_exists (y + 292277022399)
  have hs := daysSinceEpoch_split y _ _ _ _ _ hY (by omega) hsp
  generalize (y + 292277022399) / 400 = q at hsp hs
  generalize (y + 292277022399) % 400 / 100 = a at hsp hs
  generalize (y + 292277022399) % 400 % 100 / 4 = b at hsp hs
  generalize (y + 292277022399) % 400 % 100 % 4 = c at hsp hs
  obtain ⟨e, ha, hb, hc⟩ := hsp
  have hq : 730692556 ≤ q := by omega
  have hD : 106751990353932 ≤ daysSinceEpoch y
      ∧ (daysSinceEpoch y = 106751990353932 → y = 1) := by
    constructor
    · omega
    · intro h
      have h1 : q = 730692556 := by omega
      have h2 : a = 0 := by omega
      have h3 : b = 0 := by omega
      have h4 : c = 0 := by omega
      omega
  clear hs e hq
  generalize daysSinceEpoch y = D at hD
  have hz := yday_eq_zero y m d hm hd.1
  generalize yday y m d = W at hz
  simp only [Time.Before, Time.zero, absoluteToInternal, Bool.or_eq_true, Bool.and_eq_true,
    decide_eq_true_eq]
  by_cases h0 : D = 106751990353932 ∧ W = 0 ∧ H = 0 ∧ M = 0 ∧ S = 0 ∧ ns = 0
  · right
    obtain ⟨h1, h2, h3, h4, h5, h6⟩ := h0
    have := hz h2
    have := hD.2 h1
    omega
  · left
    push_cast
    omega

theorem daysSinceEpoch_zero : daysSinceEpoch 0 = 106751990353566 := by decide

/-- A valid timestamp of year 0 denotes an instant before the zero time. -/
theorem Date_before_zero (m d H M S ns : Nat) (hm : 1 ≤ m ∧ m ≤ 12)
    (hd : 1 ≤ d ∧ (d : Int) ≤ daysIn m 0) (hH : H < 24) (hM : M < 60) (hS : S < 60)
    (hns : ns < 1000000000) :
    (Date ((0 : Nat) : Int) m d H M S ns).Before Time.zero = true := by
  have hd31 : d ≤ 31 := by
    have := daysIn_le m 0 hm
    omega
  rw [Date_eq 0 m d H M S ns hm ⟨hd.1, hd31⟩ hH hM hS hns (by decide)]
  have hw := yday_lt 0 m d hm hd
  have hleap : isLeap 0 = true := by decide
  rw [hleap] at hw
  simp only [if_true] at hw
  simp only [Nat.cast_zero] at *
  rw [daysSinceEpoch_zero]
  generalize yday 0 m d = W at hw
  simp only [Time.Before, Time.zero, absoluteToInternal, Bool.or_eq_true, Bool.and_eq_true,
    decide_eq_true_eq]
  left
  push_cast
  omega

theorem Date_one : Date ((1 : Nat) : Int) ((1 : Nat) : Int) ((1 : Nat) : Int) ((0 : Nat) : Int)
    ((0 : Nat) : Int) ((0 : Nat) : Int) ((0 : Nat) : Int) = Time.zero := by decide

/-- The instant decoded from a non-empty timestamp, against the zero time. -/
theorem decoded_order (ct : CustomTime) (b : Bytes) (t : Time) (hne : Trim b 34 ≠ [])
    (h : ct.UnmarshalJSON b = (⟨t⟩, none)) :
    ((Trim b 34).take 4 = ascii "0000" → t.Before Time.zero = true)
      ∧ ((Trim b 34).take 4 ≠ ascii "0000" → zeroStamp (Trim b 34) = false →
          Time.zero.Before t = true)
      ∧ (zeroStamp (Trim b 34) = true → t = Time.zero) := by
  have hacc : accepted (Trim b 34) = true :=
    (unmarshal_ok_iff ct b hne).mp (by rw [h])
  obtain ⟨y, m, d, H, M, S, ns, hy, hm, hd, hH, hM, hS, hns, hp, hy0, hz⟩ :=
    accepted_value _ hacc
  have ht : t = Date y m d H M S ns := by
    unfold CustomTime.UnmarshalJSON at h
    simp only at h
    rw [if_neg hne, hp] at h
    simp only [Prod.mk.injEq, and_true] at h
    exact (congrArg CustomTime.Time h).symm
  refine ⟨?_, ?_, ?_⟩
  · intro h0
    have hy' := hy0.mpr h0
    subst hy'
    rw [ht]
    exact Date_before_zero m d H M S ns hm hd hH hM hS hns
  · intro h0 hnz
    have hy1 : 1 ≤ y := by
      rcases Nat.eq_zero_or_pos y with e | e
      · exact absurd (hy0.mp e) h0
      · exact e
    rcases Date_after_zero y m d H M S ns ⟨hy1, hy⟩ hm hd hH hM hS hns with hb | hb
    · rw [ht]; exact hb
    · rw [hz.mp hb] at hnz
      cases hnz
  · intro hzs
    obtain ⟨e1, e2, e3, e4, e5, e6, e7⟩ := hz.mpr hzs
    subst e1 e2 e3 e4 e5 e6 e7
    rw [ht]
    exact Date_one

/-- In a slice sorted by not-after, a record with a strictly earlier not-after
comes first. -/
theorem earlier_first (out : List Certificate)
    (hs : out.Pairwise (fun p q => q.NotAfter.Time.Before p.NotAfter.Time = false))
    (i j : Nat) (p q : Certificate) (hp : out[i]? = some p) (hq : out[j]? = some q)
    (hlt : p.NotAfter.Time.Before q.NotAfter.Time = true) : i < j := by
  by_contra hij
  have hi : i < out.length := by
    by_contra h; rw [List.getElem?_eq_none (by omega)] at hp; cases hp
  have hj : j < out.length := by
    by_contra h; rw [List.getElem?_eq_none (by omega)] at hq; cases hq
  rw [List.getElem?_eq_getElem hi] at hp
  rw [List.getElem?_eq_getElem hj] at hq
  have hp' := Option.some.inj hp
  have hq' := Option.some.inj hq
  by_cases h : j = i
  · subst h
    rw [hp'] at hq'
    subst hq'
    have := lessByExpiration_strictWeak.irrefl p
    unfold lessByExpiration at this
    rw [this] at hlt
    cases hlt
  · have := (List.pairwise_iff_getElem.mp hs) j i hj hi (by omega)
    rw [hp', hq', hlt] at this
    cases this

/-- Samples of `zeroStamp`. -/
theorem zeroStamp_examples :
    zeroStamp (ascii "0001-01-01T00:00:00") = true
      ∧ zeroStamp (ascii "0001-01-01T0:00:00") = true
      ∧ zeroStamp (ascii "0001-01-01T00:00:00.0000000001") = true
      ∧ zeroStamp (ascii "0001-01-01T00:00:00,000") = true
      ∧ zeroStamp (ascii "0001-01-01T00:00:00.001") = false
      ∧ zeroStamp (ascii "0001-01-01T00:00:01") = false
      ∧ zeroStamp (ascii "0001-01-02T00:00:00") = false := by
  decide

theorem printCertificate_eq (w : Bytes) (cert : Certificate) (verbose : Bool) :
    printCertificate w cert verbose = w ++ block cert verbose := by
  cases verbose <;>
    simp [printCertificate, block, fieldLines, List.append_assoc]

theorem printCertificates_eq (w : Bytes) (certs : List Certificate) (verbose : Bool) :
    printCertificates w certs verbose
      = w ++ (certs.map fun c => block c verbose).flatten := by
  unfold printCertificates
  induction certs generalizing w with
  | nil => simp
  | cons c cs ih =>
    simp only [List.foldl_cons, List.map_cons, List.flatten_cons]
    rw [ih, printCertificate_eq, List.append_assoc]

theorem render_rendered (w : World) (flags : Flags) (certs : List Certificate)
    (printed : List Printed) (hp : ∀ p ∈ printed, ∀ t, p ≠ .records t)
    (hout : flags.output = [] ∨ w.osCreate flags.output = .ok ()) :
    (render w flags certs printed).exit = 0
      ∧ (render w flags certs printed).rendered = [printCertificates [] certs flags.v] := by
  have hnone : printed.filterMap (fun p => match p with
      | .records text => some text
      | _ => none) = [] := by
    rw [List.filterMap_eq_nil_iff]
    intro p hpm
    cases p <;> first | rfl | exact absurd rfl (hp _ hpm _)
  unfold render
  by_cases ho : flags.output = []
  · rw [if_neg (by simpa using ho)]
    simp [Outcome.rendered, List.filterMap_append, hnone, List.filterMap_cons]
  · rw [if_pos ho]
    rcases hout with h | h
    · exact absurd h ho
    · rw [h]
      simp [Outcome.rendered, List.filterMap_append, hnone, List.filterMap_cons]

/-! ## Lemmas: errors while decoding -/

/-- An error of `UnmarshalJSON` on one member stops the decoding of the object. -/
theorem decodeMembers_error (lib : JSONLib) (key : Bytes) (v : JSON) (f : TimeField)
    (hfield : lib.field key = some (.time f))
    (hbad : ∀ ct : CustomTime, ∃ e, (ct.UnmarshalJSON v.raw).2 = some e)
    (members : List (Bytes × JSON)) (hmem : (key, v) ∈ members) (c : Certificate)
    (saved : Bool) : ∃ e, decodeMembers lib members c saved = .error e := by
  induction members generalizing c saved with
  | nil => cases hmem
  | cons kv rest ih =>
    obtain ⟨k, x⟩ := kv
    have step : (k, x) = (key, v) ∨ (key, v) ∈ rest := by
      rcases List.mem_cons.mp hmem with h | h
      · exact Or.inl h.symm
      · exact Or.inr h
    unfold decodeMembers
    rcases step with h | h
    · cases h
      rw [hfield]
      simp only
      obtain ⟨e, he⟩ := hbad (c.getTime f)
      cases hu : (c.getTime f).UnmarshalJSON v.raw with
      | mk t o =>
        rw [hu] at he
        simp only at he
        subst he
        exact ⟨e, rfl⟩
    · cases hk : lib.field k with
      | none => exact ih h c saved
      | some fld =>
        cases fld with
        | plain g => exact ih h _ _
        | time g =>
          simp only
          cases hu : (c.getTime g).UnmarshalJSON x.raw with
          | mk t o =>
            cases o with
            | some e => exact ⟨e, rfl⟩
            | none => exact ih h _ _

/-- An error in one object stops the decoding of the array. -/
theorem decodeElements_error (lib : JSONLib) (key : Bytes) (v : JSON) (f : TimeField)
    (hfield : lib.field key = some (.time f))
    (hbad : ∀ ct : CustomTime, ∃ e, (ct.UnmarshalJSON v.raw).2 = some e)
    (rawObj : Bytes) (members : List (Bytes × JSON)) (hmem : (key, v) ∈ members)
    (items : List JSON) (hitem : JSON.object rawObj members ∈ items) (saved : Bool) :
    ∃ e, decodeElements lib items saved = .error e := by
  induction items generalizing saved with
  | nil => cases hitem
  | cons x rest ih =>
    unfold decodeElements
    rcases List.mem_cons.mp hitem with h | h
    · subst h
      obtain ⟨e, he⟩ := decodeMembers_error lib key v f hfield hbad members hmem
        Certificate.zero saved
      simp only [decodeElement, he]
      exact ⟨e, rfl⟩
    · cases hx : decodeElement lib x saved with
      | error e => exact ⟨e, rfl⟩
      | ok p =>
        obtain ⟨c, saved'⟩ := p
        simp only
        obtain ⟨e, he⟩ := ih h saved'
        rw [he]
        exact ⟨e, rfl⟩

theorem fetch_error (w : World) (domain : Bytes) (resp : Response) (body raw : Bytes)
    (items : List JSON)
    (hget : w.httpGet (ascii "https://crt.sh/?q=" ++ domain ++ ascii "&output=json")
      = .ok resp)
    (hstatus : resp.StatusCode = 200) (hbody : resp.Body = .ok body)
    (hscan : w.json.scan body = some (.array raw items))
    (herr : ∃ e, decodeElements w.json items false = .error e) :
    ∃ e, fetchCertificates w domain = .error (.unmarshal (.unmarshaler e)) := by
  obtain ⟨e, he⟩ := herr
  refine ⟨e, ?_⟩
  unfold fetchCertificates
  simp only [hget]
  rw [if_neg (by simpa using hstatus)]
  simp only [hbody, Unmarshal, hscan, he]

/-! ## Lemmas: rendering -/

/-- C1: `UnmarshalJSON` applied to the two bytes `""` returns no error and sets the
value to the zero time, 0001-01-01 00:00:00 UTC, whatever the receiver held. -/
theorem C1_unmarshal_empty (ct : CustomTime) :
    ct.UnmarshalJSON [34, 34] = (⟨Time.zero⟩, none)
      ∧ Time.zero.date = (1, 1, 1) ∧ Time.zero.Clock = (0, 0, 0)
      ∧ Time.zero.Nanosecond = 0 := by
  refine ⟨?_, by decide, by decide, by decide⟩
  cases ct
  rfl

/-- C2: every quoted `YYYY-MM-DDTHH:MM:SS` or `YYYY-MM-DDTHH:MM:SS.fff` with a valid
calendar date and time of day decodes without error to the instant whose UTC
year, month, day, hour, minute and second are those written (and whose
nanosecond is the milliseconds written). -/
theorem C2_unmarshal_valid (ct : CustomTime) (y m d H M S : Nat) (f : Option Nat)
    (hy : y < 10000) (hm : 1 ≤ m ∧ m ≤ 12) (hd : 1 ≤ d ∧ (d : Int) ≤ daysIn m y)
    (hH : H < 24) (hM : M < 60) (hS : S < 60) (hf : ∀ x, f = some x → x < 1000) :
    ∃ t : Time, ct.UnmarshalJSON (quoted (stamp y m d H M S ++ millis f)) = (⟨t⟩, none)
      ∧ t.date = ((y : Int), (m : Int), (d : Int))
      ∧ t.Clock = ((H : Int), (M : Int), (S : Int))
      ∧ t.Nanosecond = ((f.getD 0 : Nat) : Int) * 1000000 := by
  have hr := Date_roundtrip y m d H M S (f.getD 0 * 1000000) hy hm hd hH hM hS
    (millis_bound f hf)
  refine ⟨Date y m d H M S ((f.getD 0 * 1000000 : Nat) : Int),
    unmarshal_stamp ct y m d H M S f hy hm hd hH hM hS hf, hr.1, hr.2.1, ?_⟩
  rw [hr.2.2]; push_cast; rfl

/-- Witness for C2: the timestamp `"2021-03-05T10:15:30.123"`. -/
theorem C2_unmarshal_valid_witness :
    quoted (stamp 2021 3 5 10 15 30 ++ millis (some 123))
        = [34, 50, 48, 50, 49, 45, 48, 51, 45, 48, 53, 84, 49, 48, 58, 49, 53, 58, 51, 48, 46,
            49, 50, 51, 34]
      ∧ ∃ t : Time, (⟨Time.zero⟩ : CustomTime).UnmarshalJSON
          (quoted (stamp 2021 3 5 10 15 30 ++ millis (some 123))) = (⟨t⟩, none)
        ∧ t.date = (2021, 3, 5) ∧ t.Clock = (10, 15, 30) ∧ t.Nanosecond = 123 * 1000000 :=
  ⟨by decide, C2_unmarshal_valid ⟨Time.zero⟩ 2021 3 5 10 15 30 (some 123) (by decide)
    (by decide) (by decide) (by decide) (by decide) (by decide)
    (by intro x hx; cases hx; decide)⟩

/-- C3, refuted as stated: a timestamp with four fractional digits, one with a
one-digit hour and one with a comma before the fraction do not have the claimed
format, yet each decodes without error, and a batch holding the first is
fetched without error. -/
theorem C3_counterexample :
    claimedFormat (ascii "2021-03-05T10:15:30.1234") = false
      ∧ CustomTime.UnmarshalJSON ⟨Time.zero⟩ (quoted (ascii "2021-03-05T10:15:30.1234"))
        = (⟨Date 2021 3 5 10 15 30 123400000⟩, none)
      ∧ claimedFormat (ascii "2021-03-05T9:15:30") = false
      ∧ CustomTime.UnmarshalJSON ⟨Time.zero⟩ (quoted (ascii "2021-03-05T9:15:30"))
        = (⟨Date 2021 3 5 9 15 30 0⟩, none)
      ∧ claimedFormat (ascii "2021-03-05T10:15:30,123") = false
      ∧ CustomTime.UnmarshalJSON ⟨Time.zero⟩ (quoted (ascii "2021-03-05T10:15:30,123"))
        = (⟨Date 2021 3 5 10 15 30 123000000⟩, none)
      ∧ fetchCertificates (stampWorld (ascii "2021-03-05T10:15:30.1234")) (ascii "example.com")
        = .ok [{ Certificate.zero with NotAfter := ⟨Date 2021 3 5 10 15 30 123400000⟩ }] := by
  decide

/-- C3, amended: a non-empty timestamp, the text between the quotes, that is not
`YYYY-MM-DDTh:MM:SS` or `YYYY-MM-DDThh:MM:SS` with a valid date and time of day,
optionally followed by a period or a comma and one or more digits, makes
`UnmarshalJSON` return an error, and `fetchCertificates` then returns an
unmarshal error and no records for a body in which an object of the array holds
that timestamp in a timestamp field; every other non-empty timestamp decodes
without error. -/
theorem C3_bad_timestamp (w : World) (domain : Bytes) (resp : Response)
    (body raw rawObj key : Bytes) (items : List JSON) (members : List (Bytes × JSON))
    (f : TimeField) (v : JSON)
    (hget : w.httpGet (ascii "https://crt.sh/?q=" ++ domain ++ ascii "&output=json")
      = .ok resp)
    (hstatus : resp.StatusCode = 200) (hbody : resp.Body = .ok body)
    (hscan : w.json.scan body = some (.array raw items))
    (hitem : JSON.object rawObj members ∈ items) (hmem : (key, v) ∈ members)
    (hfield : w.json.field key = some (.time f))
    (hne : Trim v.raw 34 ≠ []) (hbad : accepted (Trim v.raw 34) = false) :
    (∀ ct : CustomTime, ∃ e, ct.UnmarshalJSON v.raw = (⟨Time.zero⟩, some e))
      ∧ (∃ e, fetchCertificates w domain = .error (.unmarshal (.unmarshaler e)))
      ∧ (∀ (ct : CustomTime) (b : Bytes), Trim b 34 ≠ [] →
          ((ct.UnmarshalJSON b).2 = none ↔ accepted (Trim b 34) = true)) := by
  have h1 : ∀ ct : CustomTime, ∃ e, ct.UnmarshalJSON v.raw = (⟨Time.zero⟩, some e) :=
    fun ct => unmarshal_rejected ct v.raw hne hbad
  have h2 : ∀ ct : CustomTime, ∃ e, (ct.UnmarshalJSON v.raw).2 = some e := by
    intro ct
    obtain ⟨e, he⟩ := h1 ct
    exact ⟨e, by rw [he]⟩
  exact ⟨h1, fetch_error w domain resp body raw items hget hstatus hbody hscan
      (decodeElements_error w.json key v f hfield h2 rawObj members hmem items hitem false),
    fun ct b hb => unmarshal_ok_iff ct b hb⟩

/-- Witness for C3, amended: the timestamp `2021-03-05T10:15:30Z`, with a timezone
suffix, as the not-after of the only record of the batch. -/
theorem C3_bad_timestamp_witness :
    (∀ ct : CustomTime, ∃ e,
        ct.UnmarshalJSON (JSON.literal (quoted (ascii "2021-03-05T10:15:30Z"))).raw
          = (⟨Time.zero⟩, some e))
      ∧ (∃ e, fetchCertificates (stampWorld (ascii "2021-03-05T10:15:30Z")) (ascii "example.com")
          = .error (.unmarshal (.unmarshaler e)))
      ∧ (∀ (ct : CustomTime) (b : Bytes), Trim b 34 ≠ [] →
          ((ct.UnmarshalJSON b).2 = none ↔ accepted (Trim b 34) = true)) :=
  C3_bad_timestamp (stampWorld (ascii "2021-03-05T10:15:30Z")) (ascii "example.com")
    ⟨200, .ok (ascii "[]")⟩ (ascii "[]") [] [] (ascii "not_after")
    [.object [] [(ascii "not_after", .literal (quoted (ascii "2021-03-05T10:15:30Z")))]]
    [(ascii "not_after", .literal (quoted (ascii "2021-03-05T10:15:30Z")))] .NotAfter
    (.literal (quoted (ascii "2021-03-05T10:15:30Z"))) rfl rfl rfl rfl
    (List.mem_cons_self _ _) (List.mem_cons_self _ _) (by decide) (by decide) (by decide)

/-- C5: sorting with key `issuer` returns a permutation of the records in which
issuer names are non-decreasing in the byte-wise lexicographic order of Go
strings. -/
theorem C5_sort_issuer (w : World) (certs : List Certificate) :
    ∃ out, sortCerts w (ascii "issuer") certs = some (some out) ∧ out.Perm certs
      ∧ out.Pairwise (fun p q => stringLess q.IssuerName p.IssuerName = false) := by
  obtain ⟨out, h1, h2, h3⟩ := Slice_spec lessByIssuer_strictWeak certs
  exact ⟨out, by rw [sortCerts_issuer, h1], h2, h3⟩

/-- C6, refuted as stated: `"0000-01-01T00:00:00"` decodes without error to an
instant before the zero time, and sorting by `expiration` puts the record that
holds it before the record whose not-after is absent; `"0001-01-01T00:00:00"` and
`"0001-01-01T0:00:00"` decode to the zero time itself, and sorting leaves the
record that holds it before the absent one that follows it. -/
theorem C6_counterexample :
    CustomTime.UnmarshalJSON ⟨Time.zero⟩ (quoted (ascii "0000-01-01T00:00:00"))
        = (⟨⟨0, -31622400⟩⟩, none)
      ∧ sortCerts (sampleWorld 200) (ascii "expiration")
          [sampleCert "absent" "A" Time.zero, sampleCert "dated" "A" ⟨0, -31622400⟩]
        = some (some [sampleCert "dated" "A" ⟨0, -31622400⟩,
            sampleCert "absent" "A" Time.zero])
      ∧ CustomTime.UnmarshalJSON ⟨⟨0, -31622400⟩⟩ (quoted (ascii "0001-01-01T00:00:00"))
        = (⟨Time.zero⟩, none)
      ∧ CustomTime.UnmarshalJSON ⟨⟨0, -31622400⟩⟩ (quoted (ascii "0001-01-01T0:00:00"))
        = (⟨Time.zero⟩, none)
      ∧ sortCerts (sampleWorld 200) (ascii "expiration")
          [sampleCert "dated" "A" Time.zero, sampleCert "absent" "A" Time.zero]
        = some (some [sampleCert "dated" "A" Time.zero,
            sampleCert "absent" "A" Time.zero]) := by
  decide

/-- C6, amended: sorting with key `expiration` returns a permutation of the records
in which not-after instants are non-decreasing, and a record with a strictly
earlier not-after comes before one with a later not-after.  A non-empty timestamp
that decodes without error gives an instant before the zero time when its year
is `0000`, the zero time itself when it is `0001-01-01T00:00:00` or
`0001-01-01T0:00:00` with a fraction that is absent or whose first nine digits
are zeros, and an instant after the zero time in every other case; so the absent
records come after the records of year `0000` and before all records decoded
from a timestamp that is not one of those two kinds. -/
theorem C6_sort_expiration (w : World) (certs : List Certificate) :
    (∃ out, sortCerts w (ascii "expiration") certs = some (some out) ∧ out.Perm certs
      ∧ out.Pairwise (fun p q => q.NotAfter.Time.Before p.NotAfter.Time = false)
      ∧ (∀ (i j : Nat) (p q : Certificate), out[i]? = some p → out[j]? = some q →
          p.NotAfter.Time.Before q.NotAfter.Time = true → i < j)
      ∧ (∀ (i j : Nat) (p q : Certificate), out[i]? = some p → out[j]? = some q →
          p.NotAfter.Time = Time.zero → Time.zero.Before q.NotAfter.Time = true → i < j)
      ∧ (∀ (i j : Nat) (p q : Certificate), out[i]? = some p → out[j]? = some q →
          p.NotAfter.Time.Before Time.zero = true → q.NotAfter.Time = Time.zero → i < j))
    ∧ ∀ (ct : CustomTime) (b : Bytes) (t : Time), Trim b 34 ≠ [] →
        ct.UnmarshalJSON b = (⟨t⟩, none) →
        ((Trim b 34).take 4 = ascii "0000" → t.Before Time.zero = true)
          ∧ ((Trim b 34).take 4 ≠ ascii "0000" → zeroStamp (Trim b 34) = false →
              Time.zero.Before t = true)
          ∧ (zeroStamp (Trim b 34) = true → t = Time.zero) := by
  constructor
  · obtain ⟨out, h1, h2, h3⟩ := Slice_spec lessByExpiration_strictWeak certs
    refine ⟨out, by rw [sortCerts_expiration, h1], h2, h3, ?_, ?_, ?_⟩
    · intro i j p q hp hq hlt
      exact earlier_first out h3 i j p q hp hq hlt
    · intro i j p q hp hq hz hl
      exact earlier_first out h3 i j p q hp hq (by rw [hz]; exact hl)
    · intro i j p q hp hq hl hz
      exact earlier_first out h3 i j p q hp hq (by rw [hz]; exact hl)
  · intro ct b t hne h
    exact decoded_order ct b t hne h

/-- C7, refuted as stated: sorting thirteen records by issuer, the first issued by
`B` and the others by `A`, moves the seventh record in front of the second to
sixth, which have the same issuer. -/
theorem C7_counterexample :
    sortCerts (sampleWorld 200) (ascii "issuer") thirteenCerts = some (some thirteenSorted)
      ∧ ¬ Stable lessByIssuer thirteenCerts thirteenSorted := by
  refine ⟨by decide, ?_⟩
  intro h
  have := h (sampleCert "c01" "A" Time.zero)
  revert this
  decide

/-- C7, amended: for every sequence of at most twelve records and for both sort
keys the sort is stable: the records that tie on the key keep the relative order
they have in the fetched sequence. -/
theorem C7_stable_small (w : World) (certs : List Certificate) (h : certs.length ≤ 12) :
    (∃ out, sortCerts w (ascii "issuer") certs = some (some out)
        ∧ Stable lessByIssuer certs out)
      ∧ (∃ out, sortCerts w (ascii "expiration") certs = some (some out)
        ∧ Stable lessByExpiration certs out) := by
  constructor
  · obtain ⟨out, h1, h2⟩ := Slice_stable_small lessByIssuer_strictWeak certs h
    exact ⟨out, by rw [sortCerts_issuer, h1], h2⟩
  · obtain ⟨out, h1, h2⟩ := Slice_stable_small lessByExpiration_strictWeak certs h
    exact ⟨out, by rw [sortCerts_expiration, h1], h2⟩

/-- Witness for C7, amended: two records with the same issuer. -/
theorem C7_stable_small_witness :
    (∃ out, sortCerts (sampleWorld 200) (ascii "issuer")
          [sampleCert "x" "A" Time.zero, sampleCert "y" "A" Time.zero] = some (some out)
        ∧ Stable lessByIssuer [sampleCert "x" "A" Time.zero, sampleCert "y" "A" Time.zero] out)
      ∧ (∃ out, sortCerts (sampleWorld 200) (ascii "expiration")
          [sampleCert "x" "A" Time.zero, sampleCert "y" "A" Time.zero] = some (some out)
        ∧ Stable lessByExpiration
          [sampleCert "x" "A" Time.zero, sampleCert "y" "A" Time.zero] out) :=
  C7_stable_small (sampleWorld 200) [sampleCert "x" "A" Time.zero, sampleCert "y" "A" Time.zero]
    (by decide)

/-- C8: the text written by `printCertificates` is the concatenation, in sequence
order, of one block per record, each block being the record's field lines
followed by one empty line; and a run without a sort key renders the records in
the fetched order. -/
theorem C8_blocks (w : World) (flags : Flags) (certs : List Certificate)
    (hurl : flags.url ≠ []) (hfetch : fetchCertificates w flags.url = .ok certs)
    (hsort : flags.sort = [])
    (hout : flags.output = [] ∨ w.osCreate flags.output = .ok ()) :
    (∀ (sink : Bytes) (cs : List Certificate) (verbose : Bool),
        printCertificates sink cs verbose
          = sink ++ (cs.map fun c => block c verbose).flatten
        ∧ (cs.map fun c => block c verbose).length = cs.length
        ∧ ∀ c, block c verbose
            = ((fieldLines c verbose).map fun line => line ++ [10]).flatten ++ [10])
    ∧ ∃ o, main w flags = some o ∧ o.exit = 0
        ∧ o.rendered = [(certs.map fun c => block c flags.v).flatten] := by
  constructor
  · intro sink cs verbose
    exact ⟨printCertificates_eq sink cs verbose, by simp, fun c => rfl⟩
  · refine ⟨render w flags certs [.searching flags.url], ?_, ?_⟩
    · rw [main_eq w flags certs hurl hfetch, if_neg (by simpa using hsort)]
    · have := render_rendered w flags certs [.searching flags.url]
        (by intro p hp t; simp at hp; subst hp; simp) hout
      rw [printCertificates_eq, List.nil_append] at this
      exact this

/-- Witness for C8: two fetched records, no sort key, standard output. -/
theorem C8_blocks_witness :
    (∀ (sink : Bytes) (cs : List Certificate) (verbose : Bool),
        printCertificates sink cs verbose
          = sink ++ (cs.map fun c => block c verbose).flatten
        ∧ (cs.map fun c => block c verbose).length = cs.length
        ∧ ∀ c, block c verbose
            = ((fieldLines c verbose).map fun line => line ++ [10]).flatten ++ [10])
    ∧ ∃ o, main (sampleWorld 200) ⟨ascii "example.com", true, [], []⟩ = some o ∧ o.exit = 0
        ∧ o.rendered = [([sampleCert "" "B" Time.zero, sampleCert "" "A" Time.zero].map
            fun c => block c true).flatten] :=
  C8_blocks (sampleWorld 200) ⟨ascii "example.com", true, [], []⟩
    [sampleCert "" "B" Time.zero, sampleCert "" "A" Time.zero] (by decide) (by decide) rfl
    (Or.inl rfl)

/-- C10: when the endpoint answers with a status code other than 200,
`fetchCertificates` returns the status error carrying that code and no records,
whatever the body and the JSON decoder are, and the run prints the error and
exits with status 1 without creating a file or rendering anything. -/
theorem C10_status (w : World) (flags : Flags) (resp : Response) (hurl : flags.url ≠ [])
    (hget : w.httpGet (ascii "https://crt.sh/?q=" ++ flags.url ++ ascii "&output=json")
      = .ok resp)
    (hstatus : resp.StatusCode ≠ 200) :
    fetchCertificates w flags.url = .error (.status resp.StatusCode)
      ∧ (∀ (body : Except Bytes Bytes) (lib : JSONLib),
          fetchCertificates
            { w with httpGet := fun _ => .ok ⟨resp.StatusCode, body⟩, json := lib } flags.url
            = .error (.status resp.StatusCode))
      ∧ main w flags
          = some ⟨[.searching flags.url, .fetchError (.status resp.StatusCode)], 1, none⟩
      ∧ (Outcome.rendered
          ⟨[.searching flags.url, .fetchError (.status resp.StatusCode)], 1, none⟩) = [] := by
  have h1 : fetchCertificates w flags.url = .error (.status resp.StatusCode) := by
    unfold fetchCertificates
    simp only [hget]
    rw [if_pos hstatus]
  refine ⟨h1, ?_, main_eq_error w flags _ hurl h1, rfl⟩
  intro body lib
  unfold fetchCertificates
  simp only
  rw [if_pos hstatus]

/-- Witness for C10: status 503. -/
theorem C10_status_witness :
    fetchCertificates (sampleWorld 503) (ascii "example.com") = .error (.status 503)
      ∧ (∀ (body : Except Bytes Bytes) (lib : JSONLib),
          fetchCertificates
            { sampleWorld 503 with httpGet := fun _ => .ok ⟨503, body⟩, json := lib }
            (ascii "example.com") = .error (.status 503))
      ∧ main (sampleWorld 503) ⟨ascii "example.com", false, [], ascii "out.txt"⟩
          = some ⟨[.searching (ascii "example.com"), .fetchError (.status 503)], 1, none⟩
      ∧ (Outcome.rendered
          ⟨[.searching (ascii "example.com"), .fetchError (.status 503)], 1, none⟩) = [] :=
  C10_status (sampleWorld 503) ⟨ascii "example.com", false, [], ascii "out.txt"⟩
    ⟨503, .ok (ascii "[]")⟩ (by decide) rfl (by decide)
end C3LI
